import Mathlib

/-!
Verification of the kip-lang compiler front end (parser, scope checker,
code generator, local CSE optimizer) against its specification.

The definitions below are a shallow embedding of the Rust sources under
`src/compiler/src/`.  Symbols (interned names) are modelled as `String`;
Rust `HashMap` tables are modelled as association lists (Rust's iteration
order over a `HashMap` is unspecified; the model fixes insertion order —
every concrete input used to settle a claim performs each lookup with at
most one matching entry, so the modelled behaviour coincides with the
program's for those inputs).
-/

set_option maxHeartbeats 1600000

namespace Kip

abbrev Symbol := String

/-- `ast/op.rs`: the thirteen binary operators. -/
inductive BinOp where
  | mul | div | mod | add | sub
  | ge | gt | lt | le
  | eq | ne
  | and | or
deriving DecidableEq, Repr

/-- `ast/op.rs`: unary operators. -/
inductive UnOp where
  | not | neg
deriving DecidableEq, Repr

/-! ## Intermediate code (`codegen/ic.rs`) -/

/-- `ic.rs` `ConstKind`. -/
inductive ConstKind where
  | int (value : Int)
  | str (s : Symbol)
deriving DecidableEq, Repr

/-- `ic.rs` `Primary`. -/
inductive Primary where
  | const (k : ConstKind)
  | var (n : Symbol)
deriving DecidableEq, Repr

/-- `ic.rs` `Expr` (IR-level expression, distinct from the AST `Expr`). -/
inductive IcExpr where
  | call (f : Symbol)
  | binary (op : BinOp) (lhs rhs : Primary)
  | primary (p : Primary)
deriving DecidableEq, Repr

/-- `ic.rs` `Instruction`. -/
inductive Instruction where
  | label (n : Symbol)
  | assign (dest : Symbol) (e : IcExpr)
  | goto (l : Symbol)
  | ifz (cond : Primary) (l : Symbol)
  | arg (p : Primary)
  | ret (p : Option Primary)
deriving DecidableEq, Repr

namespace Instruction

/-- `Instruction::is_ifz`. -/
def is_ifz : Instruction → Bool
  | .ifz _ _ => true
  | _ => false

/-- `Instruction::is_label`. -/
def is_label : Instruction → Bool
  | .label _ => true
  | _ => false

end Instruction

/-! ## The optimizer (`codegen/optimize.rs` and `codegen/mod.rs`) -/

/-- One entry of the `available_exprs : HashMap<Symbol, Expr>` map. -/
abbrev AvailMap := List (Symbol × IcExpr)

/-- The `for (available_symbol, available_expr) in available_exprs.iter()`
loop of `elim_common_subexprs`: every entry whose expression equals `e`
overwrites the candidate, so the entry seen last in iteration order wins
(the model iterates in insertion order). -/
def lookupMatch (avail : AvailMap) (e : IcExpr) : Option Symbol :=
  avail.foldl (fun acc p => if p.2 = e then some p.1 else acc) none

/-- `HashMap::insert`: replaces the value when the key is present,
otherwise adds the entry. -/
def availInsert (avail : AvailMap) (s : Symbol) (e : IcExpr) : AvailMap :=
  if avail.any (fun p => p.1 = s) then
    avail.map (fun p => if p.1 = s then (s, e) else p)
  else
    avail ++ [(s, e)]

/-- Loop body of `elim_common_subexprs` (`optimize.rs` lines 11-27):
an `Assign` whose right-hand side was already computed is rewritten to a
copy of the earlier destination; the map always records the instruction's
original expression keyed by its destination. -/
def elimGo (avail : AvailMap) : List Instruction → List Instruction
  | [] => []
  | i :: rest =>
    match i with
    | .assign s e =>
      let opt : Instruction :=
        match lookupMatch avail e with
        | some a => .assign s (.primary (.var a))
        | none => .assign s e
      opt :: elimGo (availInsert avail s e) rest
    | _ => i :: elimGo avail rest

/-- `optimize.rs` `elim_common_subexprs`. -/
def elim_common_subexprs (block : List Instruction) : List Instruction :=
  elimGo [] block

/-- The block-boundary predicate of `CodeGenerator::optimize` /
`optimize_mut`: `|i| i.is_ifz() || i.is_label()`. -/
def isBoundary (i : Instruction) : Bool :=
  i.is_ifz || i.is_label

/-- `slice::split_inclusive`: splits after every element satisfying `p`;
the matched element ends its chunk, and no empty trailing chunk is
produced. -/
def splitInclusive (p : Instruction → Bool) : List Instruction → List (List Instruction)
  | [] => []
  | x :: xs =>
    if p x then [x] :: splitInclusive p xs
    else
      match splitInclusive p xs with
      | [] => [[x]]
      | b :: bs => (x :: b) :: bs

/-- `CodeGenerator::optimize` (`codegen/mod.rs` lines 157-168), acting on
the instruction list: split into basic blocks, CSE each block, and
concatenate the results. -/
def optimizeInstrs (l : List Instruction) : List Instruction :=
  ((splitInclusive isBoundary l).map elim_common_subexprs).flatten

/-- `codegen/mod.rs` `CodeGenerator` state: the flat instruction list and
the two temporary counters. -/
structure CodeGenerator where
  instructions : List Instruction
  tmp_var : Nat
  tmp_label : Nat
deriving DecidableEq, Repr

/-- `CodeGenerator::optimize_mut` (`codegen/mod.rs` lines 145-155): the
Rust code iterates the basic blocks and calls `elim_common_subexprs`,
which takes the block by shared reference and returns a *new* vector —
a return value the caller drops on the spot.  Nothing is written back, so
the generator state is returned unchanged. -/
def CodeGenerator.optimize_mut (g : CodeGenerator) : CodeGenerator :=
  let discarded := (splitInclusive isBoundary g.instructions).map elim_common_subexprs
  let _ := discarded
  g

/-- `CodeGenerator::optimize` as a method (used by
`optimized_intermediate_code`): builds a fresh optimized list without
touching the stored one. -/
def CodeGenerator.optimize (g : CodeGenerator) : List Instruction :=
  optimizeInstrs g.instructions

end Kip

namespace Kip

/-! ### Structural lemmas about the optimizer -/

/-- The part of an instruction that CSE can never change: everything except
an `Assign`'s right-hand side. -/
inductive InstrShape where
  | label (n : Symbol)
  | assignTo (dest : Symbol)
  | goto (l : Symbol)
  | ifz (cond : Primary) (l : Symbol)
  | arg (p : Primary)
  | ret (p : Option Primary)
deriving DecidableEq, Repr

def Instruction.shape : Instruction → InstrShape
  | .label n => .label n
  | .assign d _ => .assignTo d
  | .goto l => .goto l
  | .ifz c l => .ifz c l
  | .arg p => .arg p
  | .ret p => .ret p

theorem elimGo_map_shape (b : List Instruction) :
    ∀ avail, (elimGo avail b).map Instruction.shape = b.map Instruction.shape := by
  induction b with
  | nil => intro avail; rfl
  | cons i rest ih =>
    intro avail
    cases i with
    | assign s e =>
      cases h : lookupMatch avail e with
      | none => simp [elimGo, h, Instruction.shape, ih]
      | some a => simp [elimGo, h, Instruction.shape, ih]
    | label n => simp [elimGo, Instruction.shape, ih]
    | goto l => simp [elimGo, Instruction.shape, ih]
    | ifz c l => simp [elimGo, Instruction.shape, ih]
    | arg p => simp [elimGo, Instruction.shape, ih]
    | ret p => simp [elimGo, Instruction.shape, ih]

theorem splitInclusive_ne_nil (p : Instruction → Bool) (x : Instruction)
    (xs : List Instruction) : splitInclusive p (x :: xs) ≠ [] := by
  unfold splitInclusive
  by_cases h : p x
  · simp [h]
  · simp only [h]
    cases splitInclusive p xs <;> simp

theorem splitInclusive_flatten (p : Instruction → Bool) :
    ∀ l, (splitInclusive p l).flatten = l := by
  intro l
  induction l with
  | nil => rfl
  | cons x xs ih =>
    unfold splitInclusive
    by_cases h : p x
    · simp [h, ih]
    · simp only [h, if_false, Bool.false_eq_true]
      cases hs : splitInclusive p xs with
      | nil =>
        have : xs = [] := by
          have := ih
          rw [hs] at this
          simpa using this.symm
        simp [this]
      | cons b bs =>
        have := ih
        rw [hs] at this
        simpa using this

theorem splitInclusive_cons (p : Instruction → Bool) (x : Instruction)
    (xs : List Instruction) :
    splitInclusive p (x :: xs) =
      if p x then [x] :: splitInclusive p xs
      else
        match splitInclusive p xs with
        | [] => [[x]]
        | b :: bs => (x :: b) :: bs := by
  rw [splitInclusive]

theorem splitInclusive_append (p : Instruction → Bool) (m : Instruction)
    (hm : p m = true) :
    ∀ l₁ l₂, splitInclusive p (l₁ ++ m :: l₂)
      = splitInclusive p (l₁ ++ [m]) ++ splitInclusive p l₂ := by
  intro l₁
  induction l₁ with
  | nil =>
    intro l₂
    simp only [List.nil_append]
    rw [splitInclusive_cons, if_pos hm, splitInclusive_cons, if_pos hm]
    simp [splitInclusive]
  | cons x l₁ ih =>
    intro l₂
    simp only [List.cons_append]
    rw [splitInclusive_cons, splitInclusive_cons]
    by_cases h : p x
    · rw [if_pos h, if_pos h, ih]
      simp
    · rw [if_neg h, if_neg h, ih]
      cases hs : splitInclusive p (l₁ ++ [m]) with
      | nil => exact absurd hs (by cases l₁ <;> exact splitInclusive_ne_nil p _ _)
      | cons b bs => simp

theorem optimizeInstrs_map_shape (l : List Instruction) :
    (optimizeInstrs l).map Instruction.shape = l.map Instruction.shape := by
  unfold optimizeInstrs
  rw [List.map_flatten, List.map_map]
  have harg : ((splitInclusive isBoundary l).map
        (List.map Instruction.shape ∘ elim_common_subexprs))
      = (splitInclusive isBoundary l).map (List.map Instruction.shape) := by
    apply List.map_congr_left
    intro b _
    exact elimGo_map_shape b []
  rw [harg, ← List.map_flatten, splitInclusive_flatten]

theorem optimizeInstrs_boundary_split (l₁ l₂ : List Instruction)
    (m : Instruction) (hm : isBoundary m = true) :
    optimizeInstrs (l₁ ++ m :: l₂)
      = optimizeInstrs (l₁ ++ [m]) ++ optimizeInstrs l₂ := by
  unfold optimizeInstrs
  rw [splitInclusive_append isBoundary m hm, List.map_append, List.flatten_append]

/-- Concrete input refuting CSE idempotence: an `Add` computed into `b`,
a copy of `b` into `d`, then the same `Add` recomputed into `c`. -/
def cseCx : List Instruction :=
  [.assign "b" (.binary .add (.var "x") (.var "y")),
   .assign "d" (.primary (.var "b")),
   .assign "c" (.binary .add (.var "x") (.var "y"))]

/-- Claim C3 (counterexample): the optimizer is not idempotent.  On
`cseCx` the first pass rewrites the third instruction to the copy
`c := b`, which the second pass then rewrites again to `c := d`, because
the first pass left `d ↦ Primary(Var b)` available.  Every expression
lookup involved has at most one matching map entry, so this holds for any
`HashMap` iteration order. -/
theorem cse_not_idempotent_cx :
    optimizeInstrs (optimizeInstrs cseCx) ≠ optimizeInstrs cseCx := by
  decide

/-- Claim C3 (amended): applying the optimizer twice yields a list of the
same length, with the same instruction kinds, the same `Assign`
destinations and identical non-`Assign` instructions in the same
positions as applying it once; only `Assign` right-hand sides may be
rewritten further, so full idempotence does not hold. -/
theorem optimizer_second_pass_preserves_shape (l : List Instruction) :
    (optimizeInstrs (optimizeInstrs l)).map Instruction.shape
        = (optimizeInstrs l).map Instruction.shape
      ∧ (optimizeInstrs (optimizeInstrs l)).length = (optimizeInstrs l).length := by
  refine ⟨optimizeInstrs_map_shape (optimizeInstrs l), ?_⟩
  have h := congrArg List.length (optimizeInstrs_map_shape (optimizeInstrs l))
  simpa using h

/-- Claim C7: CSE is local to basic blocks delimited immediately after
each `Ifz` or `Label`: the instruction list after a boundary is optimized
independently of everything before it (so identical right-hand sides
separated by a `Label` or `Ifz` are never merged — second and third
conjuncts), while two identical `Assign` right-hand sides in straight
line are merged, the later one rewritten to reference the earlier
destination (fourth conjunct). -/
theorem cse_block_locality :
    (∀ (l₁ l₂ : List Instruction) (m : Instruction), isBoundary m = true →
        optimizeInstrs (l₁ ++ m :: l₂)
          = optimizeInstrs (l₁ ++ [m]) ++ optimizeInstrs l₂)
    ∧ (∀ (a b L : Symbol) (e : IcExpr),
        optimizeInstrs [.assign a e, .label L, .assign b e]
          = [.assign a e, .label L, .assign b e])
    ∧ (∀ (a b c L : Symbol) (e : IcExpr),
        optimizeInstrs [.assign a e, .ifz (.var c) L, .assign b e]
          = [.assign a e, .ifz (.var c) L, .assign b e])
    ∧ (∀ (a b : Symbol) (e : IcExpr),
        optimizeInstrs [.assign a e, .assign b e]
          = [.assign a e, .assign b (.primary (.var a))]) := by
  refine ⟨optimizeInstrs_boundary_split, ?_, ?_, ?_⟩
  · intro a b L e
    simp [optimizeInstrs, splitInclusive, isBoundary, Instruction.is_ifz,
      Instruction.is_label, elim_common_subexprs, elimGo, lookupMatch, availInsert]
  · intro a b c L e
    simp [optimizeInstrs, splitInclusive, isBoundary, Instruction.is_ifz,
      Instruction.is_label, elim_common_subexprs, elimGo, lookupMatch, availInsert]
  · intro a b e
    simp [optimizeInstrs, splitInclusive, isBoundary, Instruction.is_ifz,
      Instruction.is_label, elim_common_subexprs, elimGo, lookupMatch, availInsert]

/-- Witness for claim C7: the locality theorem applied at a concrete
boundary instruction. -/
theorem cse_block_locality_witness :
    optimizeInstrs ([Instruction.assign "a" (.primary (.var "x"))]
        ++ Instruction.label "L" :: [Instruction.assign "b" (.primary (.var "x"))])
      = optimizeInstrs ([Instruction.assign "a" (.primary (.var "x"))]
          ++ [Instruction.label "L"])
        ++ optimizeInstrs [Instruction.assign "b" (.primary (.var "x"))] :=
  cse_block_locality.1 _ _ (Instruction.label "L") (by decide)

end Kip

namespace Kip

/-! ## AST model (`ast/`) -/

/-- `ast/region.rs` `Region`: a byte range given by start offset and
length. -/
structure Region where
  start : Nat
  len : Nat
deriving DecidableEq, Repr

namespace Region

/-- `Region::end`. -/
def endPos (r : Region) : Nat := r.start + r.len

/-- `Region::new(start, end)` (length is `end - start`). -/
def new (s e : Nat) : Region := ⟨s, e - s⟩

/-- `Region::to`: union region (min start, max end). -/
def to' (r e : Region) : Region :=
  Region.new (min r.start e.start) (max r.endPos e.endPos)

end Region

/-- `ast/lit.rs` `Lit`. -/
inductive Lit where
  | int (value : Int)
  | str (s : Symbol)
  | chr (c : Char)
deriving DecidableEq, Repr

/-- `ast/ty.rs` `Type` (`IntSize` is carried as a plain number here; the
parser only ever constructs the sizes 8/16/32/64). -/
inductive Ty where
  | int (signed : Bool) (size : Nat)
  | bool
  | void
  | tyname (n : Symbol)
deriving DecidableEq, Repr

/-- `ast/stmt.rs` `Param`. -/
structure Param where
  name : Symbol
  ty : Ty
deriving DecidableEq, Repr

/-- `ast/stmt.rs` `FuncProto`. -/
structure FuncProto where
  name : Symbol
  params : List Param
  ret : Ty
  region : Region
deriving DecidableEq, Repr

mutual
/-- `ast/expr.rs` `Expr`: each constructor carries the node's `ExprKind`
payload together with its `Region` (the Rust struct pairs a kind with a
region; the embedding flattens that pair into the constructors). -/
inductive Expr where
  | lit (l : Lit) (region : Region)
  | evar (n : Symbol) (region : Region)
  | unary (op : UnOp) (rhs : Expr) (region : Region)
  | binary (op : BinOp) (lhs rhs : Expr) (region : Region)
  | call (f : Symbol) (args : List Expr) (region : Region)
  | cond (c : Expr) (thenB : List Stmt) (elseB : Option (List Stmt)) (region : Region)
  | assign (n : Symbol) (value : Expr) (region : Region)
deriving Repr

/-- `ast/stmt.rs` `Stmt` (`exfn` models the `Extern` variant, renamed
because the original word is reserved here). -/
inductive Stmt where
  | expr (e : Expr) (region : Region)
  | ret (e : Expr) (region : Region)
  | svar (n : Symbol) (init : Expr) (region : Region)
  | block (b : List Stmt) (region : Region)
  | func (proto : FuncProto) (body : List Stmt) (region : Region)
  | exfn (proto : FuncProto) (region : Region)
  | impt (n : Symbol) (region : Region)
deriving Repr
end

/-- `Expr::region`. -/
def Expr.region : Expr → Region
  | .lit _ r => r
  | .evar _ r => r
  | .unary _ _ r => r
  | .binary _ _ _ r => r
  | .call _ _ r => r
  | .cond _ _ _ r => r
  | .assign _ _ r => r

/-! ## Code generator (`codegen/mod.rs`) -/

/-- Failure modes of the Rust code generator: `todo!()` panics and
`Option::unwrap` on `None`. -/
inductive GenErr where
  | todo
  | unwrapNone
deriving DecidableEq, Repr

namespace CodeGenerator

/-- `CodeGenerator::new` / `Default`. -/
def new : CodeGenerator := ⟨[], 0, 0⟩

def emit (g : CodeGenerator) (i : Instruction) : CodeGenerator :=
  { g with instructions := g.instructions ++ [i] }

/-- `new_tmp_var`: returns `_t{n}` and bumps the counter. -/
def new_tmp_var (g : CodeGenerator) : Symbol × CodeGenerator :=
  ("_t" ++ toString g.tmp_var, { g with tmp_var := g.tmp_var + 1 })

/-- `new_tmp_label`: returns `_L{n}` and bumps the counter. -/
def new_tmp_label (g : CodeGenerator) : Symbol × CodeGenerator :=
  ("_L" ++ toString g.tmp_label, { g with tmp_label := g.tmp_label + 1 })

def emit_assign (g : CodeGenerator) (n : Symbol) (e : IcExpr) : CodeGenerator :=
  g.emit (.assign n e)

def emit_assign_const_int (g : CodeGenerator) (n : Symbol) (k : Int) : CodeGenerator :=
  g.emit_assign n (.primary (.const (.int k)))

def emit_assign_const_str (g : CodeGenerator) (n s : Symbol) : CodeGenerator :=
  g.emit_assign n (.primary (.const (.str s)))

def emit_assign_var (g : CodeGenerator) (n init : Symbol) : CodeGenerator :=
  g.emit_assign n (.primary (.var init))

def emit_assign_call (g : CodeGenerator) (n f : Symbol) : CodeGenerator :=
  g.emit_assign n (.call f)

def emit_assign_binary (g : CodeGenerator) (n : Symbol) (op : BinOp)
    (lhs rhs : Symbol) : CodeGenerator :=
  g.emit_assign n (.binary op (.var lhs) (.var rhs))

def emit_arg (g : CodeGenerator) (n : Symbol) : CodeGenerator :=
  g.emit (.arg (.var n))

def emit_ifz (g : CodeGenerator) (c l : Symbol) : CodeGenerator :=
  g.emit (.ifz (.var c) l)

def emit_label (g : CodeGenerator) (l : Symbol) : CodeGenerator :=
  g.emit (.label l)

def emit_ret (g : CodeGenerator) (v : Option Symbol) : CodeGenerator :=
  g.emit (.ret (v.map Primary.var))

def emit_goto (g : CodeGenerator) (l : Symbol) : CodeGenerator :=
  g.emit (.goto l)

end CodeGenerator

mutual
/-- `walk_stmt` (`ast/visit.rs` lines 52-62) dispatching into the
`StmtVisitor` impl of `CodeGenerator`.  Note that `walk_stmt` sends
`StmtKind::Ret` to `visit_expr_stmt` (visit.rs line 55), so
`visit_ret_stmt` — the method that would emit a `Ret` instruction — is
never reached. -/
def genStmt (s : Stmt) (g : CodeGenerator) :
    Except GenErr (Option Symbol × CodeGenerator) :=
  match s with
  | .expr e _ => genExpr e g
  | .ret e _ => genExpr e g
  | .svar n init _ => do
    let (t?, g) ← genExpr init g
    match t? with
    | some t => .ok (none, g.emit_assign_var n t)
    | none => .error .unwrapNone
  | .block b _ => do
    let g ← genStmts b g
    .ok (none, g)
  | .func proto body _ => do
    let g ← genStmts body (g.emit_label proto.name)
    .ok (none, g)
  | .exfn _ _ => .ok (none, g)
  | .impt _ _ => .ok (none, g)

/-- `walk_expr` dispatching into the `ExprVisitor` impl of
`CodeGenerator` (`codegen/mod.rs` lines 212-308).  `visit_unary_expr` is
`todo!()`. -/
def genExpr (e : Expr) (g : CodeGenerator) :
    Except GenErr (Option Symbol × CodeGenerator) :=
  match e with
  | .lit (.int k) _ =>
    let (t, g) := g.new_tmp_var
    .ok (some t, g.emit_assign_const_int t k)
  | .lit (.str s) _ =>
    let (t, g) := g.new_tmp_var
    .ok (some t, g.emit_assign_const_str t s)
  | .lit (.chr c) _ =>
    let (t, g) := g.new_tmp_var
    .ok (some t, g.emit_assign_const_int t (c.toNat : Int))
  | .evar v _ =>
    let (t, g) := g.new_tmp_var
    .ok (some t, g.emit_assign_var t v)
  | .unary _ _ _ => .error .todo
  | .binary op lhs rhs _ => do
    let (t1?, g) ← genExpr lhs g
    match t1? with
    | none => .error .unwrapNone
    | some t1 => do
      let (t2?, g) ← genExpr rhs g
      match t2? with
      | none => .error .unwrapNone
      | some t2 =>
        let (t, g) := g.new_tmp_var
        .ok (some t, g.emit_assign_binary t op t1 t2)
  | .call f args _ => do
    let g ← genArgs args g
    let (t, g) := g.new_tmp_var
    .ok (some t, g.emit_assign_call t f)
  | .cond c tB eB _ => do
    let (tc?, g) ← genExpr c g
    match tc? with
    | none => .error .unwrapNone
    | some tc =>
      let (elseL, g) := g.new_tmp_label
      let (endL, g) := g.new_tmp_label
      let g := g.emit_ifz tc elseL
      let g ← genStmts tB g
      let g := if eB.isSome then g.emit_goto endL else g
      let g := g.emit_label elseL
      match eB with
      | some bb => do
        let g ← genStmts bb g
        .ok (none, g.emit_label endL)
      | none => .ok (none, g)
  | .assign n v _ => do
    let (t?, g) ← genExpr v g
    match t? with
    | some t => .ok (some n, g.emit_assign_var n t)
    | none => .error .unwrapNone

/-- `CodeGenerator::visit_block`: walks each statement, discarding the
per-statement results. -/
def genStmts (l : List Stmt) (g : CodeGenerator) : Except GenErr CodeGenerator :=
  match l with
  | [] => .ok g
  | s :: rest => do
    let (_, g) ← genStmt s g
    genStmts rest g

/-- The argument loop of `visit_call_expr`: lower each argument and emit
an `Arg` per argument, left to right. -/
def genArgs (l : List Expr) (g : CodeGenerator) : Except GenErr CodeGenerator :=
  match l with
  | [] => .ok g
  | a :: rest => do
    let (t?, g) ← genExpr a g
    match t? with
    | some t => genArgs rest (g.emit_arg t)
    | none => .error .unwrapNone
end

/-- `CodeGenerator::gen`: walk every top-level statement, then run the
(mutation-free) `optimize_mut`. -/
def gen (m : List Stmt) (g : CodeGenerator) : Except GenErr CodeGenerator := do
  let g ← genStmts m g
  .ok g.optimize_mut

end Kip

namespace Kip

instance {ε α : Type} [DecidableEq ε] [DecidableEq α] : DecidableEq (Except ε α) :=
  fun x y =>
    match x, y with
    | .ok a, .ok b =>
      if h : a = b then isTrue (by rw [h])
      else isFalse (by intro hc; cases hc; exact h rfl)
    | .error a, .error b =>
      if h : a = b then isTrue (by rw [h])
      else isFalse (by intro hc; cases hc; exact h rfl)
    | .ok _, .error _ => isFalse (by intro hc; cases hc)
    | .error _, .ok _ => isFalse (by intro hc; cases hc)

/-- `Instruction::is_ret`-style discriminator (not in the source; used
only to state that no `Ret` instruction occurs in an output). -/
def Instruction.isRet : Instruction → Bool
  | .ret _ => true
  | _ => false

/-- A module whose single function body is exactly `ret a + b;`. -/
def retAddModule : List Stmt :=
  [.func ⟨"f", [], .void, ⟨0, 15⟩⟩
     [.ret (.binary .add (.evar "a" ⟨4, 1⟩) (.evar "b" ⟨8, 1⟩) ⟨4, 5⟩) ⟨0, 10⟩] ⟨0, 15⟩]

/-- Claim C1 (code bug): generating code for `ret a + b;` inside a
function loads `a` and `b` into temporaries and combines them with `Add`,
but emits no `Ret` instruction at all: `walk_stmt` (visit.rs line 55)
dispatches `StmtKind::Ret` to `visit_expr_stmt`, so
`CodeGenerator::visit_ret_stmt` — the method that would emit
`Ret(optional temp)` — is unreachable. -/
theorem ret_stmt_emits_no_ret :
    gen retAddModule CodeGenerator.new
      = .ok ⟨[.label "f",
              .assign "_t0" (.primary (.var "a")),
              .assign "_t1" (.primary (.var "b")),
              .assign "_t2" (.binary .add (.var "_t0") (.var "_t1"))], 3, 0⟩
    ∧ ([Instruction.label "f",
        .assign "_t0" (.primary (.var "a")),
        .assign "_t1" (.primary (.var "b")),
        .assign "_t2" (.binary .add (.var "_t0") (.var "_t1"))].all
          (fun i => !i.isRet)) = true :=
  ⟨rfl, rfl⟩

/-- Two `Assign`s with identical right-hand sides: the optimize path
rewrites the second, the `optimize_mut` path rewrites nothing. -/
def dupDemo : List Instruction :=
  [.assign "a" (.binary .add (.var "x") (.var "y")),
   .assign "b" (.binary .add (.var "x") (.var "y"))]

/-- Claim C6: `optimize_mut` (called at the end of `gen`) leaves the
stored instruction list and both temporary counters unchanged — it drops
the vectors `elim_common_subexprs` returns — so `gen` reduces to the bare
walk of the module; CSE rewrites are observable only through the
non-mutating `optimize` path used by `optimized_intermediate_code`, which
does rewrite `dupDemo` while `optimize_mut` leaves it alone. -/
theorem optimize_mut_is_noop :
    (∀ g : CodeGenerator, g.optimize_mut = g)
    ∧ (∀ (m : List Stmt) (g : CodeGenerator), gen m g = genStmts m g)
    ∧ CodeGenerator.optimize_mut ⟨dupDemo, 0, 0⟩ = ⟨dupDemo, 0, 0⟩
    ∧ CodeGenerator.optimize ⟨dupDemo, 0, 0⟩ ≠ dupDemo := by
  refine ⟨fun g => rfl, ?_, rfl, by decide⟩
  intro m g
  show (do
    let g ← genStmts m g
    pure g.optimize_mut) = genStmts m g
  cases h : genStmts m g with
  | error e => simp [h]
  | ok g' => simp [h, CodeGenerator.optimize_mut]

/-- Claim C8: lowering a conditional emits, in order, the condition's
code (ending in temporary `tc`), `Ifz(tc, else_label)`, the then-block's
code, a `Goto(end_label)` exactly when an else-block exists, then
`Label(else_label)`, and — only when an else-block exists — the
else-block's code followed by `Label(end_label)`; the conditional itself
yields no result value.  The hypotheses name the intermediate generator
states and the instruction suffixes (`Δc`, `Δt`, `Δe`) each sub-lowering
appended. -/
theorem cond_lowering_order
    (c : Expr) (tB : List Stmt) (r : Region) (g g₁ : CodeGenerator)
    (tc elseL endL : Symbol) (gIfz : CodeGenerator) (Δc : List Instruction)
    (h₁ : genExpr c g = .ok (some tc, g₁))
    (hΔc : g₁.instructions = g.instructions ++ Δc)
    (helse : elseL = "_L" ++ toString g₁.tmp_label)
    (hend : endL = "_L" ++ toString (g₁.tmp_label + 1))
    (hIfz : gIfz = ⟨g₁.instructions ++ [.ifz (.var tc) elseL],
                    g₁.tmp_var, g₁.tmp_label + 1 + 1⟩) :
    (∀ (gT : CodeGenerator) (Δt : List Instruction),
       genStmts tB gIfz = .ok gT →
       gT.instructions = gIfz.instructions ++ Δt →
       genExpr (.cond c tB none r) g = .ok (none, gT.emit_label elseL)
       ∧ (gT.emit_label elseL).instructions
           = g.instructions ++ Δc ++ [.ifz (.var tc) elseL] ++ Δt
             ++ [.label elseL])
    ∧ (∀ (eB : List Stmt) (gT gE : CodeGenerator) (Δt Δe : List Instruction),
       genStmts tB gIfz = .ok gT →
       gT.instructions = gIfz.instructions ++ Δt →
       genStmts eB ((gT.emit_goto endL).emit_label elseL) = .ok gE →
       gE.instructions = ((gT.emit_goto endL).emit_label elseL).instructions ++ Δe →
       genExpr (.cond c tB (some eB) r) g = .ok (none, gE.emit_label endL)
       ∧ (gE.emit_label endL).instructions
           = g.instructions ++ Δc ++ [.ifz (.var tc) elseL] ++ Δt
             ++ [.goto endL] ++ [.label elseL] ++ Δe ++ [.label endL]) := by
  subst helse hend hIfz
  constructor
  · intro gT Δt hT hΔt
    constructor
    · simp only [genExpr, h₁, Except.bind, bind]
      simp only [CodeGenerator.new_tmp_label, CodeGenerator.emit_ifz,
        CodeGenerator.emit, Option.isSome]
      rw [hT]
      simp
    · simp only [CodeGenerator.emit_label, CodeGenerator.emit, hΔt, hΔc,
        List.append_assoc]
  · intro eB gT gE Δt Δe hT hΔt hE hΔe
    constructor
    · simp only [genExpr, h₁, Except.bind, bind]
      simp only [CodeGenerator.new_tmp_label, CodeGenerator.emit_ifz,
        CodeGenerator.emit, Option.isSome]
      rw [hT]
      simp only [ite_true, if_true]
      rw [hE]
    · simp only [CodeGenerator.emit_label, CodeGenerator.emit_goto,
        CodeGenerator.emit, hΔe, hΔt, hΔc, List.append_assoc]

/-- Witness for claim C8: the conditional `if 1 { } else { }` lowered
from a fresh generator. -/
theorem cond_lowering_order_witness :
    genExpr (.cond (.lit (.int 1) ⟨0, 1⟩) [] (some []) ⟨0, 10⟩) CodeGenerator.new
      = .ok (none,
          ((((⟨[Instruction.assign "_t0" (.primary (.const (.int 1))),
               .ifz (.var "_t0") "_L0"], 1, 2⟩ : CodeGenerator).emit_goto
              "_L1").emit_label "_L0").emit_label "_L1"))
    ∧ (((((⟨[Instruction.assign "_t0" (.primary (.const (.int 1))),
             .ifz (.var "_t0") "_L0"], 1, 2⟩ : CodeGenerator).emit_goto
            "_L1").emit_label "_L0").emit_label "_L1")).instructions
        = CodeGenerator.new.instructions
          ++ [Instruction.assign "_t0" (.primary (.const (.int 1)))]
          ++ [Instruction.ifz (.var "_t0") "_L0"] ++ []
          ++ [Instruction.goto "_L1"] ++ [Instruction.label "_L0"] ++ []
          ++ [Instruction.label "_L1"] :=
  (cond_lowering_order (.lit (.int 1) ⟨0, 1⟩) [] ⟨0, 10⟩ CodeGenerator.new
      ⟨[.assign "_t0" (.primary (.const (.int 1)))], 1, 0⟩ "_t0" "_L0" "_L1"
      ⟨[.assign "_t0" (.primary (.const (.int 1))),
        .ifz (.var "_t0") "_L0"], 1, 2⟩
      [.assign "_t0" (.primary (.const (.int 1)))]
      rfl rfl rfl rfl rfl).2
    [] ⟨[.assign "_t0" (.primary (.const (.int 1))),
         .ifz (.var "_t0") "_L0"], 1, 2⟩
    ((((⟨[.assign "_t0" (.primary (.const (.int 1))),
         .ifz (.var "_t0") "_L0"], 1, 2⟩ : CodeGenerator).emit_goto
        "_L1").emit_label "_L0"))
    [] [] rfl rfl rfl rfl

end Kip

namespace Kip

/-! ## Scope checker (`scopechk.rs`) -/

/-- Diagnostics the scope checker prints (`eprintln!` calls). -/
inductive Diag where
  | redecl (n : Symbol)
  | selfRef
  | notDefined (n : Symbol)
deriving DecidableEq, Repr

/-- Abort modes of the Rust scope checker: the `todo!()` in `visit_impt`
and the `unwrap` of `scopes.first()` inside `current_scope` /
`current_scope_mut` / `visit_variable_expr`. -/
inductive ChkErr where
  | todo
  | emptyScopes
deriving DecidableEq, Repr

/-- One scope: `HashMap<Symbol, bool>` (is-initialized flag), modelled as
an association list. -/
abbrev Scope := List (Symbol × Bool)

def Scope.containsKey (s : Scope) (n : Symbol) : Bool :=
  s.any (fun p => p.1 = n)

/-- `HashMap::insert`. -/
def Scope.insertKey (s : Scope) (n : Symbol) (v : Bool) : Scope :=
  if s.containsKey n then s.map (fun p => if p.1 = n then (n, v) else p)
  else s ++ [(n, v)]

/-- `HashMap::get` (as an `Option`). -/
def Scope.getKey (s : Scope) (n : Symbol) : Option Bool :=
  (s.find? (fun p => p.1 = n)).map (fun p => p.2)

/-- `scopechk.rs` `ScopeChecker`: a `Vec` of scopes (index 0 first, new
scopes pushed at the back) plus the diagnostics it has printed. -/
structure ScopeChecker where
  scopes : List Scope
  diags : List Diag
deriving DecidableEq, Repr

namespace ScopeChecker

/-- `ScopeChecker::new`: one (global) scope. -/
def new : ScopeChecker := ⟨[[]], []⟩

/-- `start_scope`: `self.scopes.push(Scope::new())` — pushes at the back
of the `Vec`. -/
def start_scope (c : ScopeChecker) : ScopeChecker :=
  { c with scopes := c.scopes ++ [[]] }

/-- `end_scope`: `self.scopes.pop()` — removes the back element (a no-op
on an empty `Vec`). -/
def end_scope (c : ScopeChecker) : ScopeChecker :=
  { c with scopes := c.scopes.dropLast }

/-- `declare` (`scopechk.rs` lines 51-57).  `current_scope` returns
`self.scopes.first().unwrap()` — the *front* of the `Vec`, i.e. the
global scope, not the innermost one — and the unwrap aborts when the
stack is empty. -/
def declare (c : ScopeChecker) (n : Symbol) : Except ChkErr ScopeChecker :=
  match c.scopes with
  | [] => .error .emptyScopes
  | s :: rest =>
    if s.containsKey n then .ok { c with diags := c.diags ++ [.redecl n] }
    else .ok { c with scopes := s.insertKey n false :: rest }

/-- `define` (`scopechk.rs` lines 59-61): inserts `name → true` into
`current_scope_mut()`, again the front scope. -/
def define (c : ScopeChecker) (n : Symbol) : Except ChkErr ScopeChecker :=
  match c.scopes with
  | [] => .error .emptyScopes
  | s :: rest => .ok { c with scopes := s.insertKey n true :: rest }

/-- `check_local`: scans every scope (innermost to outermost; first match
wins, so only existence matters) and reports `not defined` when no scope
holds the name. -/
def check_local (c : ScopeChecker) (n : Symbol) : ScopeChecker :=
  if c.scopes.any (fun s => s.containsKey n) then c
  else { c with diags := c.diags ++ [.notDefined n] }

end ScopeChecker

mutual
/-- `walk_stmt` dispatching into the `StmtVisitor` impl of
`ScopeChecker` (`scopechk.rs` lines 99-138).  As in the code generator,
`walk_stmt` routes `StmtKind::Ret` to `visit_expr_stmt`; for the scope
checker both methods just check the inner expression, so the behaviour
coincides with `visit_ret_stmt`. -/
def checkStmt (s : Stmt) (c : ScopeChecker) : Except ChkErr ScopeChecker :=
  match s with
  | .expr e _ => checkExpr e c
  | .ret e _ => checkExpr e c
  | .svar n init _ => do
    let c ← c.declare n
    let c ← checkExpr init c
    c.define n
  | .block b _ => do
    let c ← checkStmts b c.start_scope
    .ok c.end_scope
  | .func proto body _ => do
    let c ← c.declare proto.name
    let c ← c.define proto.name
    let c ← bindParams proto.params c.start_scope
    let c ← checkStmts body c
    .ok c.end_scope
  | .exfn proto _ => do
    let c ← c.declare proto.name
    c.define proto.name
  | .impt _ _ => .error .todo

/-- `walk_expr` dispatching into the `ExprVisitor` impl of
`ScopeChecker` (`scopechk.rs` lines 140-191).  `visit_variable_expr`
reads the initialization flag from `current_scope()` — the front scope —
defaulting to `true`, then runs `check_local`. -/
def checkExpr (e : Expr) (c : ScopeChecker) : Except ChkErr ScopeChecker :=
  match e with
  | .lit _ _ => .ok c
  | .evar n _ =>
    match c.scopes with
    | [] => .error .emptyScopes
    | s :: _ =>
      let initialized := (s.getKey n).getD true
      let c := if initialized then c else { c with diags := c.diags ++ [.selfRef] }
      .ok (c.check_local n)
  | .unary _ rhs _ => checkExpr rhs c
  | .binary _ lhs rhs _ => do
    let c ← checkExpr lhs c
    checkExpr rhs c
  | .call f args _ => checkExprs args (c.check_local f)
  | .cond cnd tB eB _ => do
    let c ← checkExpr cnd c
    let c ← checkStmts tB c
    match eB with
    | some els => checkStmts els c
    | none => .ok c
  | .assign n v _ => do
    let c ← checkExpr v c
    .ok (c.check_local n)

/-- `ScopeChecker::check`: walks a statement list with no scope of its
own (used for the module, conditional branches, and function bodies). -/
def checkStmts (l : List Stmt) (c : ScopeChecker) : Except ChkErr ScopeChecker :=
  match l with
  | [] => .ok c
  | s :: rest => do
    let c ← checkStmt s c
    checkStmts rest c

/-- Argument loop of `visit_call_expr`. -/
def checkExprs (l : List Expr) (c : ScopeChecker) : Except ChkErr ScopeChecker :=
  match l with
  | [] => .ok c
  | e :: rest => do
    let c ← checkExpr e c
    checkExprs rest c

/-- Parameter loop of `check_function`: each parameter is declared and
defined. -/
def bindParams (l : List Param) (c : ScopeChecker) : Except ChkErr ScopeChecker :=
  match l with
  | [] => .ok c
  | p :: rest => do
    let c ← c.declare p.name
    let c ← c.define p.name
    bindParams rest c
end

/-- `ScopeChecker::check` applied to a whole module. -/
def checkModule (m : List Stmt) (c : ScopeChecker) : Except ChkErr ScopeChecker :=
  checkStmts m c

end Kip

namespace Kip

/-! ### Scope-checker invariants -/

/-- Invariant of one checker step starting from `c`: it never aborts with
`emptyScopes` (the only other abort is the `todo!()` of `visit_impt`) and
on success the scope stack has exactly its original depth. -/
def ChkInv (c : ScopeChecker) (r : Except ChkErr ScopeChecker) : Prop :=
  (∀ e, r = .error e → e = .todo)
  ∧ (∀ c', r = .ok c' → c'.scopes.length = c.scopes.length)

theorem chkInv_bind {c : ScopeChecker} {r : Except ChkErr ScopeChecker}
    {f : ScopeChecker → Except ChkErr ScopeChecker}
    (h₁ : ChkInv c r) (h₂ : ∀ c', r = .ok c' → ChkInv c' (f c')) :
    ChkInv c (r >>= f) := by
  cases r with
  | error e =>
    refine ⟨fun e' he' => ?_, fun c' hc' => ?_⟩
    · have : (Except.error e : Except ChkErr ScopeChecker) >>= f = .error e := rfl
      rw [this] at he'
      cases he'
      exact h₁.1 e rfl
    · have : (Except.error e : Except ChkErr ScopeChecker) >>= f = .error e := rfl
      rw [this] at hc'
      cases hc'
  | ok c₁ =>
    have hb : (Except.ok c₁ : Except ChkErr ScopeChecker) >>= f = f c₁ := rfl
    rw [hb]
    obtain ⟨he, hl⟩ := h₂ c₁ rfl
    refine ⟨he, fun c' hc' => ?_⟩
    rw [hl c' hc', h₁.2 c₁ rfl]

theorem scopes_ne_of_len {c c' : ScopeChecker}
    (h : c'.scopes.length = c.scopes.length) (hc : c.scopes ≠ []) :
    c'.scopes ≠ [] := by
  intro h0
  rw [h0] at h
  exact hc (List.eq_nil_of_length_eq_zero h.symm)

theorem check_local_scopes (c : ScopeChecker) (n : Symbol) :
    (c.check_local n).scopes = c.scopes := by
  unfold ScopeChecker.check_local
  split <;> rfl

theorem declare_preserve (c : ScopeChecker) (n : Symbol) (h : c.scopes ≠ []) :
    ∃ c', c.declare n = .ok c' ∧ c'.scopes.length = c.scopes.length := by
  obtain ⟨scopes, diags⟩ := c
  cases scopes with
  | nil => simp at h
  | cons s rest =>
    by_cases hc : s.containsKey n
    · refine ⟨⟨s :: rest, diags ++ [.redecl n]⟩, ?_, rfl⟩
      simp [ScopeChecker.declare, hc]
    · refine ⟨⟨s.insertKey n false :: rest, diags⟩, ?_, by simp⟩
      simp [ScopeChecker.declare, hc]

theorem define_preserve (c : ScopeChecker) (n : Symbol) (h : c.scopes ≠ []) :
    ∃ c', c.define n = .ok c' ∧ c'.scopes.length = c.scopes.length := by
  obtain ⟨scopes, diags⟩ := c
  cases scopes with
  | nil => simp at h
  | cons s rest =>
    refine ⟨⟨s.insertKey n true :: rest, diags⟩, ?_, by simp⟩
    simp [ScopeChecker.define]

theorem chkInv_of_ok_preserve {c : ScopeChecker} {r : Except ChkErr ScopeChecker}
    (c₁ : ScopeChecker) (h : r = .ok c₁) (hl : c₁.scopes.length = c.scopes.length) :
    ChkInv c r := by
  subst h
  refine ⟨?_, ?_⟩
  · intro e he
    cases he
  · intro c' hc'
    cases hc'
    exact hl

theorem bindParams_preserve (l : List Param) :
    ∀ c : ScopeChecker, c.scopes ≠ [] →
      ∃ c', bindParams l c = .ok c' ∧ c'.scopes.length = c.scopes.length := by
  induction l with
  | nil => intro c hc; exact ⟨c, rfl, rfl⟩
  | cons p rest ih =>
    intro c hc
    obtain ⟨c₁, hd, hl₁⟩ := declare_preserve c p.name hc
    obtain ⟨c₂, hf, hl₂⟩ := define_preserve c₁ p.name (scopes_ne_of_len hl₁ hc)
    obtain ⟨c₃, hb, hl₃⟩ := ih c₂
      (scopes_ne_of_len hl₂ (scopes_ne_of_len hl₁ hc))
    refine ⟨c₃, ?_, by rw [hl₃, hl₂, hl₁]⟩
    simp only [bindParams, hd, hf, bind, Except.bind, hb]

mutual
theorem chkStmt_inv (s : Stmt) : ∀ c : ScopeChecker, c.scopes ≠ [] →
    ChkInv c (checkStmt s c) := by
  intro c hc
  cases s with
  | expr e r => exact chkExpr_inv e c hc
  | ret e r => exact chkExpr_inv e c hc
  | impt n r =>
    refine ⟨?_, ?_⟩
    · intro e h
      simp only [checkStmt] at h
      cases h
      rfl
    · intro c' h
      simp only [checkStmt] at h
      exact Except.noConfusion h
  | svar n init r =>
    obtain ⟨c₁, hd, hl₁⟩ := declare_preserve c n hc
    show ChkInv c (c.declare n >>= fun c => checkExpr init c >>= fun c => c.define n)
    rw [hd]
    refine chkInv_bind (chkInv_of_ok_preserve c₁ rfl hl₁) ?_
    intro c₁' h₁'
    cases h₁'
    refine chkInv_bind (chkExpr_inv init c₁ (scopes_ne_of_len hl₁ hc)) ?_
    intro c₂ h₂
    have hc₂ : c₂.scopes ≠ [] :=
      scopes_ne_of_len ((chkExpr_inv init c₁ (scopes_ne_of_len hl₁ hc)).2 c₂ h₂)
        (scopes_ne_of_len hl₁ hc)
    obtain ⟨c₃, hf, hl₃⟩ := define_preserve c₂ n hc₂
    exact chkInv_of_ok_preserve c₃ hf hl₃
  | block b r =>
    show ChkInv c (checkStmts b c.start_scope >>= fun c => .ok c.end_scope)
    have hinner := chkStmts_inv b c.start_scope (by simp [ScopeChecker.start_scope])
    refine ⟨fun e he => ?_, fun c' hc' => ?_⟩
    · cases hi : checkStmts b c.start_scope with
      | error e' =>
        rw [hi] at he
        cases he
        exact hinner.1 _ hi
      | ok ci => rw [hi] at he; cases he
    · cases hi : checkStmts b c.start_scope with
      | error e' => rw [hi] at hc'; cases hc'
      | ok ci =>
        rw [hi] at hc'
        cases hc'
        have hlen := hinner.2 ci hi
        simp only [ScopeChecker.start_scope, List.length_append] at hlen
        simp [ScopeChecker.end_scope, List.length_dropLast, hlen]
  | func proto body r =>
    obtain ⟨c₁, hd, hl₁⟩ := declare_preserve c proto.name hc
    obtain ⟨c₂, hf, hl₂⟩ := define_preserve c₁ proto.name (scopes_ne_of_len hl₁ hc)
    obtain ⟨c₃, hb, hl₃⟩ := bindParams_preserve proto.params c₂.start_scope
      (by simp [ScopeChecker.start_scope])
    have hl₃s : c₃.scopes.length = c₂.scopes.length + 1 := by
      rw [hl₃]; simp [ScopeChecker.start_scope]
    have hc₃ : c₃.scopes ≠ [] := by
      intro h0
      rw [h0] at hl₃s
      simp at hl₃s
    have hbody := chkStmts_inv body c₃ hc₃
    show ChkInv c (c.declare proto.name >>= fun c => c.define proto.name >>=
      fun c => bindParams proto.params c.start_scope >>=
      fun c => checkStmts body c >>= fun c => .ok c.end_scope)
    rw [hd]
    show ChkInv c (c₁.define proto.name >>=
      fun c => bindParams proto.params c.start_scope >>=
      fun c => checkStmts body c >>= fun c => .ok c.end_scope)
    rw [hf]
    show ChkInv c (bindParams proto.params c₂.start_scope >>=
      fun c => checkStmts body c >>= fun c => .ok c.end_scope)
    rw [hb]
    show ChkInv c (checkStmts body c₃ >>= fun c => .ok c.end_scope)
    refine ⟨?_, ?_⟩
    · intro e he
      cases hi : checkStmts body c₃ with
      | error e' =>
        rw [hi] at he
        cases he
        exact hbody.1 _ hi
      | ok c₄ =>
        rw [hi] at he
        cases he
    · intro c' hc'
      cases hi : checkStmts body c₃ with
      | error e' =>
        rw [hi] at hc'
        cases hc'
      | ok c₄ =>
        rw [hi] at hc'
        cases hc'
        have hlen := hbody.2 c₄ hi
        rw [hl₃s, hl₂, hl₁] at hlen
        simp [ScopeChecker.end_scope, List.length_dropLast, hlen]
  | exfn proto r =>
    obtain ⟨c₁, hd, hl₁⟩ := declare_preserve c proto.name hc
    obtain ⟨c₂, hf, hl₂⟩ := define_preserve c₁ proto.name (scopes_ne_of_len hl₁ hc)
    show ChkInv c (c.declare proto.name >>= fun c => c.define proto.name)
    rw [hd]
    refine chkInv_bind (chkInv_of_ok_preserve c₁ rfl hl₁) ?_
    intro c₁' h₁'; cases h₁'
    exact chkInv_of_ok_preserve c₂ hf hl₂
termination_by sizeOf s

theorem chkExpr_inv (e : Expr) : ∀ c : ScopeChecker, c.scopes ≠ [] →
    ChkInv c (checkExpr e c) := by
  intro c hc
  cases e with
  | lit l r => exact chkInv_of_ok_preserve c rfl rfl
  | evar n r =>
    obtain ⟨scopes, diags⟩ := c
    cases scopes with
    | nil => exact absurd rfl hc
    | cons s rest =>
      refine ⟨?_, ?_⟩
      · intro e h
        simp only [checkExpr] at h
        exact Except.noConfusion h
      · intro c' h
        simp only [checkExpr] at h
        cases h
        by_cases hi : (s.getKey n).getD true
        · simp [hi, check_local_scopes]
        · simp [hi, check_local_scopes]
  | unary op rhs r => exact chkExpr_inv rhs c hc
  | binary op lhs rhs r =>
    show ChkInv c (checkExpr lhs c >>= fun c => checkExpr rhs c)
    refine chkInv_bind (chkExpr_inv lhs c hc) ?_
    intro c₁ h₁
    exact chkExpr_inv rhs c₁
      (scopes_ne_of_len ((chkExpr_inv lhs c hc).2 c₁ h₁) hc)
  | call f args r =>
    have hcl : (c.check_local f).scopes = c.scopes := check_local_scopes c f
    have h := chkExprs_inv args (c.check_local f) (by rw [hcl]; exact hc)
    refine ⟨h.1, ?_⟩
    intro c' hc'
    rw [h.2 c' hc', hcl]
  | cond cnd tB eB r =>
    cases eB with
    | none =>
      show ChkInv c (checkExpr cnd c >>= fun c => checkStmts tB c >>=
        fun c => .ok c)
      refine chkInv_bind (chkExpr_inv cnd c hc) ?_
      intro c₁ h₁
      have hc₁ := scopes_ne_of_len ((chkExpr_inv cnd c hc).2 c₁ h₁) hc
      refine chkInv_bind (chkStmts_inv tB c₁ hc₁) ?_
      intro c₂ h₂
      exact chkInv_of_ok_preserve c₂ rfl rfl
    | some els =>
      show ChkInv c (checkExpr cnd c >>= fun c => checkStmts tB c >>=
        fun c => checkStmts els c)
      refine chkInv_bind (chkExpr_inv cnd c hc) ?_
      intro c₁ h₁
      have hc₁ := scopes_ne_of_len ((chkExpr_inv cnd c hc).2 c₁ h₁) hc
      refine chkInv_bind (chkStmts_inv tB c₁ hc₁) ?_
      intro c₂ h₂
      have hc₂ := scopes_ne_of_len ((chkStmts_inv tB c₁ hc₁).2 c₂ h₂) hc₁
      exact chkStmts_inv els c₂ hc₂
  | assign n v r =>
    show ChkInv c (checkExpr v c >>= fun c => .ok (c.check_local n))
    refine chkInv_bind (chkExpr_inv v c hc) ?_
    intro c₁ h₁
    exact chkInv_of_ok_preserve (c₁.check_local n) rfl (by rw [check_local_scopes])
termination_by sizeOf e

theorem chkStmts_inv (l : List Stmt) : ∀ c : ScopeChecker, c.scopes ≠ [] →
    ChkInv c (checkStmts l c) := by
  intro c hc
  cases l with
  | nil => exact chkInv_of_ok_preserve c rfl rfl
  | cons s rest =>
    show ChkInv c (checkStmt s c >>= fun c => checkStmts rest c)
    refine chkInv_bind (chkStmt_inv s c hc) ?_
    intro c₁ h₁
    exact chkStmts_inv rest c₁
      (scopes_ne_of_len ((chkStmt_inv s c hc).2 c₁ h₁) hc)
termination_by sizeOf l

theorem chkExprs_inv (l : List Expr) : ∀ c : ScopeChecker, c.scopes ≠ [] →
    ChkInv c (checkExprs l c) := by
  intro c hc
  cases l with
  | nil => exact chkInv_of_ok_preserve c rfl rfl
  | cons e rest =>
    show ChkInv c (checkExpr e c >>= fun c => checkExprs rest c)
    refine chkInv_bind (chkExpr_inv e c hc) ?_
    intro c₁ h₁
    exact chkExprs_inv rest c₁
      (scopes_ne_of_len ((chkExpr_inv e c hc).2 c₁ h₁) hc)
termination_by sizeOf l
end

end Kip

namespace Kip

/-- A module declaring `x` at top level and then declaring `x` again
inside a nested block — the inner `x` shares no scope with the outer one
under the specified innermost-scope rule. -/
def shadowModule : List Stmt :=
  [.svar "x" (.lit (.int 1) ⟨4, 1⟩) ⟨0, 11⟩,
   .block [.svar "x" (.lit (.int 2) ⟨18, 1⟩) ⟨14, 11⟩] ⟨12, 15⟩]

/-- Claim C2 (code bug): `declare` does not target the innermost scope.
`current_scope()` returns `self.scopes.first().unwrap()` — the *base*
(global) scope of the `Vec`, whose back is where `start_scope` pushes —
so declaring `x` inside a nested block while `x` exists only in the
outer scope is reported as a redeclaration: checking `shadowModule`
emits `redecl "x"` (and the inner block's own scope never receives the
name, as the final state shows). -/
theorem declare_targets_base_scope_cx :
    checkModule shadowModule ScopeChecker.new
      = .ok ⟨[[("x", true)]], [.redecl "x"]⟩ := rfl

/-- Claim C9: throughout scope checking of any module from any state
with a nonempty scope stack, no access to the current (base) scope ever
fails — the only possible abort is the `todo!()` for import statements,
never `emptyScopes` — and on completion the stack has exactly its
original depth, so the global scope created by `ScopeChecker::new` is
never popped. -/
theorem scope_stack_never_empty (m : List Stmt) (c : ScopeChecker)
    (h : c.scopes ≠ []) :
    (∀ e, checkModule m c = .error e → e = .todo)
    ∧ (∀ c', checkModule m c = .ok c' →
        c'.scopes.length = c.scopes.length ∧ c'.scopes ≠ []) := by
  obtain ⟨he, hl⟩ := chkStmts_inv m c h
  exact ⟨he, fun c' hc' => ⟨hl c' hc', scopes_ne_of_len (hl c' hc') h⟩⟩

/-- Witness for claim C9: checking `shadowModule` from the initial
single-scope state. -/
theorem scope_stack_never_empty_witness :
    (∀ e, checkModule shadowModule ScopeChecker.new = .error e → e = .todo)
    ∧ (∀ c', checkModule shadowModule ScopeChecker.new = .ok c' →
        c'.scopes.length = ScopeChecker.new.scopes.length ∧ c'.scopes ≠ []) :=
  scope_stack_never_empty shadowModule ScopeChecker.new (by decide)

/-! ### Total fragments of the two passes (for claim C5) -/

mutual
/-- Statements containing no import statement anywhere (the scope
checker's `visit_impt` is `todo!()`). -/
def noImptStmt : Stmt → Bool
  | .expr e _ => noImptExpr e
  | .ret e _ => noImptExpr e
  | .svar _ init _ => noImptExpr init
  | .block b _ => noImptStmts b
  | .func _ body _ => noImptStmts body
  | .exfn _ _ => true
  | .impt _ _ => false

def noImptExpr : Expr → Bool
  | .lit _ _ => true
  | .evar _ _ => true
  | .unary _ rhs _ => noImptExpr rhs
  | .binary _ lhs rhs _ => noImptExpr lhs && noImptExpr rhs
  | .call _ args _ => noImptExprs args
  | .cond c tB eB _ =>
    noImptExpr c && noImptStmts tB &&
      (match eB with
       | some els => noImptStmts els
       | none => true)
  | .assign _ v _ => noImptExpr v

def noImptStmts : List Stmt → Bool
  | [] => true
  | s :: rest => noImptStmt s && noImptStmts rest

def noImptExprs : List Expr → Bool
  | [] => true
  | e :: rest => noImptExpr e && noImptExprs rest
end

mutual
/-- Expressions whose lowering yields a temporary without aborting: free
of unary operators (`visit_unary_expr` is `todo!()`) and of conditionals
in value position (`walk_expr` returns `None` for a conditional, and
every value consumer `unwrap`s). -/
def genValueOk : Expr → Bool
  | .lit _ _ => true
  | .evar _ _ => true
  | .unary _ _ _ => false
  | .binary _ lhs rhs _ => genValueOk lhs && genValueOk rhs
  | .call _ args _ => genValueOks args
  | .cond _ _ _ _ => false
  | .assign _ v _ => genValueOk v

def genValueOks : List Expr → Bool
  | [] => true
  | e :: rest => genValueOk e && genValueOks rest
end

mutual
/-- Expressions whose lowering completes (possibly yielding no value):
either a value-position-safe expression, or a conditional whose
condition is value-safe and whose branches are generation-safe. -/
def genEffectOk : Expr → Bool
  | .cond c tB eB _ =>
    genValueOk c && genStmtsOk tB &&
      (match eB with
       | some els => genStmtsOk els
       | none => true)
  | .lit l r => genValueOk (.lit l r)
  | .evar n r => genValueOk (.evar n r)
  | .unary op rhs r => genValueOk (.unary op rhs r)
  | .binary op lhs rhs r => genValueOk (.binary op lhs rhs r)
  | .call f args r => genValueOk (.call f args r)
  | .assign n v r => genValueOk (.assign n v r)

def genStmtOk : Stmt → Bool
  | .expr e _ => genEffectOk e
  | .ret e _ => genEffectOk e
  | .svar _ init _ => genValueOk init
  | .block b _ => genStmtsOk b
  | .func _ body _ => genStmtsOk body
  | .exfn _ _ => true
  | .impt _ _ => true

def genStmtsOk : List Stmt → Bool
  | [] => true
  | s :: rest => genStmtOk s && genStmtsOk rest
end

end Kip

namespace Kip

/-! ### Totality of the code generator on its supported fragment -/

mutual
theorem genValueOk_total (e : Expr) : ∀ g : CodeGenerator,
    genValueOk e = true → ∃ t g', genExpr e g = .ok (some t, g') := by
  intro g h
  cases e with
  | lit l r =>
    cases l with
    | int k => exact ⟨_, _, rfl⟩
    | str s => exact ⟨_, _, rfl⟩
    | chr c => exact ⟨_, _, rfl⟩
  | evar n r => exact ⟨_, _, rfl⟩
  | unary op rhs r => simp [genValueOk] at h
  | binary op lhs rhs r =>
    simp only [genValueOk, Bool.and_eq_true] at h
    obtain ⟨t1, g1, h1⟩ := genValueOk_total lhs g h.1
    obtain ⟨t2, g2, h2⟩ := genValueOk_total rhs g1 h.2
    have hq : genExpr (.binary op lhs rhs r) g
        = .ok (some ("_t" ++ toString g2.tmp_var),
            ({ g2 with tmp_var := g2.tmp_var + 1 }).emit_assign_binary
              ("_t" ++ toString g2.tmp_var) op t1 t2) := by
      simp only [genExpr, h1, h2, bind, Except.bind, CodeGenerator.new_tmp_var]
    exact ⟨_, _, hq⟩
  | call f args r =>
    simp only [genValueOk] at h
    obtain ⟨g1, h1⟩ := genValueOks_total args g h
    have hq : genExpr (.call f args r) g
        = .ok (some ("_t" ++ toString g1.tmp_var),
            ({ g1 with tmp_var := g1.tmp_var + 1 }).emit_assign_call
              ("_t" ++ toString g1.tmp_var) f) := by
      simp only [genExpr, h1, bind, Except.bind, CodeGenerator.new_tmp_var]
    exact ⟨_, _, hq⟩
  | cond c tB eB r => simp [genValueOk] at h
  | assign n v r =>
    simp only [genValueOk] at h
    obtain ⟨t, g1, h1⟩ := genValueOk_total v g h
    have hq : genExpr (.assign n v r) g = .ok (some n, g1.emit_assign_var n t) := by
      simp only [genExpr, h1, bind, Except.bind]
    exact ⟨_, _, hq⟩
termination_by sizeOf e

theorem genValueOks_total (l : List Expr) : ∀ g : CodeGenerator,
    genValueOks l = true → ∃ g', genArgs l g = .ok g' := by
  intro g h
  cases l with
  | nil => exact ⟨g, rfl⟩
  | cons e rest =>
    simp only [genValueOks, Bool.and_eq_true] at h
    obtain ⟨t, g1, h1⟩ := genValueOk_total e g h.1
    obtain ⟨g2, h2⟩ := genValueOks_total rest (g1.emit_arg t) h.2
    refine ⟨g2, ?_⟩
    simp only [genArgs, h1, bind, Except.bind, h2]
termination_by sizeOf l
end

mutual
theorem genEffectOk_total (e : Expr) : ∀ g : CodeGenerator,
    genEffectOk e = true → ∃ r g', genExpr e g = .ok (r, g') := by
  intro g h
  cases e with
  | cond c tB eB r =>
    cases eB with
    | none =>
      simp only [genEffectOk, Bool.and_eq_true] at h
      obtain ⟨tc, g1, h1⟩ := genValueOk_total c g h.1.1
      obtain ⟨gT, hT⟩ := genStmtsOk_total tB
        (⟨g1.instructions ++ [.ifz (.var tc) ("_L" ++ toString g1.tmp_label)],
          g1.tmp_var, g1.tmp_label + 1 + 1⟩ : CodeGenerator) h.1.2
      have hq : genExpr (.cond c tB none r) g
          = .ok (none, gT.emit_label ("_L" ++ toString g1.tmp_label)) := by
        simp only [genExpr, h1, bind, Except.bind, CodeGenerator.new_tmp_label,
          CodeGenerator.emit_ifz, CodeGenerator.emit, Option.isSome]
        rw [hT]
        simp
      exact ⟨_, _, hq⟩
    | some els =>
      simp only [genEffectOk, Bool.and_eq_true] at h
      obtain ⟨tc, g1, h1⟩ := genValueOk_total c g h.1.1
      obtain ⟨gT, hT⟩ := genStmtsOk_total tB
        (⟨g1.instructions ++ [.ifz (.var tc) ("_L" ++ toString g1.tmp_label)],
          g1.tmp_var, g1.tmp_label + 1 + 1⟩ : CodeGenerator) h.1.2
      obtain ⟨gE, hE⟩ := genStmtsOk_total els
        ((gT.emit_goto ("_L" ++ toString (g1.tmp_label + 1))).emit_label
          ("_L" ++ toString g1.tmp_label)) h.2
      have hq : genExpr (.cond c tB (some els) r) g
          = .ok (none, gE.emit_label ("_L" ++ toString (g1.tmp_label + 1))) := by
        simp only [genExpr, h1, bind, Except.bind, CodeGenerator.new_tmp_label,
          CodeGenerator.emit_ifz, CodeGenerator.emit, Option.isSome]
        rw [hT]
        simp only [ite_true, if_true]
        rw [hE]
      exact ⟨_, _, hq⟩
  | lit l r =>
    obtain ⟨t, g', h'⟩ := genValueOk_total (.lit l r) g h
    exact ⟨some t, g', h'⟩
  | evar n r =>
    obtain ⟨t, g', h'⟩ := genValueOk_total (.evar n r) g h
    exact ⟨some t, g', h'⟩
  | unary op rhs r => simp [genEffectOk, genValueOk] at h
  | binary op lhs rhs r =>
    obtain ⟨t, g', h'⟩ := genValueOk_total (.binary op lhs rhs r) g h
    exact ⟨some t, g', h'⟩
  | call f args r =>
    obtain ⟨t, g', h'⟩ := genValueOk_total (.call f args r) g h
    exact ⟨some t, g', h'⟩
  | assign n v r =>
    obtain ⟨t, g', h'⟩ := genValueOk_total (.assign n v r) g h
    exact ⟨some t, g', h'⟩
termination_by sizeOf e

theorem genStmtOk_total (s : Stmt) : ∀ g : CodeGenerator,
    genStmtOk s = true → ∃ r g', genStmt s g = .ok (r, g') := by
  intro g h
  cases s with
  | expr e r => exact genEffectOk_total e g h
  | ret e r => exact genEffectOk_total e g h
  | svar n init r =>
    simp only [genStmtOk] at h
    obtain ⟨t, g1, h1⟩ := genValueOk_total init g h
    have hq : genStmt (.svar n init r) g = .ok (none, g1.emit_assign_var n t) := by
      simp only [genStmt, h1, bind, Except.bind]
    exact ⟨_, _, hq⟩
  | block b r =>
    simp only [genStmtOk] at h
    obtain ⟨g1, h1⟩ := genStmtsOk_total b g h
    refine ⟨none, g1, ?_⟩
    simp only [genStmt, h1, bind, Except.bind]
  | func proto body r =>
    simp only [genStmtOk] at h
    obtain ⟨g1, h1⟩ := genStmtsOk_total body (g.emit_label proto.name) h
    refine ⟨none, g1, ?_⟩
    simp only [genStmt, h1, bind, Except.bind]
  | exfn proto r => exact ⟨none, g, rfl⟩
  | impt n r => exact ⟨none, g, rfl⟩
termination_by sizeOf s

theorem genStmtsOk_total (l : List Stmt) : ∀ g : CodeGenerator,
    genStmtsOk l = true → ∃ g', genStmts l g = .ok g' := by
  intro g h
  cases l with
  | nil => exact ⟨g, rfl⟩
  | cons s rest =>
    simp only [genStmtsOk, Bool.and_eq_true] at h
    obtain ⟨r, g1, h1⟩ := genStmtOk_total s g h.1
    obtain ⟨g2, h2⟩ := genStmtsOk_total rest g1 h.2
    refine ⟨g2, ?_⟩
    simp only [genStmts, h1, bind, Except.bind, h2]
termination_by sizeOf l
end

end Kip

namespace Kip

/-! ### Totality of the scope checker on import-free modules -/

mutual
theorem noImptStmt_total (s : Stmt) : ∀ c : ScopeChecker, c.scopes ≠ [] →
    noImptStmt s = true → ∃ c', checkStmt s c = .ok c' := by
  intro c hc h
  cases s with
  | expr e r => exact noImptExpr_total e c hc h
  | ret e r => exact noImptExpr_total e c hc h
  | svar n init r =>
    simp only [noImptStmt] at h
    obtain ⟨c₁, hd, hl₁⟩ := declare_preserve c n hc
    obtain ⟨c₂, h₂⟩ := noImptExpr_total init c₁ (scopes_ne_of_len hl₁ hc) h
    have hc₂ : c₂.scopes ≠ [] :=
      scopes_ne_of_len ((chkExpr_inv init c₁ (scopes_ne_of_len hl₁ hc)).2 c₂ h₂)
        (scopes_ne_of_len hl₁ hc)
    obtain ⟨c₃, hf, hl₃⟩ := define_preserve c₂ n hc₂
    refine ⟨c₃, ?_⟩
    simp only [checkStmt, hd, bind, Except.bind, h₂, hf]
  | block b r =>
    simp only [noImptStmt] at h
    obtain ⟨c₂, h₂⟩ := noImptStmts_total b c.start_scope
      (by simp [ScopeChecker.start_scope]) h
    refine ⟨c₂.end_scope, ?_⟩
    simp only [checkStmt, bind, Except.bind, h₂]
  | func proto body r =>
    simp only [noImptStmt] at h
    obtain ⟨c₁, hd, hl₁⟩ := declare_preserve c proto.name hc
    obtain ⟨c₂, hf, hl₂⟩ := define_preserve c₁ proto.name (scopes_ne_of_len hl₁ hc)
    obtain ⟨c₃, hb, hl₃⟩ := bindParams_preserve proto.params c₂.start_scope
      (by simp [ScopeChecker.start_scope])
    have hc₃ : c₃.scopes ≠ [] := by
      intro h0
      rw [h0] at hl₃
      simp [ScopeChecker.start_scope] at hl₃
    obtain ⟨c₄, h₄⟩ := noImptStmts_total body c₃ hc₃ h
    refine ⟨c₄.end_scope, ?_⟩
    simp only [checkStmt, hd, bind, Except.bind, hf, hb, h₄]
  | exfn proto r =>
    obtain ⟨c₁, hd, hl₁⟩ := declare_preserve c proto.name hc
    obtain ⟨c₂, hf, hl₂⟩ := define_preserve c₁ proto.name (scopes_ne_of_len hl₁ hc)
    refine ⟨c₂, ?_⟩
    simp only [checkStmt, hd, bind, Except.bind, hf]
  | impt n r => simp [noImptStmt] at h
termination_by sizeOf s

theorem noImptExpr_total (e : Expr) : ∀ c : ScopeChecker, c.scopes ≠ [] →
    noImptExpr e = true → ∃ c', checkExpr e c = .ok c' := by
  intro c hc h
  cases e with
  | lit l r => exact ⟨c, rfl⟩
  | evar n r =>
    obtain ⟨scopes, diags⟩ := c
    cases scopes with
    | nil => exact absurd rfl hc
    | cons s rest => exact ⟨_, rfl⟩
  | unary op rhs r => exact noImptExpr_total rhs c hc h
  | binary op lhs rhs r =>
    simp only [noImptExpr, Bool.and_eq_true] at h
    obtain ⟨c₁, h₁⟩ := noImptExpr_total lhs c hc h.1
    have hc₁ := scopes_ne_of_len ((chkExpr_inv lhs c hc).2 c₁ h₁) hc
    obtain ⟨c₂, h₂⟩ := noImptExpr_total rhs c₁ hc₁ h.2
    refine ⟨c₂, ?_⟩
    simp only [checkExpr, h₁, bind, Except.bind, h₂]
  | call f args r =>
    simp only [noImptExpr] at h
    have hcl : (c.check_local f).scopes = c.scopes := check_local_scopes c f
    obtain ⟨c₁, h₁⟩ := noImptExprs_total args (c.check_local f)
      (by rw [hcl]; exact hc) h
    exact ⟨c₁, h₁⟩
  | cond cnd tB eB r =>
    cases eB with
    | none =>
      simp only [noImptExpr, Bool.and_eq_true] at h
      obtain ⟨c₁, h₁⟩ := noImptExpr_total cnd c hc h.1.1
      have hc₁ := scopes_ne_of_len ((chkExpr_inv cnd c hc).2 c₁ h₁) hc
      obtain ⟨c₂, h₂⟩ := noImptStmts_total tB c₁ hc₁ h.1.2
      refine ⟨c₂, ?_⟩
      show (checkExpr cnd c >>= fun c => checkStmts tB c >>= fun c => .ok c)
        = .ok c₂
      simp only [h₁, bind, Except.bind, h₂]
    | some els =>
      simp only [noImptExpr, Bool.and_eq_true] at h
      obtain ⟨c₁, h₁⟩ := noImptExpr_total cnd c hc h.1.1
      have hc₁ := scopes_ne_of_len ((chkExpr_inv cnd c hc).2 c₁ h₁) hc
      obtain ⟨c₂, h₂⟩ := noImptStmts_total tB c₁ hc₁ h.1.2
      have hc₂ := scopes_ne_of_len ((chkStmts_inv tB c₁ hc₁).2 c₂ h₂) hc₁
      obtain ⟨c₃, h₃⟩ := noImptStmts_total els c₂ hc₂ h.2
      refine ⟨c₃, ?_⟩
      show (checkExpr cnd c >>= fun c => checkStmts tB c >>=
        fun c => checkStmts els c) = .ok c₃
      simp only [h₁, bind, Except.bind, h₂, h₃]
  | assign n v r =>
    simp only [noImptExpr] at h
    obtain ⟨c₁, h₁⟩ := noImptExpr_total v c hc h
    refine ⟨c₁.check_local n, ?_⟩
    simp only [checkExpr, h₁, bind, Except.bind]
termination_by sizeOf e

theorem noImptStmts_total (l : List Stmt) : ∀ c : ScopeChecker, c.scopes ≠ [] →
    noImptStmts l = true → ∃ c', checkStmts l c = .ok c' := by
  intro c hc h
  cases l with
  | nil => exact ⟨c, rfl⟩
  | cons s rest =>
    simp only [noImptStmts, Bool.and_eq_true] at h
    obtain ⟨c₁, h₁⟩ := noImptStmt_total s c hc h.1
    have hc₁ := scopes_ne_of_len ((chkStmt_inv s c hc).2 c₁ h₁) hc
    obtain ⟨c₂, h₂⟩ := noImptStmts_total rest c₁ hc₁ h.2
    refine ⟨c₂, ?_⟩
    simp only [checkStmts, h₁, bind, Except.bind, h₂]
termination_by sizeOf l

theorem noImptExprs_total (l : List Expr) : ∀ c : ScopeChecker, c.scopes ≠ [] →
    noImptExprs l = true → ∃ c', checkExprs l c = .ok c' := by
  intro c hc h
  cases l with
  | nil => exact ⟨c, rfl⟩
  | cons e rest =>
    simp only [noImptExprs, Bool.and_eq_true] at h
    obtain ⟨c₁, h₁⟩ := noImptExpr_total e c hc h.1
    have hc₁ := scopes_ne_of_len ((chkExpr_inv e c hc).2 c₁ h₁) hc
    obtain ⟨c₂, h₂⟩ := noImptExprs_total rest c₁ hc₁ h.2
    refine ⟨c₂, ?_⟩
    simp only [checkExprs, h₁, bind, Except.bind, h₂]
termination_by sizeOf l
end

end Kip

namespace Kip

/-- Claim C5 (amended): scope checking runs to completion on every module
containing no import statement, and code generation runs to completion on
every module containing no unary expression and no conditional expression
in value position (variable initializer, binary operand, call argument,
assignment source, or condition of another conditional).  Outside these
fragments the passes abort: `visit_impt` in the scope checker and
`visit_unary_expr` in the code generator are `todo!()`, and the code
generator `unwrap`s the (absent) value of a conditional. -/
theorem passes_total_on_supported_fragment :
    (∀ (m : List Stmt) (c : ScopeChecker), c.scopes ≠ [] →
        noImptStmts m = true → ∃ c', checkModule m c = .ok c')
    ∧ (∀ (m : List Stmt) (g : CodeGenerator), genStmtsOk m = true →
        ∃ g', gen m g = .ok g') := by
  constructor
  · intro m c hc h
    exact noImptStmts_total m c hc h
  · intro m g h
    obtain ⟨g', h'⟩ := genStmtsOk_total m g h
    refine ⟨g'.optimize_mut, ?_⟩
    simp only [gen, h', bind, Except.bind]

/-- Witness for the amended claim C5: a small import-free,
unary-free module passed through both passes. -/
theorem passes_total_on_supported_fragment_witness :
    (∃ c', checkModule
        [.func ⟨"main", [], .void, ⟨0, 20⟩⟩
           [.svar "y" (.lit (.int 7) ⟨13, 1⟩) ⟨9, 6⟩] ⟨0, 20⟩]
        ScopeChecker.new = .ok c')
    ∧ (∃ g', gen
        [.func ⟨"main", [], .void, ⟨0, 20⟩⟩
           [.svar "y" (.lit (.int 7) ⟨13, 1⟩) ⟨9, 6⟩] ⟨0, 20⟩]
        CodeGenerator.new = .ok g') :=
  ⟨passes_total_on_supported_fragment.1
      [.func ⟨"main", [], .void, ⟨0, 20⟩⟩
         [.svar "y" (.lit (.int 7) ⟨13, 1⟩) ⟨9, 6⟩] ⟨0, 20⟩]
      ScopeChecker.new (by decide) (by decide),
   passes_total_on_supported_fragment.2
      [.func ⟨"main", [], .void, ⟨0, 20⟩⟩
         [.svar "y" (.lit (.int 7) ⟨13, 1⟩) ⟨9, 6⟩] ⟨0, 20⟩]
      CodeGenerator.new (by decide)⟩

end Kip

namespace Kip

/-! ## Parser (`parser/mod.rs`, `parser/expr.rs`, `parser/stmt.rs`,
`parser/ty.rs`) -/

/-- `token.rs` `TokenKind` (`exkw` models the `Extern` keyword, renamed
because the original word is reserved here; `varkw`/`ifkw`/`elsekw`
likewise avoid Lean keywords). -/
inductive TokenKind where
  | func | exkw | varkw | ifkw | elsekw | whilekw | ret | impt | expt
  | ident (n : Symbol)
  | literal (l : Lit)
  | openParen | closeParen | openBrace | closeBrace
  | comma | colon | semicolon
  | plus | minus | slash | star
  | equal | doubleEqual | percent
  | gt | ge | lt | le | dot
  | ampersand | doubleAmpersand | bar | doubleBar
  | bang | bangEqual
  | eof
deriving DecidableEq, Repr

/-- `token.rs` `Token`. -/
structure Token where
  kind : TokenKind
  region : Region
deriving DecidableEq, Repr

/-- `Token::to_bin_op`. -/
def Token.to_bin_op (t : Token) : Option BinOp :=
  match t.kind with
  | .plus => some .add
  | .minus => some .sub
  | .slash => some .div
  | .star => some .mul
  | .bangEqual => some .ne
  | .doubleEqual => some .eq
  | .percent => some .mod
  | .gt => some .gt
  | .ge => some .ge
  | .lt => some .lt
  | .le => some .le
  | .doubleAmpersand => some .and
  | .doubleBar => some .or
  | _ => none

/-- `Token::to_unary_op`. -/
def Token.to_unary_op (t : Token) : Option UnOp :=
  match t.kind with
  | .bang => some .not
  | .minus => some .neg
  | _ => none

/-- Out-of-range token accesses return this end-of-input token; for
well-formed inputs (final token `Eof`, never stepped past) the Rust
parser performs no such access. -/
def eofToken : Token := ⟨.eof, ⟨0, 0⟩⟩

/-- `parser/mod.rs` `Parser`: the token buffer and the cursor.  The
source text kept for diagnostics plays no role in parsing decisions and
is omitted. -/
structure Parser where
  tokens : List Token
  current : Nat
deriving DecidableEq, Repr

namespace Parser

/-- `Parser::peek`. -/
def peek (p : Parser) : Token := p.tokens.getD p.current eofToken

/-- `Parser::look_ahead`. -/
def look_ahead (p : Parser) (n : Nat) : Token :=
  p.tokens.getD (p.current + n) eofToken

/-- `Parser::previous`. -/
def previous (p : Parser) : Token := p.tokens.getD (p.current - 1) eofToken

/-- `Parser::is_eof`. -/
def is_eof (p : Parser) : Bool := p.peek.kind = .eof

/-- `Parser::eat`: returns the current token and advances — except at
end of input, where it returns the `Eof` token without advancing. -/
def eat (p : Parser) : Token × Parser :=
  if p.is_eof then (p.peek, p)
  else (p.peek, { p with current := p.current + 1 })

/-- `Parser::check`. -/
def check (p : Parser) (k : TokenKind) : Bool := p.peek.kind = k

/-- `Parser::matches`: eats the next token and reports `true` when its
kind is in the list (named `matchesAny` here because the original name
is reserved). -/
def matchesAny (p : Parser) (ks : List TokenKind) : Bool × Parser :=
  if ks.contains p.peek.kind then (true, (p.eat).2) else (false, p)

/-- `Parser::expect`: the expected token, or a parse error leaving the
cursor in place. -/
def expect (p : Parser) (k : TokenKind) : Option (Token × Parser) :=
  if p.check k then some p.eat else none

/-- `Parser::expect_ident`. -/
def expect_ident (p : Parser) : Option (Symbol × Parser) :=
  match p.peek.kind with
  | .ident n => some (n, (p.eat).2)
  | _ => none

end Parser

theorem lt_length_of_not_eof {p : Parser} (h : p.is_eof = false) :
    p.current < p.tokens.length := by
  by_contra hge
  push_neg at hge
  have hnone : p.tokens[p.current]? = none := List.getElem?_eq_none hge
  have hpeek : p.peek = eofToken := by
    simp [Parser.peek, List.getD, hnone]
  rw [Parser.is_eof, hpeek] at h
  simp [eofToken] at h

/-- The declaration-starting keywords `sync` stops at
(`parser/mod.rs` line 60): `Extern | Func | Var | If | Ret`. -/
def declKw (k : TokenKind) : Bool :=
  match k with
  | .exkw => true
  | .func => true
  | .varkw => true
  | .ifkw => true
  | .ret => true
  | _ => false

/-- The loop of `Parser::sync` (`parser/mod.rs` lines 55-65): stop at
end of input, just past a semicolon, or before a declaration-starting
keyword; otherwise eat and continue. -/
def syncGo (p : Parser) : Parser :=
  if h : p.is_eof then p
  else if p.previous.kind = .semicolon then p
  else if declKw p.peek.kind then p
  else syncGo (p.eat).2
termination_by p.tokens.length - p.current
decreasing_by
  all_goals
    have hf : p.is_eof = false := by simpa using h
    have hlt := lt_length_of_not_eof hf
    simp only [Parser.eat, hf, Bool.false_eq_true, if_false]
    omega

/-- `Parser::sync`: eat one token, then discard until just past a
semicolon or at a declaration-starting keyword. -/
def Parser.sync (p : Parser) : Parser := syncGo (p.eat).2

end Kip

namespace Kip

/-- `Expr::is_cond`. -/
def Expr.is_cond : Expr → Bool
  | .cond _ _ _ _ => true
  | _ => false

/-- Result of one parser production: `oof` is fuel exhaustion of the
model (the Rust functions carry no fuel; sufficient fuel is proved
below), `ok` a parsed value, `err` a parse error; both carry the parser
state the caller continues from. -/
inductive PR (α : Type) where
  | oof
  | ok (v : α) (p : Parser)
  | err (p : Parser)
deriving Repr

/-- `parser/ty.rs` `type_annotation`: one identifier naming a type. -/
def typeAnnotation (p : Parser) : Option (Ty × Parser) :=
  match p.expect_ident with
  | none => none
  | some (tn, p₁) =>
    let t : Ty :=
      if tn = "bool" then .bool
      else if tn = "uint8" then .int false 8
      else if tn = "uint16" then .int false 16
      else if tn = "uint32" then .int false 32
      else if tn = "uint64" then .int false 64
      else if tn = "int8" then .int true 8
      else if tn = "int16" then .int true 16
      else if tn = "int32" then .int true 32
      else if tn = "int64" then .int true 64
      else .tyname tn
    some (t, p₁)

/-- `parser/stmt.rs` `impt`: `@impt` followed by a string-literal
path. -/
def imptStmt (p : Parser) : PR Stmt :=
  let (imptKw, p₁) := p.eat
  match p₁.peek.kind with
  | .literal (.str path) =>
    let (pathTok, p₂) := p₁.eat
    .ok (.impt path (imptKw.region.to' pathTok.region)) p₂
  | _ => .err p₁

mutual
/-- `parser/expr.rs` `expression`. -/
def expression : Nat → Parser → PR Expr
  | 0, _ => .oof
  | fuel + 1, p => assigment fuel p

/-- `parser/expr.rs` `assigment` [sic]: right-associative `=` whose
left-hand side must be a bare variable, validated after the right side
is parsed. -/
def assigment : Nat → Parser → PR Expr
  | 0, _ => .oof
  | fuel + 1, p =>
    match conditional fuel p with
    | .oof => .oof
    | .err p₁ => .err p₁
    | .ok e p₁ =>
      let (m, p₂) := p₁.matchesAny [.equal]
      if m then
        match assigment fuel p₂ with
        | .oof => .oof
        | .err p₃ => .err p₃
        | .ok v p₃ =>
          match e with
          | .evar name _ => .ok (.assign name v (e.region.to' v.region)) p₃
          | _ => .err p₃
      else .ok e p₁

/-- `parser/expr.rs` `conditional`. -/
def conditional : Nat → Parser → PR Expr
  | 0, _ => .oof
  | fuel + 1, p =>
    let (m, p₁) := p.matchesAny [.ifkw]
    if m then
      let ifKw := p₁.previous
      match orE fuel p₁ with
      | .oof => .oof
      | .err p₂ => .err p₂
      | .ok condition p₂ =>
        match p₂.expect .openBrace with
        | none => .err p₂
        | some (_, p₃) =>
          match blockFn fuel [] p₃ with
          | .oof => .oof
          | .err p₄ => .err p₄
          | .ok thenB p₄ =>
            let (me, p₅) := p₄.matchesAny [.elsekw]
            if me then
              match p₅.expect .openBrace with
              | none => .err p₅
              | some (_, p₆) =>
                match blockFn fuel [] p₆ with
                | .oof => .oof
                | .err p₇ => .err p₇
                | .ok elseB p₇ =>
                  .ok (.cond condition thenB (some elseB)
                        (ifKw.region.to' p₇.previous.region)) p₇
            else
              .ok (.cond condition thenB none
                    (ifKw.region.to' p₅.previous.region)) p₅
    else orE fuel p

/-- `parser/expr.rs` `or` (left-associative, operator hardcoded). -/
def orE : Nat → Parser → PR Expr
  | 0, _ => .oof
  | fuel + 1, p =>
    match andE fuel p with
    | .oof => .oof
    | .err p₁ => .err p₁
    | .ok lhs p₁ => orLoop fuel lhs.region lhs p₁

def orLoop : Nat → Region → Expr → Parser → PR Expr
  | 0, _, _, _ => .oof
  | fuel + 1, exprStart, lhs, p =>
    let (m, p₁) := p.matchesAny [.doubleBar]
    if m then
      match andE fuel p₁ with
      | .oof => .oof
      | .err p₂ => .err p₂
      | .ok rhs p₂ =>
        orLoop fuel exprStart
          (.binary .or lhs rhs (exprStart.to' rhs.region)) p₂
    else .ok lhs p₁

/-- `parser/expr.rs` `and`. -/
def andE : Nat → Parser → PR Expr
  | 0, _ => .oof
  | fuel + 1, p =>
    match equality fuel p with
    | .oof => .oof
    | .err p₁ => .err p₁
    | .ok lhs p₁ => andLoop fuel lhs.region lhs p₁

def andLoop : Nat → Region → Expr → Parser → PR Expr
  | 0, _, _, _ => .oof
  | fuel + 1, exprStart, lhs, p =>
    let (m, p₁) := p.matchesAny [.doubleAmpersand]
    if m then
      match equality fuel p₁ with
      | .oof => .oof
      | .err p₂ => .err p₂
      | .ok rhs p₂ =>
        andLoop fuel exprStart
          (.binary .and lhs rhs (exprStart.to' rhs.region)) p₂
    else .ok lhs p₁

/-- `parser/expr.rs` `equality`. -/
def equality : Nat → Parser → PR Expr
  | 0, _ => .oof
  | fuel + 1, p =>
    match comparison fuel p with
    | .oof => .oof
    | .err p₁ => .err p₁
    | .ok lhs p₁ => eqLoop fuel lhs.region lhs p₁

def eqLoop : Nat → Region → Expr → Parser → PR Expr
  | 0, _, _, _ => .oof
  | fuel + 1, exprStart, lhs, p =>
    let (m, p₁) := p.matchesAny [.bangEqual, .doubleEqual]
    if m then
      match p₁.previous.to_bin_op with
      | none => .err p₁
      | some op =>
        match comparison fuel p₁ with
        | .oof => .oof
        | .err p₂ => .err p₂
        | .ok rhs p₂ =>
          eqLoop fuel exprStart
            (.binary op lhs rhs (exprStart.to' rhs.region)) p₂
    else .ok lhs p₁

/-- `parser/expr.rs` `comparison`. -/
def comparison : Nat → Parser → PR Expr
  | 0, _ => .oof
  | fuel + 1, p =>
    match term fuel p with
    | .oof => .oof
    | .err p₁ => .err p₁
    | .ok lhs p₁ => cmpLoop fuel lhs.region lhs p₁

def cmpLoop : Nat → Region → Expr → Parser → PR Expr
  | 0, _, _, _ => .oof
  | fuel + 1, exprStart, lhs, p =>
    let (m, p₁) := p.matchesAny [.gt, .ge, .lt, .le]
    if m then
      match p₁.previous.to_bin_op with
      | none => .err p₁
      | some op =>
        match term fuel p₁ with
        | .oof => .oof
        | .err p₂ => .err p₂
        | .ok rhs p₂ =>
          cmpLoop fuel exprStart
            (.binary op lhs rhs (exprStart.to' rhs.region)) p₂
    else .ok lhs p₁

/-- `parser/expr.rs` `term`. -/
def term : Nat → Parser → PR Expr
  | 0, _ => .oof
  | fuel + 1, p =>
    match factor fuel p with
    | .oof => .oof
    | .err p₁ => .err p₁
    | .ok lhs p₁ => termLoop fuel lhs.region lhs p₁

def termLoop : Nat → Region → Expr → Parser → PR Expr
  | 0, _, _, _ => .oof
  | fuel + 1, exprStart, lhs, p =>
    let (m, p₁) := p.matchesAny [.minus, .plus]
    if m then
      match p₁.previous.to_bin_op with
      | none => .err p₁
      | some op =>
        match factor fuel p₁ with
        | .oof => .oof
        | .err p₂ => .err p₂
        | .ok rhs p₂ =>
          termLoop fuel exprStart
            (.binary op lhs rhs (exprStart.to' rhs.region)) p₂
    else .ok lhs p₁

/-- `parser/expr.rs` `factor`.  NOTE (faithful to the source): the loop
computes `let expr_end = lhs.region;` — the *left* operand's region —
so a `Mul`/`Div`/`Mod` node's region never extends to its right
operand. -/
def factor : Nat → Parser → PR Expr
  | 0, _ => .oof
  | fuel + 1, p =>
    match unaryFn fuel p with
    | .oof => .oof
    | .err p₁ => .err p₁
    | .ok lhs p₁ => factorLoop fuel lhs.region lhs p₁

def factorLoop : Nat → Region → Expr → Parser → PR Expr
  | 0, _, _, _ => .oof
  | fuel + 1, exprStart, lhs, p =>
    let (m, p₁) := p.matchesAny [.slash, .star, .percent]
    if m then
      match p₁.previous.to_bin_op with
      | none => .err p₁
      | some op =>
        match unaryFn fuel p₁ with
        | .oof => .oof
        | .err p₂ => .err p₂
        | .ok rhs p₂ =>
          factorLoop fuel exprStart
            (.binary op lhs rhs (exprStart.to' lhs.region)) p₂
    else .ok lhs p₁

/-- `parser/expr.rs` `unary`. -/
def unaryFn : Nat → Parser → PR Expr
  | 0, _ => .oof
  | fuel + 1, p =>
    let (m, p₁) := p.matchesAny [.bang, .minus]
    if m then
      let opTok := p₁.previous
      match opTok.to_unary_op with
      | none => .err p₁
      | some op =>
        match unaryFn fuel p₁ with
        | .oof => .oof
        | .err p₂ => .err p₂
        | .ok rhs p₂ =>
          .ok (.unary op rhs (opTok.region.to' rhs.region)) p₂
    else callFn fuel p

/-- `parser/expr.rs` `call`: an identifier followed by `(` begins a
call, anything else falls through to `primary`. -/
def callFn : Nat → Parser → PR Expr
  | 0, _ => .oof
  | fuel + 1, p =>
    match p.peek.kind with
    | .ident fname =>
      if (p.look_ahead 1).kind = .openParen then
        let (fnTok, p₁) := p.eat
        let (_, p₂) := p₁.eat
        if p₂.check .closeParen then
          match p₂.expect .closeParen with
          | none => .err p₂
          | some (cp, p₃) =>
            .ok (.call fname [] (fnTok.region.to' cp.region)) p₃
        else
          match expression fuel p₂ with
          | .oof => .oof
          | .err p₃ => .err p₃
          | .ok e p₃ => argsLoop fuel fnTok fname [e] p₃
      else primary fuel p
    | _ => primary fuel p

/-- The argument loop of `call` plus the closing-paren expectation. -/
def argsLoop : Nat → Token → Symbol → List Expr → Parser → PR Expr
  | 0, _, _, _, _ => .oof
  | fuel + 1, fnTok, fname, acc, p =>
    let (m, p₁) := p.matchesAny [.comma]
    if m then
      match expression fuel p₁ with
      | .oof => .oof
      | .err p₂ => .err p₂
      | .ok e p₂ => argsLoop fuel fnTok fname (acc ++ [e]) p₂
    else
      match p₁.expect .closeParen with
      | none => .err p₁
      | some (cp, p₂) =>
        .ok (.call fname acc (fnTok.region.to' cp.region)) p₂

/-- `parser/expr.rs` `primary`.  In the parenthesised case the source
parses the inner expression *without* `?`, then expects `)` before
returning the saved result — an error from the inner expression is
returned only after the paren expectation ran. -/
def primary : Nat → Parser → PR Expr
  | 0, _ => .oof
  | fuel + 1, p =>
    match p.peek.kind with
    | .ident name =>
      let (tk, p₁) := p.eat
      .ok (.evar name tk.region) p₁
    | .literal l =>
      let (tk, p₁) := p.eat
      .ok (.lit l tk.region) p₁
    | .openParen =>
      let (_, p₁) := p.eat
      match expression fuel p₁ with
      | .oof => .oof
      | .ok e p₂ =>
        match p₂.expect .closeParen with
        | none => .err p₂
        | some (_, p₃) => .ok e p₃
      | .err p₂ =>
        match p₂.expect .closeParen with
        | none => .err p₂
        | some (_, p₃) => .err p₃
    | _ => .err p

/-- `parser/stmt.rs` `declaration`, including the `sync` on error. -/
def declaration : Nat → Parser → PR Stmt
  | 0, _ => .oof
  | fuel + 1, p =>
    let r :=
      match p.peek.kind with
      | .exkw => externDecl fuel p
      | .func => funcDecl fuel p
      | .varkw => varDecl fuel p
      | .impt => imptStmt p
      | _ => statement fuel p
    match r with
    | .err p₁ => .err p₁.sync
    | other => other

/-- `parser/stmt.rs` `statement`. -/
def statement : Nat → Parser → PR Stmt
  | 0, _ => .oof
  | fuel + 1, p =>
    match p.peek.kind with
    | .ret => retStmt fuel p
    | .openBrace =>
      let (ob, p₁) := p.eat
      match blockFn fuel [] p₁ with
      | .oof => .oof
      | .err p₂ => .err p₂
      | .ok stmts p₂ =>
        .ok (.block stmts (ob.region.to' p₂.previous.region)) p₂
    | .impt => imptStmt p
    | _ => exprStmt fuel p

/-- `parser/stmt.rs` `ret_stmt`. -/
def retStmt : Nat → Parser → PR Stmt
  | 0, _ => .oof
  | fuel + 1, p =>
    let (retKw, p₁) := p.eat
    match expression fuel p₁ with
    | .oof => .oof
    | .err p₂ => .err p₂
    | .ok value p₂ =>
      match p₂.expect .semicolon with
      | none => .err p₂
      | some (semi, p₃) =>
        .ok (.ret value (retKw.region.to' semi.region)) p₃

/-- `parser/stmt.rs` `expr_stmt`: a conditional needs no trailing
semicolon, every other expression statement does. -/
def exprStmt : Nat → Parser → PR Stmt
  | 0, _ => .oof
  | fuel + 1, p =>
    let exprStart := p.peek
    match expression fuel p with
    | .oof => .oof
    | .err p₁ => .err p₁
    | .ok e p₁ =>
      if e.is_cond then
        .ok (.expr e (exprStart.region.to' p₁.previous.region)) p₁
      else
        match p₁.expect .semicolon with
        | none => .err p₁
        | some (_, p₂) =>
          .ok (.expr e (exprStart.region.to' p₂.previous.region)) p₂

/-- `parser/stmt.rs` `var_decl`. -/
def varDecl : Nat → Parser → PR Stmt
  | 0, _ => .oof
  | fuel + 1, p =>
    let (varKw, p₁) := p.eat
    match p₁.expect_ident with
    | none => .err p₁
    | some (name, p₂) =>
      match p₂.expect .equal with
      | none => .err p₂
      | some (_, p₃) =>
        match expression fuel p₃ with
        | .oof => .oof
        | .err p₄ => .err p₄
        | .ok init p₄ =>
          match p₄.expect .semicolon with
          | none => .err p₄
          | some (semi, p₅) =>
            .ok (.svar name init (varKw.region.to' semi.region)) p₅

/-- `parser/stmt.rs` `extern_decl`. -/
def externDecl : Nat → Parser → PR Stmt
  | 0, _ => .oof
  | fuel + 1, p =>
    let (extKw, p₁) := p.eat
    match p₁.expect .func with
    | none => .err p₁
    | some (_, p₂) =>
      match protoFn fuel p₂ with
      | .oof => .oof
      | .err p₃ => .err p₃
      | .ok proto p₃ =>
        match p₃.expect .semicolon with
        | none => .err p₃
        | some (semi, p₄) =>
          .ok (.exfn proto (extKw.region.to' semi.region)) p₄

/-- `parser/stmt.rs` `func_decl`. -/
def funcDecl : Nat → Parser → PR Stmt
  | 0, _ => .oof
  | fuel + 1, p =>
    let (funcKw, p₁) := p.eat
    match protoFn fuel p₁ with
    | .oof => .oof
    | .err p₂ => .err p₂
    | .ok proto p₂ =>
      match p₂.expect .openBrace with
      | none => .err p₂
      | some (_, p₃) =>
        match blockFn fuel [] p₃ with
        | .oof => .oof
        | .err p₄ => .err p₄
        | .ok body p₄ =>
          .ok (.func proto body (funcKw.region.to' p₄.previous.region)) p₄

/-- `parser/stmt.rs` `block`: declarations until `}` or end of input,
then the closing brace. -/
def blockFn : Nat → List Stmt → Parser → PR (List Stmt)
  | 0, _, _ => .oof
  | fuel + 1, acc, p =>
    if ¬(p.check .closeBrace) ∧ ¬p.is_eof then
      match declaration fuel p with
      | .oof => .oof
      | .err p₁ => .err p₁
      | .ok s p₁ => blockFn fuel (acc ++ [s]) p₁
    else
      match p.expect .closeBrace with
      | none => .err p
      | some (_, p₁) => .ok acc p₁

/-- `parser/stmt.rs` `proto`. -/
def protoFn : Nat → Parser → PR FuncProto
  | 0, _ => .oof
  | fuel + 1, p =>
    let protoStart := p.peek
    match p.expect_ident with
    | none => .err p
    | some (name, p₁) =>
      match p₁.expect .openParen with
      | none => .err p₁
      | some (_, p₂) =>
        match
          (if p₂.check .closeParen then PR.ok ([] : List Param) p₂
           else paramsLoop fuel [] p₂) with
        | .oof => .oof
        | .err p₃ => .err p₃
        | .ok params p₃ =>
          match p₃.expect .closeParen with
          | none => .err p₃
          | some (cp, p₄) =>
            let (m, p₅) := p₄.matchesAny [.colon]
            if m then
              match typeAnnotation p₅ with
              | none => .err p₅
              | some (ret, p₆) =>
                .ok ⟨name, params, ret, protoStart.region.to' cp.region⟩ p₆
            else
              .ok ⟨name, params, .void, protoStart.region.to' cp.region⟩ p₅

/-- The parameter loop of `proto`. -/
def paramsLoop : Nat → List Param → Parser → PR (List Param)
  | 0, _, _ => .oof
  | fuel + 1, acc, p =>
    match p.expect_ident with
    | none => .err p
    | some (pname, p₁) =>
      match p₁.expect .colon with
      | none => .err p₁
      | some (_, p₂) =>
        match typeAnnotation p₂ with
        | none => .err p₂
        | some (ty, p₃) =>
          let (m, p₄) := p₃.matchesAny [.comma]
          if m then paramsLoop fuel (acc ++ [⟨pname, ty⟩]) p₄
          else .ok (acc ++ [⟨pname, ty⟩]) p₄
end

end Kip

namespace Kip

/-- Token stream of `a * b ;`. -/
def mulToks : List Token :=
  [⟨.ident "a", ⟨0, 1⟩⟩, ⟨.star, ⟨2, 1⟩⟩, ⟨.ident "b", ⟨4, 1⟩⟩,
   ⟨.semicolon, ⟨5, 1⟩⟩, ⟨.eof, ⟨6, 0⟩⟩]

/-- Token stream of `a + b ;`. -/
def addToks : List Token :=
  [⟨.ident "a", ⟨0, 1⟩⟩, ⟨.plus, ⟨2, 1⟩⟩, ⟨.ident "b", ⟨4, 1⟩⟩,
   ⟨.semicolon, ⟨5, 1⟩⟩, ⟨.eof, ⟨6, 0⟩⟩]

/-- Claim C4 (code bug): parsing the single binary expression `a * b`
produces one `Binary` node with the right operator but the wrong region:
`factor`'s loop sets `expr_end = lhs.region`, so the node's region is
`0..1` — it ends at `a`'s end (1), not at `b`'s end (5).  The same bug
affects exactly `Mul`/`Div`/`Mod`; at every other precedence level the
loop uses `rhs.region`, as the `a + b` conjunct shows (region `0..5`). -/
theorem factor_region_cx :
    expression 50 ⟨mulToks, 0⟩
      = .ok (.binary .mul (.evar "a" ⟨0, 1⟩) (.evar "b" ⟨4, 1⟩) ⟨0, 1⟩)
          ⟨mulToks, 3⟩
    ∧ (Region.mk 0 1).endPos = 1
    ∧ (Region.mk 4 1).endPos = 5
    ∧ expression 50 ⟨addToks, 0⟩
      = .ok (.binary .add (.evar "a" ⟨0, 1⟩) (.evar "b" ⟨4, 1⟩) ⟨0, 5⟩)
          ⟨addToks, 3⟩ :=
  ⟨rfl, rfl, rfl, rfl⟩

/-- Token stream of `@impt "m"`. -/
def imptToks : List Token :=
  [⟨.impt, ⟨0, 5⟩⟩, ⟨.literal (.str "m"), ⟨6, 3⟩⟩, ⟨.eof, ⟨9, 0⟩⟩]

/-- Token stream of `!1;`. -/
def bangToks : List Token :=
  [⟨.bang, ⟨0, 1⟩⟩, ⟨.literal (.int 1), ⟨1, 1⟩⟩, ⟨.semicolon, ⟨2, 1⟩⟩,
   ⟨.eof, ⟨3, 0⟩⟩]

/-- Claim C5 (counterexample): two modules the parser produces on which
a pass aborts.  `@impt "m"` parses to `[Impt "m"]`, on which the scope
checker hits the `todo!()` in `visit_impt`; `!1;` parses to a unary
expression statement, on which the code generator hits the `todo!()` in
`visit_unary_expr`. -/
theorem passes_abort_on_parseable_input_cx :
    declaration 50 ⟨imptToks, 0⟩ = .ok (.impt "m" ⟨0, 9⟩) ⟨imptToks, 2⟩
    ∧ checkModule [.impt "m" ⟨0, 9⟩] ScopeChecker.new = .error .todo
    ∧ declaration 50 ⟨bangToks, 0⟩
      = .ok (.expr (.unary .not (.lit (.int 1) ⟨1, 1⟩) ⟨0, 2⟩) ⟨0, 3⟩)
          ⟨bangToks, 3⟩
    ∧ gen [.expr (.unary .not (.lit (.int 1) ⟨1, 1⟩) ⟨0, 2⟩) ⟨0, 3⟩]
        CodeGenerator.new = .error .todo :=
  ⟨rfl, rfl, rfl, rfl⟩

/-- Claim C10 (counterexample): called at end of input, `sync` advances
zero tokens — `eat` is a no-op at `Eof` — so it does not "always advance
at least one token (even at end-of-input)". -/
theorem sync_at_eof_no_advance_cx :
    Parser.sync ⟨[⟨.eof, ⟨0, 0⟩⟩], 0⟩ = ⟨[⟨.eof, ⟨0, 0⟩⟩], 0⟩ := by
  rw [Parser.sync]
  have he : (Parser.eat ⟨[⟨.eof, ⟨0, 0⟩⟩], 0⟩).2 = ⟨[⟨.eof, ⟨0, 0⟩⟩], 0⟩ := by
    simp [Parser.eat, Parser.is_eof, Parser.peek]
  rw [he, syncGo]
  simp [Parser.is_eof, Parser.peek]

end Kip

namespace Kip

/-! ### Parser progress and termination -/

/-- One parser step from `p` to `q`: same token buffer, cursor moved
forward (by at least one when `strict`), never past the end of the
buffer. -/
def stepOk (p q : Parser) (strict : Bool) : Prop :=
  q.tokens = p.tokens
  ∧ p.current + (if strict then 1 else 0) ≤ q.current
  ∧ (p.current ≤ p.tokens.length → q.current ≤ p.tokens.length)

/-- Progress of a production result: parse errors never rewind, and a
success consumed at least one token when the production is strict. -/
def Prog {α : Type} (p : Parser) (strict : Bool) : PR α → Prop
  | .oof => True
  | .ok _ q => stepOk p q strict
  | .err q => stepOk p q false

theorem stepOk_refl (p : Parser) : stepOk p p false := by
  refine ⟨rfl, by simp, fun h => h⟩

theorem stepOk_weaken {p q : Parser} {s : Bool} (h : stepOk p q s) :
    stepOk p q false := by
  obtain ⟨ht, hc, hb⟩ := h
  refine ⟨ht, ?_, hb⟩
  cases s <;> simp at hc ⊢ <;> omega

theorem stepOk_trans {p q r : Parser} {s₁ s₂ : Bool}
    (h₁ : stepOk p q s₁) (h₂ : stepOk q r s₂) : stepOk p r (s₁ || s₂) := by
  obtain ⟨ht₁, hc₁, hb₁⟩ := h₁
  obtain ⟨ht₂, hc₂, hb₂⟩ := h₂
  refine ⟨ht₂.trans ht₁, ?_, fun h => ?_⟩
  · cases s₁ <;> cases s₂ <;> simp at hc₁ hc₂ ⊢ <;> omega
  · rw [ht₁] at hb₂
    exact hb₂ (hb₁ h)

theorem prog_comp {α : Type} {p q : Parser} {s₁ s₂ : Bool}
    (h : stepOk p q s₁) {r : PR α} (hr : Prog q s₂ r) : Prog p (s₁ || s₂) r := by
  cases r with
  | oof => trivial
  | ok v x => exact stepOk_trans h hr
  | err x => exact stepOk_weaken (stepOk_trans h hr)

theorem prog_weaken {α : Type} {p : Parser} {s : Bool} {r : PR α}
    (h : Prog p s r) : Prog p false r := by
  cases r with
  | oof => trivial
  | ok v x => exact stepOk_weaken h
  | err x => exact h

theorem eat_snd_of_eof {p : Parser} (h : p.is_eof = true) : (p.eat).2 = p := by
  simp [Parser.eat, h]

theorem eat_snd_of_not_eof {p : Parser} (h : p.is_eof = false) :
    (p.eat).2 = { p with current := p.current + 1 } := by
  simp [Parser.eat, h]

theorem eat_facts (p : Parser) :
    (p.eat).2.tokens = p.tokens
    ∧ p.current ≤ (p.eat).2.current
    ∧ (p.current ≤ p.tokens.length → (p.eat).2.current ≤ p.tokens.length) := by
  by_cases h : p.is_eof
  · rw [eat_snd_of_eof h]
    exact ⟨rfl, le_refl _, fun hb => hb⟩
  · have hf : p.is_eof = false := by simpa using h
    have hlt := lt_length_of_not_eof hf
    rw [eat_snd_of_not_eof hf]
    refine ⟨rfl, ?_, fun _ => ?_⟩
    · show p.current ≤ p.current + 1
      omega
    · show p.current + 1 ≤ p.tokens.length
      omega

theorem eat_stepOk (p : Parser) : stepOk p (p.eat).2 false := by
  obtain ⟨h₁, h₂, h₃⟩ := eat_facts p
  exact ⟨h₁, by simpa using h₂, h₃⟩

theorem eat_strict {p : Parser} (h : p.is_eof = false) :
    (p.eat).2.current = p.current + 1 ∧ (p.eat).2.tokens = p.tokens
    ∧ p.current < p.tokens.length := by
  have hlt := lt_length_of_not_eof h
  rw [eat_snd_of_not_eof h]
  exact ⟨rfl, rfl, hlt⟩

theorem stepOk_mk_strict {p q : Parser} (ht : q.tokens = p.tokens)
    (hc : p.current + 1 ≤ q.current)
    (hb : p.current ≤ p.tokens.length → q.current ≤ p.tokens.length) :
    stepOk p q true := by
  refine ⟨ht, ?_, hb⟩
  simp only [if_pos]
  omega

theorem eat_stepOk_strict {p : Parser} (h : p.is_eof = false) :
    stepOk p (p.eat).2 true := by
  obtain ⟨h₁, h₂, h₃⟩ := eat_strict h
  exact stepOk_mk_strict h₂ (by omega) (fun _ => by omega)

theorem not_eof_of_kind {p : Parser} {k : TokenKind}
    (hk : p.peek.kind = k) (hne : k ≠ .eof) : p.is_eof = false := by
  simp [Parser.is_eof, hk]
  intro h
  exact hne h

theorem matchesAny_true {p q : Parser} {ks : List TokenKind}
    (h : p.matchesAny ks = (true, q)) (hno : ¬ ks.contains .eof) :
    stepOk p q true ∧ q.current = p.current + 1 ∧ q.tokens = p.tokens
    ∧ p.current < p.tokens.length ∧ p.is_eof = false := by
  unfold Parser.matchesAny at h
  split at h
  case isTrue hc =>
    have hq : q = (p.eat).2 := by cases h; rfl
    have hne : p.is_eof = false := by
      by_contra habs
      have htrue : p.is_eof = true := by
        revert habs
        cases hv : p.is_eof <;> simp
      have heof : p.peek.kind = .eof := by
        simpa [Parser.is_eof] using htrue
      rw [heof] at hc
      exact hno hc
    obtain ⟨h₁, h₂, h₃⟩ := eat_strict hne
    subst hq
    exact ⟨stepOk_mk_strict h₂ (by omega) (fun _ => by omega), h₁, h₂, h₃, hne⟩
  case isFalse hc => simp at h

theorem matchesAny_false {p q : Parser} {ks : List TokenKind}
    (h : p.matchesAny ks = (false, q)) : q = p := by
  unfold Parser.matchesAny at h
  split at h
  case isTrue hc => simp at h
  case isFalse hc =>
    cases h
    rfl

theorem expect_some {p q : Parser} {k : TokenKind} {t : Token}
    (h : p.expect k = some (t, q)) (hne : k ≠ .eof) :
    stepOk p q true ∧ q.current = p.current + 1 ∧ q.tokens = p.tokens
    ∧ p.current < p.tokens.length := by
  unfold Parser.expect at h
  split at h
  case isTrue hc =>
    have hq : q = (p.eat).2 := by
      injection h with h'
      rw [h']
    have hk : p.peek.kind = k := by simpa [Parser.check] using hc
    have hnef : p.is_eof = false := not_eof_of_kind hk hne
    obtain ⟨h₁, h₂, h₃⟩ := eat_strict hnef
    subst hq
    exact ⟨stepOk_mk_strict h₂ (by omega) (fun _ => by omega), h₁, h₂, h₃⟩
  case isFalse hc => cases h

theorem expect_ident_some {p q : Parser} {n : Symbol}
    (h : p.expect_ident = some (n, q)) :
    stepOk p q true ∧ q.current = p.current + 1 ∧ q.tokens = p.tokens
    ∧ p.current < p.tokens.length := by
  unfold Parser.expect_ident at h
  cases hk : p.peek.kind with
  | ident m =>
    rw [hk] at h
    have hq : q = (p.eat).2 := by cases h; rfl
    have hnef : p.is_eof = false := not_eof_of_kind hk (by intro hc; cases hc)
    obtain ⟨h₁, h₂, h₃⟩ := eat_strict hnef
    subst hq
    exact ⟨stepOk_mk_strict h₂ (by omega) (fun _ => by omega), h₁, h₂, h₃⟩
  | eof => rw [hk] at h; cases h
  | func => rw [hk] at h; cases h
  | exkw => rw [hk] at h; cases h
  | varkw => rw [hk] at h; cases h
  | ifkw => rw [hk] at h; cases h
  | elsekw => rw [hk] at h; cases h
  | whilekw => rw [hk] at h; cases h
  | ret => rw [hk] at h; cases h
  | impt => rw [hk] at h; cases h
  | expt => rw [hk] at h; cases h
  | literal l => rw [hk] at h; cases h
  | openParen => rw [hk] at h; cases h
  | closeParen => rw [hk] at h; cases h
  | openBrace => rw [hk] at h; cases h
  | closeBrace => rw [hk] at h; cases h
  | comma => rw [hk] at h; cases h
  | colon => rw [hk] at h; cases h
  | semicolon => rw [hk] at h; cases h
  | plus => rw [hk] at h; cases h
  | minus => rw [hk] at h; cases h
  | slash => rw [hk] at h; cases h
  | star => rw [hk] at h; cases h
  | equal => rw [hk] at h; cases h
  | doubleEqual => rw [hk] at h; cases h
  | percent => rw [hk] at h; cases h
  | gt => rw [hk] at h; cases h
  | ge => rw [hk] at h; cases h
  | lt => rw [hk] at h; cases h
  | le => rw [hk] at h; cases h
  | dot => rw [hk] at h; cases h
  | ampersand => rw [hk] at h; cases h
  | doubleAmpersand => rw [hk] at h; cases h
  | bar => rw [hk] at h; cases h
  | doubleBar => rw [hk] at h; cases h
  | bang => rw [hk] at h; cases h
  | bangEqual => rw [hk] at h; cases h

theorem typeAnnotation_some {p q : Parser} {t : Ty}
    (h : typeAnnotation p = some (t, q)) : stepOk p q true := by
  unfold typeAnnotation at h
  cases hi : p.expect_ident with
  | none => rw [hi] at h; cases h
  | some v =>
    obtain ⟨tn, p₁⟩ := v
    rw [hi] at h
    simp only at h
    have hq : q = p₁ := by cases h; rfl
    subst hq
    exact (expect_ident_some hi).1

end Kip

namespace Kip

theorem syncGo_facts (p : Parser) :
    (syncGo p).tokens = p.tokens ∧ p.current ≤ (syncGo p).current
    ∧ (p.current ≤ p.tokens.length → (syncGo p).current ≤ p.tokens.length) := by
  rw [syncGo]
  by_cases h : p.is_eof
  · rw [dif_pos h]
    exact ⟨rfl, le_refl _, fun hb => hb⟩
  · rw [dif_neg h]
    by_cases hs : p.previous.kind = .semicolon
    · rw [if_pos hs]
      exact ⟨rfl, le_refl _, fun hb => hb⟩
    · rw [if_neg hs]
      by_cases hd : declKw p.peek.kind
      · rw [if_pos hd]
        exact ⟨rfl, le_refl _, fun hb => hb⟩
      · rw [if_neg hd]
        have hf : p.is_eof = false := by simpa using h
        obtain ⟨he₁, he₂, he₃⟩ := eat_strict hf
        obtain ⟨ih₁, ih₂, ih₃⟩ := syncGo_facts ((p.eat).2)
        have hlen : (p.eat).2.tokens.length = p.tokens.length := by rw [he₂]
        refine ⟨by rw [ih₁, he₂], by omega, fun hb => ?_⟩
        have hball := ih₃ (by omega)
        omega
termination_by p.tokens.length - p.current
decreasing_by
  have hf : p.is_eof = false := by simpa using h
  obtain ⟨he₁, he₂, he₃⟩ := eat_strict hf
  have hlen : (p.eat).2.tokens.length = p.tokens.length := by rw [he₂]
  omega

theorem sync_facts (p : Parser) :
    (p.sync).tokens = p.tokens ∧ p.current ≤ (p.sync).current
    ∧ (p.current ≤ p.tokens.length → (p.sync).current ≤ p.tokens.length) := by
  unfold Parser.sync
  obtain ⟨he₁, he₂, he₃⟩ := eat_facts p
  obtain ⟨ih₁, ih₂, ih₃⟩ := syncGo_facts ((p.eat).2)
  have hlen : (p.eat).2.tokens.length = p.tokens.length := by rw [he₁]
  refine ⟨by rw [ih₁, he₁], by omega, fun hb => ?_⟩
  have := ih₃ (by omega)
  omega

theorem sync_strict {p : Parser} (hf : p.is_eof = false) :
    p.current + 1 ≤ (p.sync).current := by
  unfold Parser.sync
  obtain ⟨he₁, he₂, he₃⟩ := eat_strict hf
  obtain ⟨ih₁, ih₂, ih₃⟩ := syncGo_facts ((p.eat).2)
  omega

theorem syncGo_stop (p : Parser) :
    (syncGo p).is_eof = true
    ∨ (syncGo p).previous.kind = .semicolon
    ∨ declKw ((syncGo p).peek.kind) = true := by
  rw [syncGo]
  by_cases h : p.is_eof
  · rw [dif_pos h]
    exact Or.inl (by simpa using h)
  · rw [dif_neg h]
    by_cases hs : p.previous.kind = .semicolon
    · rw [if_pos hs]
      exact Or.inr (Or.inl hs)
    · rw [if_neg hs]
      by_cases hd : declKw p.peek.kind
      · rw [if_pos hd]
        exact Or.inr (Or.inr hd)
      · rw [if_neg hd]
        exact syncGo_stop ((p.eat).2)
termination_by p.tokens.length - p.current
decreasing_by
  have hf : p.is_eof = false := by simpa using h
  obtain ⟨he₁, he₂, he₃⟩ := eat_strict hf
  have hlen : (p.eat).2.tokens.length = p.tokens.length := by rw [he₂]
  omega

theorem sync_stop (p : Parser) :
    (p.sync).is_eof = true
    ∨ (p.sync).previous.kind = .semicolon
    ∨ declKw ((p.sync).peek.kind) = true :=
  syncGo_stop ((p.eat).2)

end Kip

namespace Kip

theorem stepOk_of_eq {p q : Parser} (h : q = p) : stepOk p q false := by
  subst h
  exact stepOk_refl _

/-- `imptStmt` makes progress: on success it consumed the keyword and the
path literal; on error the cursor never moved backwards. -/
theorem imptStmt_prog (p : Parser) : Prog p true (imptStmt p) := by
  unfold imptStmt
  rcases hpe : p.eat with ⟨imptKw, p₁⟩
  have hp₁ : p₁ = (p.eat).2 := by rw [hpe]
  dsimp only
  cases hk : p₁.peek.kind
  case literal l =>
    cases l with
    | str path =>
      rcases hpe₂ : p₁.eat with ⟨pathTok, p₂⟩
      have hp₂ : p₂ = (p₁.eat).2 := by rw [hpe₂]
      dsimp only
      have hne₁ : p₁.is_eof = false := not_eof_of_kind hk (by intro hc; cases hc)
      have h₂ : stepOk p₁ p₂ true := by
        rw [hp₂]
        exact eat_stepOk_strict hne₁
      have hne : p.is_eof = false := by
        by_cases hf : p.is_eof
        · exfalso
          have hpp : p₁ = p := by rw [hp₁, eat_snd_of_eof hf]
          rw [hpp] at hk
          have hek : p.peek.kind = .eof := by simpa [Parser.is_eof] using hf
          rw [hek] at hk
          cases hk
        · simpa using hf
      have h₁ : stepOk p p₁ true := by
        rw [hp₁]
        exact eat_stepOk_strict hne
      exact stepOk_trans h₁ h₂
    | int k =>
      rw [hp₁]
      exact eat_stepOk p
    | chr c =>
      rw [hp₁]
      exact eat_stepOk p
  all_goals
    rw [hp₁]
    exact eat_stepOk p

end Kip


namespace Kip

theorem sync_stepOk {p q : Parser} (h : stepOk p q false) :
    stepOk p q.sync false := by
  obtain ⟨h₁, h₂, h₃⟩ := sync_facts q
  obtain ⟨g₁, g₂, g₃⟩ := h
  refine ⟨by rw [h₁, g₁], ?_, fun hb => ?_⟩
  · simp only [if_neg Bool.false_ne_true] at g₂ ⊢
    omega
  · have hq : q.current ≤ q.tokens.length := by
      rw [g₁]
      exact g₃ hb
    have := h₃ hq
    rw [g₁] at this
    exact this

theorem peek_after_eat {p : Parser} (h : p.is_eof = false) :
    ((p.eat).2).peek = p.look_ahead 1 := by
  rw [eat_snd_of_not_eof h]
  rfl

theorem declaration_wrap {p : Parser} {r : PR Stmt} (h : Prog p true r) :
    Prog p true
      (match r with
       | .err p₁ => .err p₁.sync
       | other => other) := by
  cases r with
  | oof => exact True.intro
  | ok s q => exact h
  | err q => exact sync_stepOk h

mutual
theorem expression_prog (fuel : Nat) (p : Parser) :
    Prog p true (expression fuel p) := by
  cases fuel with
  | zero => exact True.intro
  | succ fuel =>
    simp only [expression]
    exact assigment_prog fuel p
termination_by fuel

theorem assigment_prog (fuel : Nat) (p : Parser) :
    Prog p true (assigment fuel p) := by
  cases fuel with
  | zero => exact True.intro
  | succ fuel =>
    simp only [assigment]
    cases hc : conditional fuel p with
    | oof => exact True.intro
    | err p₁ =>
      have h := conditional_prog fuel p
      rw [hc] at h
      exact h
    | ok e p₁ =>
      have h := conditional_prog fuel p
      rw [hc] at h
      try dsimp only
      rcases hm : p₁.matchesAny [.equal] with ⟨m, p₂⟩
      try dsimp only
      cases m
      · rw [if_neg Bool.false_ne_true]
        exact h
      · rw [if_pos rfl]
        obtain ⟨hs, _, _, _, _⟩ := matchesAny_true hm (by decide)
        cases ha : assigment fuel p₂ with
        | oof => exact True.intro
        | err p₃ =>
          have h2 := assigment_prog fuel p₂
          rw [ha] at h2
          exact stepOk_weaken (stepOk_trans h (stepOk_trans hs h2))
        | ok v p₃ =>
          have h2 := assigment_prog fuel p₂
          rw [ha] at h2
          try dsimp only
          have hall : stepOk p p₃ true := stepOk_trans h (stepOk_trans hs h2)
          cases e
          case evar name r => exact hall
          all_goals exact stepOk_weaken hall
termination_by fuel

theorem conditional_prog (fuel : Nat) (p : Parser) :
    Prog p true (conditional fuel p) := by
  cases fuel with
  | zero => exact True.intro
  | succ fuel =>
    simp only [conditional]
    try dsimp only
    rcases hm : p.matchesAny [.ifkw] with ⟨m, p₁⟩
    try dsimp only
    cases m
    · rw [if_neg Bool.false_ne_true]
      exact orE_prog fuel p
    · rw [if_pos rfl]
      obtain ⟨hs, _, _, _, _⟩ := matchesAny_true hm (by decide)
      cases ho : orE fuel p₁ with
      | oof => exact True.intro
      | err p₂ =>
        have h := orE_prog fuel p₁
        rw [ho] at h
        exact stepOk_weaken (stepOk_trans hs h)
      | ok condition p₂ =>
        have h := orE_prog fuel p₁
        rw [ho] at h
        have hpc : stepOk p p₂ true := stepOk_trans hs h
        try dsimp only
        rcases hx : p₂.expect .openBrace with _ | ⟨obTok, p₃⟩
        · exact stepOk_weaken hpc
        · try dsimp only
          have he := (expect_some hx (by intro hc0; cases hc0)).1
          cases hb : blockFn fuel [] p₃ with
          | oof => exact True.intro
          | err p₄ =>
            have h2 := blockFn_prog fuel [] p₃
            rw [hb] at h2
            exact stepOk_weaken (stepOk_trans hpc (stepOk_trans he h2))
          | ok thenB p₄ =>
            have h2 := blockFn_prog fuel [] p₃
            rw [hb] at h2
            have hto4 : stepOk p p₄ true := stepOk_trans hpc (stepOk_trans he h2)
            try dsimp only
            rcases hm2 : p₄.matchesAny [.elsekw] with ⟨me, p₅⟩
            try dsimp only
            cases me
            · rw [if_neg Bool.false_ne_true]
              have hp5 := matchesAny_false hm2
              subst hp5
              exact hto4
            · rw [if_pos rfl]
              obtain ⟨hs2, _, _, _, _⟩ := matchesAny_true hm2 (by decide)
              have hto5 : stepOk p p₅ true := stepOk_trans hto4 hs2
              rcases hx2 : p₅.expect .openBrace with _ | ⟨ob2, p₆⟩
              · exact stepOk_weaken hto5
              · try dsimp only
                have he2 := (expect_some hx2 (by intro hc0; cases hc0)).1
                have hto6 : stepOk p p₆ true := stepOk_trans hto5 he2
                cases hb2 : blockFn fuel [] p₆ with
                | oof => exact True.intro
                | err p₇ =>
                  have h3 := blockFn_prog fuel [] p₆
                  rw [hb2] at h3
                  exact stepOk_weaken (stepOk_trans hto6 h3)
                | ok elseB p₇ =>
                  have h3 := blockFn_prog fuel [] p₆
                  rw [hb2] at h3
                  try dsimp only
                  exact stepOk_trans hto6 h3
termination_by fuel

theorem orE_prog (fuel : Nat) (p : Parser) : Prog p true (orE fuel p) := by
  cases fuel with
  | zero => exact True.intro
  | succ fuel =>
    simp only [orE]
    cases ha : andE fuel p with
    | oof => exact True.intro
    | err p₁ =>
      have h := andE_prog fuel p
      rw [ha] at h
      exact h
    | ok lhs p₁ =>
      have h := andE_prog fuel p
      rw [ha] at h
      try dsimp only
      exact prog_comp h (orLoop_prog fuel lhs.region lhs p₁)
termination_by fuel

theorem orLoop_prog (fuel : Nat) (exprStart : Region) (lhs : Expr) (p : Parser) :
    Prog p false (orLoop fuel exprStart lhs p) := by
  cases fuel with
  | zero => exact True.intro
  | succ fuel =>
    simp only [orLoop]
    try dsimp only
    rcases hm : p.matchesAny [.doubleBar] with ⟨m, p₁⟩
    try dsimp only
    cases m
    · rw [if_neg Bool.false_ne_true]
      have hp := matchesAny_false hm
      subst hp
      exact stepOk_refl _
    · rw [if_pos rfl]
      obtain ⟨hs, _, _, _, _⟩ := matchesAny_true hm (by decide)
      cases ha : andE fuel p₁ with
      | oof => exact True.intro
      | err p₂ =>
        have h := andE_prog fuel p₁
        rw [ha] at h
        exact stepOk_weaken (stepOk_trans hs h)
      | ok rhs p₂ =>
        have h := andE_prog fuel p₁
        rw [ha] at h
        try dsimp only
        exact prog_weaken (prog_comp (stepOk_trans hs h)
          (orLoop_prog fuel exprStart (.binary .or lhs rhs (exprStart.to' rhs.region)) p₂))
termination_by fuel

theorem andE_prog (fuel : Nat) (p : Parser) : Prog p true (andE fuel p) := by
  cases fuel with
  | zero => exact True.intro
  | succ fuel =>
    simp only [andE]
    cases ha : equality fuel p with
    | oof => exact True.intro
    | err p₁ =>
      have h := equality_prog fuel p
      rw [ha] at h
      exact h
    | ok lhs p₁ =>
      have h := equality_prog fuel p
      rw [ha] at h
      try dsimp only
      exact prog_comp h (andLoop_prog fuel lhs.region lhs p₁)
termination_by fuel

theorem andLoop_prog (fuel : Nat) (exprStart : Region) (lhs : Expr) (p : Parser) :
    Prog p false (andLoop fuel exprStart lhs p) := by
  cases fuel with
  | zero => exact True.intro
  | succ fuel =>
    simp only [andLoop]
    try dsimp only
    rcases hm : p.matchesAny [.doubleAmpersand] with ⟨m, p₁⟩
    try dsimp only
    cases m
    · rw [if_neg Bool.false_ne_true]
      have hp := matchesAny_false hm
      subst hp
      exact stepOk_refl _
    · rw [if_pos rfl]
      obtain ⟨hs, _, _, _, _⟩ := matchesAny_true hm (by decide)
      cases ha : equality fuel p₁ with
      | oof => exact True.intro
      | err p₂ =>
        have h := equality_prog fuel p₁
        rw [ha] at h
        exact stepOk_weaken (stepOk_trans hs h)
      | ok rhs p₂ =>
        have h := equality_prog fuel p₁
        rw [ha] at h
        try dsimp only
        exact prog_weaken (prog_comp (stepOk_trans hs h)
          (andLoop_prog fuel exprStart (.binary .and lhs rhs (exprStart.to' rhs.region)) p₂))
termination_by fuel

theorem equality_prog (fuel : Nat) (p : Parser) : Prog p true (equality fuel p) := by
  cases fuel with
  | zero => exact True.intro
  | succ fuel =>
    simp only [equality]
    cases ha : comparison fuel p with
    | oof => exact True.intro
    | err p₁ =>
      have h := comparison_prog fuel p
      rw [ha] at h
      exact h
    | ok lhs p₁ =>
      have h := comparison_prog fuel p
      rw [ha] at h
      try dsimp only
      exact prog_comp h (eqLoop_prog fuel lhs.region lhs p₁)
termination_by fuel

theorem eqLoop_prog (fuel : Nat) (exprStart : Region) (lhs : Expr) (p : Parser) :
    Prog p false (eqLoop fuel exprStart lhs p) := by
  cases fuel with
  | zero => exact True.intro
  | succ fuel =>
    simp only [eqLoop]
    try dsimp only
    rcases hm : p.matchesAny [.bangEqual, .doubleEqual] with ⟨m, p₁⟩
    try dsimp only
    cases m
    · rw [if_neg Bool.false_ne_true]
      have hp := matchesAny_false hm
      subst hp
      exact stepOk_refl _
    · rw [if_pos rfl]
      obtain ⟨hs, _, _, _, _⟩ := matchesAny_true hm (by decide)
      cases hop : p₁.previous.to_bin_op with
      | none => exact stepOk_weaken hs
      | some op =>
        try dsimp only
        cases ha : comparison fuel p₁ with
        | oof => exact True.intro
        | err p₂ =>
          have h := comparison_prog fuel p₁
          rw [ha] at h
          exact stepOk_weaken (stepOk_trans hs h)
        | ok rhs p₂ =>
          have h := comparison_prog fuel p₁
          rw [ha] at h
          try dsimp only
          exact prog_weaken (prog_comp (stepOk_trans hs h)
            (eqLoop_prog fuel exprStart (.binary op lhs rhs (exprStart.to' rhs.region)) p₂))
termination_by fuel

theorem comparison_prog (fuel : Nat) (p : Parser) : Prog p true (comparison fuel p) := by
  cases fuel with
  | zero => exact True.intro
  | succ fuel =>
    simp only [comparison]
    cases ha : term fuel p with
    | oof => exact True.intro
    | err p₁ =>
      have h := term_prog fuel p
      rw [ha] at h
      exact h
    | ok lhs p₁ =>
      have h := term_prog fuel p
      rw [ha] at h
      try dsimp only
      exact prog_comp h (cmpLoop_prog fuel lhs.region lhs p₁)
termination_by fuel

theorem cmpLoop_prog (fuel : Nat) (exprStart : Region) (lhs : Expr) (p : Parser) :
    Prog p false (cmpLoop fuel exprStart lhs p) := by
  cases fuel with
  | zero => exact True.intro
  | succ fuel =>
    simp only [cmpLoop]
    try dsimp only
    rcases hm : p.matchesAny [.gt, .ge, .lt, .le] with ⟨m, p₁⟩
    try dsimp only
    cases m
    · rw [if_neg Bool.false_ne_true]
      have hp := matchesAny_false hm
      subst hp
      exact stepOk_refl _
    · rw [if_pos rfl]
      obtain ⟨hs, _, _, _, _⟩ := matchesAny_true hm (by decide)
      cases hop : p₁.previous.to_bin_op with
      | none => exact stepOk_weaken hs
      | some op =>
        try dsimp only
        cases ha : term fuel p₁ with
        | oof => exact True.intro
        | err p₂ =>
          have h := term_prog fuel p₁
          rw [ha] at h
          exact stepOk_weaken (stepOk_trans hs h)
        | ok rhs p₂ =>
          have h := term_prog fuel p₁
          rw [ha] at h
          try dsimp only
          exact prog_weaken (prog_comp (stepOk_trans hs h)
            (cmpLoop_prog fuel exprStart (.binary op lhs rhs (exprStart.to' rhs.region)) p₂))
termination_by fuel

theorem term_prog (fuel : Nat) (p : Parser) : Prog p true (term fuel p) := by
  cases fuel with
  | zero => exact True.intro
  | succ fuel =>
    simp only [term]
    cases ha : factor fuel p with
    | oof => exact True.intro
    | err p₁ =>
      have h := factor_prog fuel p
      rw [ha] at h
      exact h
    | ok lhs p₁ =>
      have h := factor_prog fuel p
      rw [ha] at h
      try dsimp only
      exact prog_comp h (termLoop_prog fuel lhs.region lhs p₁)
termination_by fuel

theorem termLoop_prog (fuel : Nat) (exprStart : Region) (lhs : Expr) (p : Parser) :
    Prog p false (termLoop fuel exprStart lhs p) := by
  cases fuel with
  | zero => exact True.intro
  | succ fuel =>
    simp only [termLoop]
    try dsimp only
    rcases hm : p.matchesAny [.minus, .plus] with ⟨m, p₁⟩
    try dsimp only
    cases m
    · rw [if_neg Bool.false_ne_true]
      have hp := matchesAny_false hm
      subst hp
      exact stepOk_refl _
    · rw [if_pos rfl]
      obtain ⟨hs, _, _, _, _⟩ := matchesAny_true hm (by decide)
      cases hop : p₁.previous.to_bin_op with
      | none => exact stepOk_weaken hs
      | some op =>
        try dsimp only
        cases ha : factor fuel p₁ with
        | oof => exact True.intro
        | err p₂ =>
          have h := factor_prog fuel p₁
          rw [ha] at h
          exact stepOk_weaken (stepOk_trans hs h)
        | ok rhs p₂ =>
          have h := factor_prog fuel p₁
          rw [ha] at h
          try dsimp only
          exact prog_weaken (prog_comp (stepOk_trans hs h)
            (termLoop_prog fuel exprStart (.binary op lhs rhs (exprStart.to' rhs.region)) p₂))
termination_by fuel

theorem factor_prog (fuel : Nat) (p : Parser) : Prog p true (factor fuel p) := by
  cases fuel with
  | zero => exact True.intro
  | succ fuel =>
    simp only [factor]
    cases ha : unaryFn fuel p with
    | oof => exact True.intro
    | err p₁ =>
      have h := unaryFn_prog fuel p
      rw [ha] at h
      exact h
    | ok lhs p₁ =>
      have h := unaryFn_prog fuel p
      rw [ha] at h
      try dsimp only
      exact prog_comp h (factorLoop_prog fuel lhs.region lhs p₁)
termination_by fuel

theorem factorLoop_prog (fuel : Nat) (exprStart : Region) (lhs : Expr) (p : Parser) :
    Prog p false (factorLoop fuel exprStart lhs p) := by
  cases fuel with
  | zero => exact True.intro
  | succ fuel =>
    simp only [factorLoop]
    try dsimp only
    rcases hm : p.matchesAny [.slash, .star, .percent] with ⟨m, p₁⟩
    try dsimp only
    cases m
    · rw [if_neg Bool.false_ne_true]
      have hp := matchesAny_false hm
      subst hp
      exact stepOk_refl _
    · rw [if_pos rfl]
      obtain ⟨hs, _, _, _, _⟩ := matchesAny_true hm (by decide)
      cases hop : p₁.previous.to_bin_op with
      | none => exact stepOk_weaken hs
      | some op =>
        try dsimp only
        cases ha : unaryFn fuel p₁ with
        | oof => exact True.intro
        | err p₂ =>
          have h := unaryFn_prog fuel p₁
          rw [ha] at h
          exact stepOk_weaken (stepOk_trans hs h)
        | ok rhs p₂ =>
          have h := unaryFn_prog fuel p₁
          rw [ha] at h
          try dsimp only
          exact prog_weaken (prog_comp (stepOk_trans hs h)
            (factorLoop_prog fuel exprStart (.binary op lhs rhs (exprStart.to' lhs.region)) p₂))
termination_by fuel

theorem unaryFn_prog (fuel : Nat) (p : Parser) : Prog p true (unaryFn fuel p) := by
  cases fuel with
  | zero => exact True.intro
  | succ fuel =>
    simp only [unaryFn]
    try dsimp only
    rcases hm : p.matchesAny [.bang, .minus] with ⟨m, p₁⟩
    try dsimp only
    cases m
    · rw [if_neg Bool.false_ne_true]
      exact callFn_prog fuel p
    · rw [if_pos rfl]
      obtain ⟨hs, _, _, _, _⟩ := matchesAny_true hm (by decide)
      cases hop : p₁.previous.to_unary_op with
      | none => exact stepOk_weaken hs
      | some op =>
        try dsimp only
        cases ha : unaryFn fuel p₁ with
        | oof => exact True.intro
        | err p₂ =>
          have h := unaryFn_prog fuel p₁
          rw [ha] at h
          exact stepOk_weaken (stepOk_trans hs h)
        | ok rhs p₂ =>
          have h := unaryFn_prog fuel p₁
          rw [ha] at h
          try dsimp only
          exact stepOk_trans hs h
termination_by fuel

theorem callFn_prog (fuel : Nat) (p : Parser) : Prog p true (callFn fuel p) := by
  cases fuel with
  | zero => exact True.intro
  | succ fuel =>
    simp only [callFn]
    have hprim := primary_prog fuel p
    cases hk : p.peek.kind
    case ident fname =>
      try dsimp only
      by_cases hlp : (p.look_ahead 1).kind = .openParen
      · rw [if_pos hlp]
        have hne : p.is_eof = false := not_eof_of_kind hk (by intro hc0; cases hc0)
        try dsimp only
        rcases hpe : p.eat with ⟨fnTok, p₁⟩
        try dsimp only
        have hp₁ : p₁ = (p.eat).2 := by rw [hpe]
        have h₁ : stepOk p p₁ true := by
          rw [hp₁]
          exact eat_stepOk_strict hne
        have hne₁ : p₁.is_eof = false := by
          have hpk : p₁.peek = p.look_ahead 1 := by
            rw [hp₁]
            exact peek_after_eat hne
          simp [Parser.is_eof, hpk, hlp]
        rcases hpe₂ : p₁.eat with ⟨opTok, p₂⟩
        try dsimp only
        have hp₂ : p₂ = (p₁.eat).2 := by rw [hpe₂]
        have h₂ : stepOk p₁ p₂ true := by
          rw [hp₂]
          exact eat_stepOk_strict hne₁
        have h12 : stepOk p p₂ true := stepOk_trans h₁ h₂
        by_cases hcp : p₂.check .closeParen = true
        · rw [if_pos hcp]
          rcases hx : p₂.expect .closeParen with _ | ⟨cp, p₃⟩
          · exact stepOk_weaken h12
          · try dsimp only
            have he := (expect_some hx (by intro hc0; cases hc0)).1
            exact stepOk_trans h12 he
        · rw [if_neg hcp]
          cases hexp : expression fuel p₂ with
          | oof => exact True.intro
          | err p₃ =>
            have h := expression_prog fuel p₂
            rw [hexp] at h
            exact stepOk_weaken (stepOk_trans h12 h)
          | ok e p₃ =>
            have h := expression_prog fuel p₂
            rw [hexp] at h
            try dsimp only
            exact prog_comp (stepOk_trans h12 h)
              (argsLoop_prog fuel fnTok fname [e] p₃)
      · rw [if_neg hlp]
        exact hprim
    all_goals exact hprim
termination_by fuel

theorem argsLoop_prog (fuel : Nat) (fnTok : Token) (fname : Symbol)
    (acc : List Expr) (p : Parser) :
    Prog p true (argsLoop fuel fnTok fname acc p) := by
  cases fuel with
  | zero => exact True.intro
  | succ fuel =>
    simp only [argsLoop]
    try dsimp only
    rcases hm : p.matchesAny [.comma] with ⟨m, p₁⟩
    try dsimp only
    cases m
    · rw [if_neg Bool.false_ne_true]
      have hp := matchesAny_false hm
      rw [hp]
      rcases hx : p.expect .closeParen with _ | ⟨cp, p₂⟩
      · exact stepOk_refl _
      · try dsimp only
        exact (expect_some hx (by intro hc0; cases hc0)).1
    · rw [if_pos rfl]
      obtain ⟨hs, _, _, _, _⟩ := matchesAny_true hm (by decide)
      cases hexp : expression fuel p₁ with
      | oof => exact True.intro
      | err p₂ =>
        have h := expression_prog fuel p₁
        rw [hexp] at h
        exact stepOk_weaken (stepOk_trans hs h)
      | ok e p₂ =>
        have h := expression_prog fuel p₁
        rw [hexp] at h
        try dsimp only
        exact prog_comp (stepOk_trans hs h)
          (argsLoop_prog fuel fnTok fname (acc ++ [e]) p₂)
termination_by fuel

theorem primary_prog (fuel : Nat) (p : Parser) : Prog p true (primary fuel p) := by
  cases fuel with
  | zero => exact True.intro
  | succ fuel =>
    simp only [primary]
    cases hk : p.peek.kind
    case ident name =>
      have hne : p.is_eof = false := not_eof_of_kind hk (by intro hc0; cases hc0)
      try dsimp only
      rcases hpe : p.eat with ⟨tk, p₁⟩
      try dsimp only
      have hp₁ : p₁ = (p.eat).2 := by rw [hpe]
      rw [hp₁]
      exact eat_stepOk_strict hne
    case literal l =>
      have hne : p.is_eof = false := not_eof_of_kind hk (by intro hc0; cases hc0)
      try dsimp only
      rcases hpe : p.eat with ⟨tk, p₁⟩
      try dsimp only
      have hp₁ : p₁ = (p.eat).2 := by rw [hpe]
      rw [hp₁]
      exact eat_stepOk_strict hne
    case openParen =>
      have hne : p.is_eof = false := not_eof_of_kind hk (by intro hc0; cases hc0)
      try dsimp only
      rcases hpe : p.eat with ⟨tk, p₁⟩
      try dsimp only
      have hp₁ : p₁ = (p.eat).2 := by rw [hpe]
      have h₁ : stepOk p p₁ true := by
        rw [hp₁]
        exact eat_stepOk_strict hne
      cases hexp : expression fuel p₁ with
      | oof => exact True.intro
      | ok e p₂ =>
        have h := expression_prog fuel p₁
        rw [hexp] at h
        try dsimp only
        rcases hx : p₂.expect .closeParen with _ | ⟨cp, p₃⟩
        · exact stepOk_weaken (stepOk_trans h₁ h)
        · try dsimp only
          have he := (expect_some hx (by intro hc0; cases hc0)).1
          exact stepOk_trans h₁ (stepOk_trans h he)
      | err p₂ =>
        have h := expression_prog fuel p₁
        rw [hexp] at h
        try dsimp only
        rcases hx : p₂.expect .closeParen with _ | ⟨cp, p₃⟩
        · exact stepOk_weaken (stepOk_trans h₁ h)
        · try dsimp only
          have he := (expect_some hx (by intro hc0; cases hc0)).1
          exact stepOk_weaken (stepOk_trans h₁ (stepOk_trans h he))
    all_goals exact stepOk_refl _
termination_by fuel

theorem declaration_prog (fuel : Nat) (p : Parser) :
    Prog p true (declaration fuel p) := by
  cases fuel with
  | zero => exact True.intro
  | succ fuel =>
    simp only [declaration]
    have hsp := statement_prog fuel p
    cases hk : p.peek.kind
    case exkw => exact declaration_wrap (externDecl_prog fuel p)
    case func => exact declaration_wrap (funcDecl_prog fuel p)
    case varkw => exact declaration_wrap (varDecl_prog fuel p)
    case impt => exact declaration_wrap (imptStmt_prog p)
    all_goals exact declaration_wrap hsp
termination_by fuel

theorem statement_prog (fuel : Nat) (p : Parser) :
    Prog p true (statement fuel p) := by
  cases fuel with
  | zero => exact True.intro
  | succ fuel =>
    simp only [statement]
    have hes := exprStmt_prog fuel p
    cases hk : p.peek.kind
    case ret => exact retStmt_prog fuel p
    case impt => exact imptStmt_prog p
    case openBrace =>
      have hne : p.is_eof = false := not_eof_of_kind hk (by intro hc0; cases hc0)
      try dsimp only
      rcases hpe : p.eat with ⟨ob, p₁⟩
      try dsimp only
      have hp₁ : p₁ = (p.eat).2 := by rw [hpe]
      have h₁ : stepOk p p₁ true := by
        rw [hp₁]
        exact eat_stepOk_strict hne
      cases hb : blockFn fuel [] p₁ with
      | oof => exact True.intro
      | err p₂ =>
        have h := blockFn_prog fuel [] p₁
        rw [hb] at h
        exact stepOk_weaken (stepOk_trans h₁ h)
      | ok stmts p₂ =>
        have h := blockFn_prog fuel [] p₁
        rw [hb] at h
        try dsimp only
        exact stepOk_trans h₁ h
    all_goals exact hes
termination_by fuel

theorem retStmt_prog (fuel : Nat) (p : Parser) : Prog p true (retStmt fuel p) := by
  cases fuel with
  | zero => exact True.intro
  | succ fuel =>
    simp only [retStmt]
    try dsimp only
    rcases hpe : p.eat with ⟨retKw, p₁⟩
    try dsimp only
    have hp₁ : p₁ = (p.eat).2 := by rw [hpe]
    have h₁ : stepOk p p₁ false := by
      rw [hp₁]
      exact eat_stepOk p
    cases hexp : expression fuel p₁ with
    | oof => exact True.intro
    | err p₂ =>
      have h := expression_prog fuel p₁
      rw [hexp] at h
      exact stepOk_weaken (stepOk_trans h₁ h)
    | ok value p₂ =>
      have h := expression_prog fuel p₁
      rw [hexp] at h
      try dsimp only
      rcases hx : p₂.expect .semicolon with _ | ⟨semi, p₃⟩
      · exact stepOk_weaken (stepOk_trans h₁ h)
      · try dsimp only
        have he := (expect_some hx (by intro hc0; cases hc0)).1
        exact stepOk_trans h₁ (stepOk_trans h he)
termination_by fuel

theorem exprStmt_prog (fuel : Nat) (p : Parser) : Prog p true (exprStmt fuel p) := by
  cases fuel with
  | zero => exact True.intro
  | succ fuel =>
    simp only [exprStmt]
    try dsimp only
    cases hexp : expression fuel p with
    | oof => exact True.intro
    | err p₁ =>
      have h := expression_prog fuel p
      rw [hexp] at h
      exact h
    | ok e p₁ =>
      have h := expression_prog fuel p
      rw [hexp] at h
      try dsimp only
      by_cases hcnd : e.is_cond = true
      · rw [if_pos hcnd]
        exact h
      · rw [if_neg hcnd]
        rcases hx : p₁.expect .semicolon with _ | ⟨semi, p₂⟩
        · exact stepOk_weaken h
        · try dsimp only
          have he := (expect_some hx (by intro hc0; cases hc0)).1
          exact stepOk_trans h he
termination_by fuel

theorem varDecl_prog (fuel : Nat) (p : Parser) : Prog p true (varDecl fuel p) := by
  cases fuel with
  | zero => exact True.intro
  | succ fuel =>
    simp only [varDecl]
    try dsimp only
    rcases hpe : p.eat with ⟨varKw, p₁⟩
    try dsimp only
    have hp₁ : p₁ = (p.eat).2 := by rw [hpe]
    have h₁ : stepOk p p₁ false := by
      rw [hp₁]
      exact eat_stepOk p
    rcases hi : p₁.expect_ident with _ | ⟨name, p₂⟩
    · exact h₁
    · try dsimp only
      have h₂ := (expect_ident_some hi).1
      rcases hq : p₂.expect .equal with _ | ⟨eqT, p₃⟩
      · exact stepOk_weaken (stepOk_trans h₁ h₂)
      · try dsimp only
        have h₃ := (expect_some hq (by intro hc0; cases hc0)).1
        cases hexp : expression fuel p₃ with
        | oof => exact True.intro
        | err p₄ =>
          have h := expression_prog fuel p₃
          rw [hexp] at h
          exact stepOk_weaken
            (stepOk_trans h₁ (stepOk_trans h₂ (stepOk_trans h₃ h)))
        | ok init p₄ =>
          have h := expression_prog fuel p₃
          rw [hexp] at h
          try dsimp only
          rcases hx : p₄.expect .semicolon with _ | ⟨semi, p₅⟩
          · exact stepOk_weaken
              (stepOk_trans h₁ (stepOk_trans h₂ (stepOk_trans h₃ h)))
          · try dsimp only
            have he := (expect_some hx (by intro hc0; cases hc0)).1
            exact stepOk_trans h₁
              (stepOk_trans h₂ (stepOk_trans h₃ (stepOk_trans h he)))
termination_by fuel

theorem externDecl_prog (fuel : Nat) (p : Parser) :
    Prog p true (externDecl fuel p) := by
  cases fuel with
  | zero => exact True.intro
  | succ fuel =>
    simp only [externDecl]
    try dsimp only
    rcases hpe : p.eat with ⟨extKw, p₁⟩
    try dsimp only
    have hp₁ : p₁ = (p.eat).2 := by rw [hpe]
    have h₁ : stepOk p p₁ false := by
      rw [hp₁]
      exact eat_stepOk p
    rcases hq : p₁.expect .func with _ | ⟨fk, p₂⟩
    · exact h₁
    · try dsimp only
      have h₂ := (expect_some hq (by intro hc0; cases hc0)).1
      cases hpr : protoFn fuel p₂ with
      | oof => exact True.intro
      | err p₃ =>
        have h := protoFn_prog fuel p₂
        rw [hpr] at h
        exact stepOk_weaken (stepOk_trans h₁ (stepOk_trans h₂ h))
      | ok proto p₃ =>
        have h := protoFn_prog fuel p₂
        rw [hpr] at h
        try dsimp only
        rcases hx : p₃.expect .semicolon with _ | ⟨semi, p₄⟩
        · exact stepOk_weaken (stepOk_trans h₁ (stepOk_trans h₂ h))
        · try dsimp only
          have he := (expect_some hx (by intro hc0; cases hc0)).1
          exact stepOk_trans h₁ (stepOk_trans h₂ (stepOk_trans h he))
termination_by fuel

theorem funcDecl_prog (fuel : Nat) (p : Parser) : Prog p true (funcDecl fuel p) := by
  cases fuel with
  | zero => exact True.intro
  | succ fuel =>
    simp only [funcDecl]
    try dsimp only
    rcases hpe : p.eat with ⟨funcKw, p₁⟩
    try dsimp only
    have hp₁ : p₁ = (p.eat).2 := by rw [hpe]
    have h₁ : stepOk p p₁ false := by
      rw [hp₁]
      exact eat_stepOk p
    cases hpr : protoFn fuel p₁ with
    | oof => exact True.intro
    | err p₂ =>
      have h := protoFn_prog fuel p₁
      rw [hpr] at h
      exact stepOk_weaken (stepOk_trans h₁ h)
    | ok proto p₂ =>
      have h := protoFn_prog fuel p₁
      rw [hpr] at h
      try dsimp only
      rcases hq : p₂.expect .openBrace with _ | ⟨ob, p₃⟩
      · exact stepOk_weaken (stepOk_trans h₁ h)
      · try dsimp only
        have h₂ := (expect_some hq (by intro hc0; cases hc0)).1
        cases hb : blockFn fuel [] p₃ with
        | oof => exact True.intro
        | err p₄ =>
          have hbp := blockFn_prog fuel [] p₃
          rw [hb] at hbp
          exact stepOk_weaken
            (stepOk_trans h₁ (stepOk_trans h (stepOk_trans h₂ hbp)))
        | ok body p₄ =>
          have hbp := blockFn_prog fuel [] p₃
          rw [hb] at hbp
          try dsimp only
          exact stepOk_trans h₁ (stepOk_trans h (stepOk_trans h₂ hbp))
termination_by fuel

theorem blockFn_prog (fuel : Nat) (acc : List Stmt) (p : Parser) :
    Prog p true (blockFn fuel acc p) := by
  cases fuel with
  | zero => exact True.intro
  | succ fuel =>
    simp only [blockFn]
    by_cases hg : ¬(p.check .closeBrace = true) ∧ ¬(p.is_eof = true)
    · rw [if_pos hg]
      cases hd : declaration fuel p with
      | oof => exact True.intro
      | err p₁ =>
        have h := declaration_prog fuel p
        rw [hd] at h
        exact h
      | ok s p₁ =>
        have h := declaration_prog fuel p
        rw [hd] at h
        try dsimp only
        exact prog_comp h (blockFn_prog fuel (acc ++ [s]) p₁)
    · rw [if_neg hg]
      rcases hx : p.expect .closeBrace with _ | ⟨cb, p₁⟩
      · exact stepOk_refl _
      · try dsimp only
        exact (expect_some hx (by intro hc0; cases hc0)).1
termination_by fuel

theorem protoFn_prog (fuel : Nat) (p : Parser) : Prog p true (protoFn fuel p) := by
  cases fuel with
  | zero => exact True.intro
  | succ fuel =>
    simp only [protoFn]
    try dsimp only
    rcases hi : p.expect_ident with _ | ⟨name, p₁⟩
    · exact stepOk_refl _
    · try dsimp only
      have h₁ := (expect_ident_some hi).1
      rcases hq : p₁.expect .openParen with _ | ⟨opTok, p₂⟩
      · exact stepOk_weaken h₁
      · try dsimp only
        have h₂ := (expect_some hq (by intro hc0; cases hc0)).1
        have h12 : stepOk p p₂ true := stepOk_trans h₁ h₂
        by_cases hcp : p₂.check .closeParen = true
        · rw [if_pos hcp]
          try dsimp only
          rcases hx : p₂.expect .closeParen with _ | ⟨cp, p₄⟩
          · exact stepOk_weaken h12
          · try dsimp only
            have h₄ := (expect_some hx (by intro hc0; cases hc0)).1
            have hto : stepOk p p₄ true := stepOk_trans h12 h₄
            rcases hm : p₄.matchesAny [.colon] with ⟨m, p₅⟩
            try dsimp only
            cases m
            · rw [if_neg Bool.false_ne_true]
              have hp := matchesAny_false hm
              subst hp
              exact hto
            · rw [if_pos rfl]
              obtain ⟨hs, _, _, _, _⟩ := matchesAny_true hm (by decide)
              rcases ht : typeAnnotation p₅ with _ | ⟨ret, p₆⟩
              · exact stepOk_weaken (stepOk_trans hto hs)
              · try dsimp only
                have h₅ := typeAnnotation_some ht
                exact stepOk_trans hto (stepOk_trans hs h₅)
        · rw [if_neg hcp]
          cases hpl : paramsLoop fuel [] p₂ with
          | oof => exact True.intro
          | err p₃ =>
            have h := paramsLoop_prog fuel [] p₂
            rw [hpl] at h
            exact stepOk_weaken (stepOk_trans h12 h)
          | ok params p₃ =>
            have h := paramsLoop_prog fuel [] p₂
            rw [hpl] at h
            try dsimp only
            have h123 : stepOk p p₃ true := stepOk_trans h12 h
            rcases hx : p₃.expect .closeParen with _ | ⟨cp, p₄⟩
            · exact stepOk_weaken h123
            · try dsimp only
              have h₄ := (expect_some hx (by intro hc0; cases hc0)).1
              have hto : stepOk p p₄ true := stepOk_trans h123 h₄
              rcases hm : p₄.matchesAny [.colon] with ⟨m, p₅⟩
              try dsimp only
              cases m
              · rw [if_neg Bool.false_ne_true]
                have hp := matchesAny_false hm
                subst hp
                exact hto
              · rw [if_pos rfl]
                obtain ⟨hs, _, _, _, _⟩ := matchesAny_true hm (by decide)
                rcases ht : typeAnnotation p₅ with _ | ⟨ret, p₆⟩
                · exact stepOk_weaken (stepOk_trans hto hs)
                · try dsimp only
                  have h₅ := typeAnnotation_some ht
                  exact stepOk_trans hto (stepOk_trans hs h₅)
termination_by fuel

theorem paramsLoop_prog (fuel : Nat) (acc : List Param) (p : Parser) :
    Prog p true (paramsLoop fuel acc p) := by
  cases fuel with
  | zero => exact True.intro
  | succ fuel =>
    simp only [paramsLoop]
    rcases hi : p.expect_ident with _ | ⟨pname, p₁⟩
    · exact stepOk_refl _
    · try dsimp only
      have h₁ := (expect_ident_some hi).1
      rcases hq : p₁.expect .colon with _ | ⟨cl, p₂⟩
      · exact stepOk_weaken h₁
      · try dsimp only
        have h₂ := (expect_some hq (by intro hc0; cases hc0)).1
        rcases ht : typeAnnotation p₂ with _ | ⟨ty, p₃⟩
        · exact stepOk_weaken (stepOk_trans h₁ h₂)
        · try dsimp only
          have h₃ := typeAnnotation_some ht
          have h123 : stepOk p p₃ true := stepOk_trans h₁ (stepOk_trans h₂ h₃)
          rcases hm : p₃.matchesAny [.comma] with ⟨m, p₄⟩
          try dsimp only
          cases m
          · rw [if_neg Bool.false_ne_true]
            have hp := matchesAny_false hm
            subst hp
            exact h123
          · rw [if_pos rfl]
            obtain ⟨hs, _, _, _, _⟩ := matchesAny_true hm (by decide)
            exact prog_comp (stepOk_trans h123 hs)
              (paramsLoop_prog fuel (acc ++ [⟨pname, ty⟩]) p₄)
termination_by fuel
end

end Kip

namespace Kip

theorem PR.ok_ne_oof {α : Type} (v : α) (q : Parser) : (PR.ok v q) ≠ .oof := by
  intro h
  exact PR.noConfusion h

theorem PR.err_ne_oof {α : Type} (q : Parser) : (PR.err (α := α) q) ≠ .oof := by
  intro h
  exact PR.noConfusion h

theorem stepOk_false_facts {p q : Parser} (h : stepOk p q false)
    (hb : p.current ≤ p.tokens.length) :
    q.tokens.length = p.tokens.length ∧ p.current ≤ q.current
    ∧ q.current ≤ p.tokens.length := by
  obtain ⟨h₁, h₂, h₃⟩ := h
  refine ⟨by rw [h₁], by simpa using h₂, h₃ hb⟩

theorem stepOk_true_facts {p q : Parser} (h : stepOk p q true)
    (hb : p.current ≤ p.tokens.length) :
    q.tokens.length = p.tokens.length ∧ p.current + 1 ≤ q.current
    ∧ q.current ≤ p.tokens.length := by
  obtain ⟨h₁, h₂, h₃⟩ := h
  refine ⟨by rw [h₁], by simpa using h₂, h₃ hb⟩

theorem imptStmt_ne_oof (p : Parser) : imptStmt p ≠ .oof := by
  unfold imptStmt
  rcases hpe : p.eat with ⟨imptKw, p₁⟩
  try dsimp only
  cases hk : p₁.peek.kind
  case literal l =>
    cases l with
    | str path => exact PR.ok_ne_oof _ _
    | int k => exact PR.err_ne_oof _
    | chr c => exact PR.err_ne_oof _
  all_goals exact PR.err_ne_oof _

theorem syncGo_eof {p : Parser} (h : p.is_eof = true) : syncGo p = p := by
  rw [syncGo]
  rw [dif_pos h]

theorem sync_eof {p : Parser} (h : p.is_eof = true) : p.sync = p := by
  unfold Parser.sync
  rw [eat_snd_of_eof h, syncGo_eof h]

end Kip

namespace Kip

mutual
theorem expression_noOof (fuel : Nat) (p : Parser)
    (hf : 18 * (p.tokens.length - p.current) + 12 ≤ fuel)
    (hb : p.current ≤ p.tokens.length) : expression fuel p ≠ .oof := by
  cases fuel with
  | zero => exact absurd hf (by omega)
  | succ fuel =>
    simp only [expression]
    exact assigment_noOof fuel p (by omega) hb
termination_by fuel

theorem assigment_noOof (fuel : Nat) (p : Parser)
    (hf : 18 * (p.tokens.length - p.current) + 11 ≤ fuel)
    (hb : p.current ≤ p.tokens.length) : assigment fuel p ≠ .oof := by
  cases fuel with
  | zero => exact absurd hf (by omega)
  | succ fuel =>
    simp only [assigment]
    cases hc : conditional fuel p with
    | oof => exact absurd hc (conditional_noOof fuel p (by omega) hb)
    | err p₁ => exact PR.err_ne_oof _
    | ok e p₁ =>
      have hpr := conditional_prog fuel p
      rw [hc] at hpr
      obtain ⟨e₁, c₁, b₁⟩ := stepOk_true_facts hpr hb
      try dsimp only
      rcases hm : p₁.matchesAny [.equal] with ⟨m, p₂⟩
      try dsimp only
      cases m
      · rw [if_neg Bool.false_ne_true]
        exact PR.ok_ne_oof _ _
      · rw [if_pos rfl]
        obtain ⟨hs, _, _, _, _⟩ := matchesAny_true hm (by decide)
        obtain ⟨e₂, c₂, b₂⟩ := stepOk_true_facts hs (by omega)
        cases ha : assigment fuel p₂ with
        | oof => exact absurd ha (assigment_noOof fuel p₂ (by omega) (by omega))
        | err p₃ => exact PR.err_ne_oof _
        | ok v p₃ =>
          try dsimp only
          cases e
          case evar name r => exact PR.ok_ne_oof _ _
          all_goals exact PR.err_ne_oof _
termination_by fuel

theorem conditional_noOof (fuel : Nat) (p : Parser)
    (hf : 18 * (p.tokens.length - p.current) + 10 ≤ fuel)
    (hb : p.current ≤ p.tokens.length) : conditional fuel p ≠ .oof := by
  cases fuel with
  | zero => exact absurd hf (by omega)
  | succ fuel =>
    simp only [conditional]
    try dsimp only
    rcases hm : p.matchesAny [.ifkw] with ⟨m, p₁⟩
    try dsimp only
    cases m
    · rw [if_neg Bool.false_ne_true]
      exact orE_noOof fuel p (by omega) hb
    · rw [if_pos rfl]
      obtain ⟨hs, _, _, _, _⟩ := matchesAny_true hm (by decide)
      obtain ⟨e₁, c₁, b₁⟩ := stepOk_true_facts hs hb
      cases ho : orE fuel p₁ with
      | oof => exact absurd ho (orE_noOof fuel p₁ (by omega) (by omega))
      | err p₂ => exact PR.err_ne_oof _
      | ok condition p₂ =>
        have hpr := orE_prog fuel p₁
        rw [ho] at hpr
        obtain ⟨e₂, c₂, b₂⟩ := stepOk_true_facts hpr (by omega)
        try dsimp only
        rcases hx : p₂.expect .openBrace with _ | ⟨obTok, p₃⟩
        · exact PR.err_ne_oof _
        · try dsimp only
          have hex := (expect_some hx (by intro hc0; cases hc0)).1
          obtain ⟨e₃, c₃, b₃⟩ := stepOk_true_facts hex (by omega)
          cases hbk : blockFn fuel [] p₃ with
          | oof => exact absurd hbk (blockFn_noOof fuel [] p₃ (by omega) (by omega))
          | err p₄ => exact PR.err_ne_oof _
          | ok thenB p₄ =>
            have hb4 := blockFn_prog fuel [] p₃
            rw [hbk] at hb4
            obtain ⟨e₄, c₄, b₄⟩ := stepOk_true_facts hb4 (by omega)
            try dsimp only
            rcases hm2 : p₄.matchesAny [.elsekw] with ⟨me, p₅⟩
            try dsimp only
            cases me
            · rw [if_neg Bool.false_ne_true]
              exact PR.ok_ne_oof _ _
            · rw [if_pos rfl]
              obtain ⟨hs2, _, _, _, _⟩ := matchesAny_true hm2 (by decide)
              obtain ⟨e₅, c₅, b₅⟩ := stepOk_true_facts hs2 (by omega)
              rcases hx2 : p₅.expect .openBrace with _ | ⟨ob2, p₆⟩
              · exact PR.err_ne_oof _
              · try dsimp only
                have hex2 := (expect_some hx2 (by intro hc0; cases hc0)).1
                obtain ⟨e₆, c₆, b₆⟩ := stepOk_true_facts hex2 (by omega)
                cases hbk2 : blockFn fuel [] p₆ with
                | oof => exact absurd hbk2 (blockFn_noOof fuel [] p₆ (by omega) (by omega))
                | err p₇ => exact PR.err_ne_oof _
                | ok elseB p₇ =>
                  try dsimp only
                  exact PR.ok_ne_oof _ _
termination_by fuel

theorem orE_noOof (fuel : Nat) (p : Parser)
    (hf : 18 * (p.tokens.length - p.current) + 9 ≤ fuel)
    (hb : p.current ≤ p.tokens.length) : orE fuel p ≠ .oof := by
  cases fuel with
  | zero => exact absurd hf (by omega)
  | succ fuel =>
    simp only [orE]
    cases ha : andE fuel p with
    | oof => exact absurd ha (andE_noOof fuel p (by omega) hb)
    | err p₁ => exact PR.err_ne_oof _
    | ok lhs p₁ =>
      have hpr := andE_prog fuel p
      rw [ha] at hpr
      obtain ⟨e₁, c₁, b₁⟩ := stepOk_true_facts hpr hb
      try dsimp only
      exact orLoop_noOof fuel lhs.region lhs p₁ (by omega) (by omega)
termination_by fuel

theorem orLoop_noOof (fuel : Nat) (exprStart : Region) (lhs : Expr) (p : Parser)
    (hf : 18 * (p.tokens.length - p.current) + 2 ≤ fuel)
    (hb : p.current ≤ p.tokens.length) : orLoop fuel exprStart lhs p ≠ .oof := by
  cases fuel with
  | zero => exact absurd hf (by omega)
  | succ fuel =>
    simp only [orLoop]
    try dsimp only
    rcases hm : p.matchesAny [.doubleBar] with ⟨m, p₁⟩
    try dsimp only
    cases m
    · rw [if_neg Bool.false_ne_true]
      exact PR.ok_ne_oof _ _
    · rw [if_pos rfl]
      obtain ⟨hs, _, _, _, _⟩ := matchesAny_true hm (by decide)
      obtain ⟨e₁, c₁, b₁⟩ := stepOk_true_facts hs hb
      cases ha : andE fuel p₁ with
      | oof => exact absurd ha (andE_noOof fuel p₁ (by omega) (by omega))
      | err p₂ => exact PR.err_ne_oof _
      | ok rhs p₂ =>
        have hpr := andE_prog fuel p₁
        rw [ha] at hpr
        obtain ⟨e₂, c₂, b₂⟩ := stepOk_true_facts hpr (by omega)
        try dsimp only
        exact orLoop_noOof fuel exprStart
          (.binary .or lhs rhs (exprStart.to' rhs.region)) p₂ (by omega) (by omega)
termination_by fuel

theorem andE_noOof (fuel : Nat) (p : Parser)
    (hf : 18 * (p.tokens.length - p.current) + 8 ≤ fuel)
    (hb : p.current ≤ p.tokens.length) : andE fuel p ≠ .oof := by
  cases fuel with
  | zero => exact absurd hf (by omega)
  | succ fuel =>
    simp only [andE]
    cases ha : equality fuel p with
    | oof => exact absurd ha (equality_noOof fuel p (by omega) hb)
    | err p₁ => exact PR.err_ne_oof _
    | ok lhs p₁ =>
      have hpr := equality_prog fuel p
      rw [ha] at hpr
      obtain ⟨e₁, c₁, b₁⟩ := stepOk_true_facts hpr hb
      try dsimp only
      exact andLoop_noOof fuel lhs.region lhs p₁ (by omega) (by omega)
termination_by fuel

theorem andLoop_noOof (fuel : Nat) (exprStart : Region) (lhs : Expr) (p : Parser)
    (hf : 18 * (p.tokens.length - p.current) + 2 ≤ fuel)
    (hb : p.current ≤ p.tokens.length) : andLoop fuel exprStart lhs p ≠ .oof := by
  cases fuel with
  | zero => exact absurd hf (by omega)
  | succ fuel =>
    simp only [andLoop]
    try dsimp only
    rcases hm : p.matchesAny [.doubleAmpersand] with ⟨m, p₁⟩
    try dsimp only
    cases m
    · rw [if_neg Bool.false_ne_true]
      exact PR.ok_ne_oof _ _
    · rw [if_pos rfl]
      obtain ⟨hs, _, _, _, _⟩ := matchesAny_true hm (by decide)
      obtain ⟨e₁, c₁, b₁⟩ := stepOk_true_facts hs hb
      cases ha : equality fuel p₁ with
      | oof => exact absurd ha (equality_noOof fuel p₁ (by omega) (by omega))
      | err p₂ => exact PR.err_ne_oof _
      | ok rhs p₂ =>
        have hpr := equality_prog fuel p₁
        rw [ha] at hpr
        obtain ⟨e₂, c₂, b₂⟩ := stepOk_true_facts hpr (by omega)
        try dsimp only
        exact andLoop_noOof fuel exprStart
          (.binary .and lhs rhs (exprStart.to' rhs.region)) p₂ (by omega) (by omega)
termination_by fuel

theorem equality_noOof (fuel : Nat) (p : Parser)
    (hf : 18 * (p.tokens.length - p.current) + 7 ≤ fuel)
    (hb : p.current ≤ p.tokens.length) : equality fuel p ≠ .oof := by
  cases fuel with
  | zero => exact absurd hf (by omega)
  | succ fuel =>
    simp only [equality]
    cases ha : comparison fuel p with
    | oof => exact absurd ha (comparison_noOof fuel p (by omega) hb)
    | err p₁ => exact PR.err_ne_oof _
    | ok lhs p₁ =>
      have hpr := comparison_prog fuel p
      rw [ha] at hpr
      obtain ⟨e₁, c₁, b₁⟩ := stepOk_true_facts hpr hb
      try dsimp only
      exact eqLoop_noOof fuel lhs.region lhs p₁ (by omega) (by omega)
termination_by fuel

theorem eqLoop_noOof (fuel : Nat) (exprStart : Region) (lhs : Expr) (p : Parser)
    (hf : 18 * (p.tokens.length - p.current) + 2 ≤ fuel)
    (hb : p.current ≤ p.tokens.length) : eqLoop fuel exprStart lhs p ≠ .oof := by
  cases fuel with
  | zero => exact absurd hf (by omega)
  | succ fuel =>
    simp only [eqLoop]
    try dsimp only
    rcases hm : p.matchesAny [.bangEqual, .doubleEqual] with ⟨m, p₁⟩
    try dsimp only
    cases m
    · rw [if_neg Bool.false_ne_true]
      exact PR.ok_ne_oof _ _
    · rw [if_pos rfl]
      obtain ⟨hs, _, _, _, _⟩ := matchesAny_true hm (by decide)
      obtain ⟨e₁, c₁, b₁⟩ := stepOk_true_facts hs hb
      cases hop : p₁.previous.to_bin_op with
      | none => exact PR.err_ne_oof _
      | some op =>
        try dsimp only
        cases ha : comparison fuel p₁ with
        | oof => exact absurd ha (comparison_noOof fuel p₁ (by omega) (by omega))
        | err p₂ => exact PR.err_ne_oof _
        | ok rhs p₂ =>
          have hpr := comparison_prog fuel p₁
          rw [ha] at hpr
          obtain ⟨e₂, c₂, b₂⟩ := stepOk_true_facts hpr (by omega)
          try dsimp only
          exact eqLoop_noOof fuel exprStart
            (.binary op lhs rhs (exprStart.to' rhs.region)) p₂ (by omega) (by omega)
termination_by fuel

theorem comparison_noOof (fuel : Nat) (p : Parser)
    (hf : 18 * (p.tokens.length - p.current) + 6 ≤ fuel)
    (hb : p.current ≤ p.tokens.length) : comparison fuel p ≠ .oof := by
  cases fuel with
  | zero => exact absurd hf (by omega)
  | succ fuel =>
    simp only [comparison]
    cases ha : term fuel p with
    | oof => exact absurd ha (term_noOof fuel p (by omega) hb)
    | err p₁ => exact PR.err_ne_oof _
    | ok lhs p₁ =>
      have hpr := term_prog fuel p
      rw [ha] at hpr
      obtain ⟨e₁, c₁, b₁⟩ := stepOk_true_facts hpr hb
      try dsimp only
      exact cmpLoop_noOof fuel lhs.region lhs p₁ (by omega) (by omega)
termination_by fuel

theorem cmpLoop_noOof (fuel : Nat) (exprStart : Region) (lhs : Expr) (p : Parser)
    (hf : 18 * (p.tokens.length - p.current) + 2 ≤ fuel)
    (hb : p.current ≤ p.tokens.length) : cmpLoop fuel exprStart lhs p ≠ .oof := by
  cases fuel with
  | zero => exact absurd hf (by omega)
  | succ fuel =>
    simp only [cmpLoop]
    try dsimp only
    rcases hm : p.matchesAny [.gt, .ge, .lt, .le] with ⟨m, p₁⟩
    try dsimp only
    cases m
    · rw [if_neg Bool.false_ne_true]
      exact PR.ok_ne_oof _ _
    · rw [if_pos rfl]
      obtain ⟨hs, _, _, _, _⟩ := matchesAny_true hm (by decide)
      obtain ⟨e₁, c₁, b₁⟩ := stepOk_true_facts hs hb
      cases hop : p₁.previous.to_bin_op with
      | none => exact PR.err_ne_oof _
      | some op =>
        try dsimp only
        cases ha : term fuel p₁ with
        | oof => exact absurd ha (term_noOof fuel p₁ (by omega) (by omega))
        | err p₂ => exact PR.err_ne_oof _
        | ok rhs p₂ =>
          have hpr := term_prog fuel p₁
          rw [ha] at hpr
          obtain ⟨e₂, c₂, b₂⟩ := stepOk_true_facts hpr (by omega)
          try dsimp only
          exact cmpLoop_noOof fuel exprStart
            (.binary op lhs rhs (exprStart.to' rhs.region)) p₂ (by omega) (by omega)
termination_by fuel

theorem term_noOof (fuel : Nat) (p : Parser)
    (hf : 18 * (p.tokens.length - p.current) + 5 ≤ fuel)
    (hb : p.current ≤ p.tokens.length) : term fuel p ≠ .oof := by
  cases fuel with
  | zero => exact absurd hf (by omega)
  | succ fuel =>
    simp only [term]
    cases ha : factor fuel p with
    | oof => exact absurd ha (factor_noOof fuel p (by omega) hb)
    | err p₁ => exact PR.err_ne_oof _
    | ok lhs p₁ =>
      have hpr := factor_prog fuel p
      rw [ha] at hpr
      obtain ⟨e₁, c₁, b₁⟩ := stepOk_true_facts hpr hb
      try dsimp only
      exact termLoop_noOof fuel lhs.region lhs p₁ (by omega) (by omega)
termination_by fuel

theorem termLoop_noOof (fuel : Nat) (exprStart : Region) (lhs : Expr) (p : Parser)
    (hf : 18 * (p.tokens.length - p.current) + 2 ≤ fuel)
    (hb : p.current ≤ p.tokens.length) : termLoop fuel exprStart lhs p ≠ .oof := by
  cases fuel with
  | zero => exact absurd hf (by omega)
  | succ fuel =>
    simp only [termLoop]
    try dsimp only
    rcases hm : p.matchesAny [.minus, .plus] with ⟨m, p₁⟩
    try dsimp only
    cases m
    · rw [if_neg Bool.false_ne_true]
      exact PR.ok_ne_oof _ _
    · rw [if_pos rfl]
      obtain ⟨hs, _, _, _, _⟩ := matchesAny_true hm (by decide)
      obtain ⟨e₁, c₁, b₁⟩ := stepOk_true_facts hs hb
      cases hop : p₁.previous.to_bin_op with
      | none => exact PR.err_ne_oof _
      | some op =>
        try dsimp only
        cases ha : factor fuel p₁ with
        | oof => exact absurd ha (factor_noOof fuel p₁ (by omega) (by omega))
        | err p₂ => exact PR.err_ne_oof _
        | ok rhs p₂ =>
          have hpr := factor_prog fuel p₁
          rw [ha] at hpr
          obtain ⟨e₂, c₂, b₂⟩ := stepOk_true_facts hpr (by omega)
          try dsimp only
          exact termLoop_noOof fuel exprStart
            (.binary op lhs rhs (exprStart.to' rhs.region)) p₂ (by omega) (by omega)
termination_by fuel

theorem factor_noOof (fuel : Nat) (p : Parser)
    (hf : 18 * (p.tokens.length - p.current) + 4 ≤ fuel)
    (hb : p.current ≤ p.tokens.length) : factor fuel p ≠ .oof := by
  cases fuel with
  | zero => exact absurd hf (by omega)
  | succ fuel =>
    simp only [factor]
    cases ha : unaryFn fuel p with
    | oof => exact absurd ha (unaryFn_noOof fuel p (by omega) hb)
    | err p₁ => exact PR.err_ne_oof _
    | ok lhs p₁ =>
      have hpr := unaryFn_prog fuel p
      rw [ha] at hpr
      obtain ⟨e₁, c₁, b₁⟩ := stepOk_true_facts hpr hb
      try dsimp only
      exact factorLoop_noOof fuel lhs.region lhs p₁ (by omega) (by omega)
termination_by fuel

theorem factorLoop_noOof (fuel : Nat) (exprStart : Region) (lhs : Expr) (p : Parser)
    (hf : 18 * (p.tokens.length - p.current) + 2 ≤ fuel)
    (hb : p.current ≤ p.tokens.length) : factorLoop fuel exprStart lhs p ≠ .oof := by
  cases fuel with
  | zero => exact absurd hf (by omega)
  | succ fuel =>
    simp only [factorLoop]
    try dsimp only
    rcases hm : p.matchesAny [.slash, .star, .percent] with ⟨m, p₁⟩
    try dsimp only
    cases m
    · rw [if_neg Bool.false_ne_true]
      exact PR.ok_ne_oof _ _
    · rw [if_pos rfl]
      obtain ⟨hs, _, _, _, _⟩ := matchesAny_true hm (by decide)
      obtain ⟨e₁, c₁, b₁⟩ := stepOk_true_facts hs hb
      cases hop : p₁.previous.to_bin_op with
      | none => exact PR.err_ne_oof _
      | some op =>
        try dsimp only
        cases ha : unaryFn fuel p₁ with
        | oof => exact absurd ha (unaryFn_noOof fuel p₁ (by omega) (by omega))
        | err p₂ => exact PR.err_ne_oof _
        | ok rhs p₂ =>
          have hpr := unaryFn_prog fuel p₁
          rw [ha] at hpr
          obtain ⟨e₂, c₂, b₂⟩ := stepOk_true_facts hpr (by omega)
          try dsimp only
          exact factorLoop_noOof fuel exprStart
            (.binary op lhs rhs (exprStart.to' lhs.region)) p₂ (by omega) (by omega)
termination_by fuel

theorem unaryFn_noOof (fuel : Nat) (p : Parser)
    (hf : 18 * (p.tokens.length - p.current) + 3 ≤ fuel)
    (hb : p.current ≤ p.tokens.length) : unaryFn fuel p ≠ .oof := by
  cases fuel with
  | zero => exact absurd hf (by omega)
  | succ fuel =>
    simp only [unaryFn]
    try dsimp only
    rcases hm : p.matchesAny [.bang, .minus] with ⟨m, p₁⟩
    try dsimp only
    cases m
    · rw [if_neg Bool.false_ne_true]
      exact callFn_noOof fuel p (by omega) hb
    · rw [if_pos rfl]
      obtain ⟨hs, _, _, _, _⟩ := matchesAny_true hm (by decide)
      obtain ⟨e₁, c₁, b₁⟩ := stepOk_true_facts hs hb
      cases hop : p₁.previous.to_unary_op with
      | none => exact PR.err_ne_oof _
      | some op =>
        try dsimp only
        cases ha : unaryFn fuel p₁ with
        | oof => exact absurd ha (unaryFn_noOof fuel p₁ (by omega) (by omega))
        | err p₂ => exact PR.err_ne_oof _
        | ok rhs p₂ =>
          try dsimp only
          exact PR.ok_ne_oof _ _
termination_by fuel

theorem callFn_noOof (fuel : Nat) (p : Parser)
    (hf : 18 * (p.tokens.length - p.current) + 2 ≤ fuel)
    (hb : p.current ≤ p.tokens.length) : callFn fuel p ≠ .oof := by
  cases fuel with
  | zero => exact absurd hf (by omega)
  | succ fuel =>
    simp only [callFn]
    have hprim : primary fuel p ≠ .oof := primary_noOof fuel p (by omega) hb
    cases hk : p.peek.kind
    case ident fname =>
      try dsimp only
      by_cases hlp : (p.look_ahead 1).kind = .openParen
      · rw [if_pos hlp]
        have hne : p.is_eof = false := not_eof_of_kind hk (by intro hc0; cases hc0)
        try dsimp only
        rcases hpe : p.eat with ⟨fnTok, p₁⟩
        try dsimp only
        have hp₁ : p₁ = (p.eat).2 := by rw [hpe]
        have h₁ : stepOk p p₁ true := by
          rw [hp₁]
          exact eat_stepOk_strict hne
        obtain ⟨e₁, c₁, b₁⟩ := stepOk_true_facts h₁ hb
        have hne₁ : p₁.is_eof = false := by
          have hpk : p₁.peek = p.look_ahead 1 := by
            rw [hp₁]
            exact peek_after_eat hne
          simp [Parser.is_eof, hpk, hlp]
        rcases hpe₂ : p₁.eat with ⟨opTok, p₂⟩
        try dsimp only
        have hp₂ : p₂ = (p₁.eat).2 := by rw [hpe₂]
        have h₂ : stepOk p₁ p₂ true := by
          rw [hp₂]
          exact eat_stepOk_strict hne₁
        obtain ⟨e₂, c₂, b₂⟩ := stepOk_true_facts h₂ (by omega)
        by_cases hcp : p₂.check .closeParen = true
        · rw [if_pos hcp]
          rcases hx : p₂.expect .closeParen with _ | ⟨cp, p₃⟩
          · exact PR.err_ne_oof _
          · try dsimp only
            exact PR.ok_ne_oof _ _
        · rw [if_neg hcp]
          cases hexp : expression fuel p₂ with
          | oof => exact absurd hexp (expression_noOof fuel p₂ (by omega) (by omega))
          | err p₃ => exact PR.err_ne_oof _
          | ok e p₃ =>
            have hpr := expression_prog fuel p₂
            rw [hexp] at hpr
            obtain ⟨e₃, c₃, b₃⟩ := stepOk_true_facts hpr (by omega)
            try dsimp only
            exact argsLoop_noOof fuel fnTok fname [e] p₃ (by omega) (by omega)
      · rw [if_neg hlp]
        exact hprim
    all_goals exact hprim
termination_by fuel

theorem argsLoop_noOof (fuel : Nat) (fnTok : Token) (fname : Symbol)
    (acc : List Expr) (p : Parser)
    (hf : 18 * (p.tokens.length - p.current) + 2 ≤ fuel)
    (hb : p.current ≤ p.tokens.length) : argsLoop fuel fnTok fname acc p ≠ .oof := by
  cases fuel with
  | zero => exact absurd hf (by omega)
  | succ fuel =>
    simp only [argsLoop]
    try dsimp only
    rcases hm : p.matchesAny [.comma] with ⟨m, p₁⟩
    try dsimp only
    cases m
    · rw [if_neg Bool.false_ne_true]
      have hp := matchesAny_false hm
      rw [hp]
      rcases hx : p.expect .closeParen with _ | ⟨cp, p₂⟩
      · exact PR.err_ne_oof _
      · try dsimp only
        exact PR.ok_ne_oof _ _
    · rw [if_pos rfl]
      obtain ⟨hs, _, _, _, _⟩ := matchesAny_true hm (by decide)
      obtain ⟨e₁, c₁, b₁⟩ := stepOk_true_facts hs hb
      cases hexp : expression fuel p₁ with
      | oof => exact absurd hexp (expression_noOof fuel p₁ (by omega) (by omega))
      | err p₂ => exact PR.err_ne_oof _
      | ok e p₂ =>
        have hpr := expression_prog fuel p₁
        rw [hexp] at hpr
        obtain ⟨e₂, c₂, b₂⟩ := stepOk_true_facts hpr (by omega)
        try dsimp only
        exact argsLoop_noOof fuel fnTok fname (acc ++ [e]) p₂ (by omega) (by omega)
termination_by fuel

theorem primary_noOof (fuel : Nat) (p : Parser)
    (hf : 18 * (p.tokens.length - p.current) + 1 ≤ fuel)
    (hb : p.current ≤ p.tokens.length) : primary fuel p ≠ .oof := by
  cases fuel with
  | zero => exact absurd hf (by omega)
  | succ fuel =>
    simp only [primary]
    cases hk : p.peek.kind
    case ident name =>
      try dsimp only
      exact PR.ok_ne_oof _ _
    case literal l =>
      try dsimp only
      exact PR.ok_ne_oof _ _
    case openParen =>
      have hne : p.is_eof = false := not_eof_of_kind hk (by intro hc0; cases hc0)
      try dsimp only
      rcases hpe : p.eat with ⟨tk, p₁⟩
      try dsimp only
      have hp₁ : p₁ = (p.eat).2 := by rw [hpe]
      have h₁ : stepOk p p₁ true := by
        rw [hp₁]
        exact eat_stepOk_strict hne
      obtain ⟨e₁, c₁, b₁⟩ := stepOk_true_facts h₁ hb
      cases hexp : expression fuel p₁ with
      | oof => exact absurd hexp (expression_noOof fuel p₁ (by omega) (by omega))
      | ok e p₂ =>
        try dsimp only
        rcases hx : p₂.expect .closeParen with _ | ⟨cp, p₃⟩
        · exact PR.err_ne_oof _
        · try dsimp only
          exact PR.ok_ne_oof _ _
      | err p₂ =>
        try dsimp only
        rcases hx : p₂.expect .closeParen with _ | ⟨cp, p₃⟩
        · exact PR.err_ne_oof _
        · try dsimp only
          exact PR.err_ne_oof _
    all_goals exact PR.err_ne_oof _
termination_by fuel

theorem declaration_noOof (fuel : Nat) (p : Parser)
    (hf : 18 * (p.tokens.length - p.current) + 15 ≤ fuel)
    (hb : p.current ≤ p.tokens.length) : declaration fuel p ≠ .oof := by
  cases fuel with
  | zero => exact absurd hf (by omega)
  | succ fuel =>
    simp only [declaration]
    have hsn : statement fuel p ≠ .oof := statement_noOof fuel p (by omega) hb
    cases hk : p.peek.kind
    case exkw =>
      try dsimp only
      cases hr : externDecl fuel p with
      | oof => exact absurd hr (externDecl_noOof fuel p (by omega) hb)
      | ok s q => exact PR.ok_ne_oof _ _
      | err q => exact PR.err_ne_oof _
    case func =>
      try dsimp only
      cases hr : funcDecl fuel p with
      | oof => exact absurd hr (funcDecl_noOof fuel p (by omega) hb)
      | ok s q => exact PR.ok_ne_oof _ _
      | err q => exact PR.err_ne_oof _
    case varkw =>
      try dsimp only
      cases hr : varDecl fuel p with
      | oof => exact absurd hr (varDecl_noOof fuel p (by omega) hb)
      | ok s q => exact PR.ok_ne_oof _ _
      | err q => exact PR.err_ne_oof _
    case impt =>
      try dsimp only
      cases hr : imptStmt p with
      | oof => exact absurd hr (imptStmt_ne_oof p)
      | ok s q => exact PR.ok_ne_oof _ _
      | err q => exact PR.err_ne_oof _
    all_goals
      try dsimp only
      cases hr : statement fuel p with
      | oof => exact absurd hr hsn
      | ok s q => exact PR.ok_ne_oof _ _
      | err q => exact PR.err_ne_oof _
termination_by fuel

theorem statement_noOof (fuel : Nat) (p : Parser)
    (hf : 18 * (p.tokens.length - p.current) + 14 ≤ fuel)
    (hb : p.current ≤ p.tokens.length) : statement fuel p ≠ .oof := by
  cases fuel with
  | zero => exact absurd hf (by omega)
  | succ fuel =>
    simp only [statement]
    have hes : exprStmt fuel p ≠ .oof := exprStmt_noOof fuel p (by omega) hb
    cases hk : p.peek.kind
    case ret => exact retStmt_noOof fuel p (by omega) hb
    case impt =>
      cases hr : imptStmt p with
      | oof => exact absurd hr (imptStmt_ne_oof p)
      | ok s q => exact PR.ok_ne_oof _ _
      | err q => exact PR.err_ne_oof _
    case openBrace =>
      have hne : p.is_eof = false := not_eof_of_kind hk (by intro hc0; cases hc0)
      try dsimp only
      rcases hpe : p.eat with ⟨ob, p₁⟩
      try dsimp only
      have hp₁ : p₁ = (p.eat).2 := by rw [hpe]
      have h₁ : stepOk p p₁ true := by
        rw [hp₁]
        exact eat_stepOk_strict hne
      obtain ⟨e₁, c₁, b₁⟩ := stepOk_true_facts h₁ hb
      cases hbk : blockFn fuel [] p₁ with
      | oof => exact absurd hbk (blockFn_noOof fuel [] p₁ (by omega) (by omega))
      | err p₂ => exact PR.err_ne_oof _
      | ok stmts p₂ =>
        try dsimp only
        exact PR.ok_ne_oof _ _
    all_goals exact hes
termination_by fuel

theorem retStmt_noOof (fuel : Nat) (p : Parser)
    (hf : 18 * (p.tokens.length - p.current) + 13 ≤ fuel)
    (hb : p.current ≤ p.tokens.length) : retStmt fuel p ≠ .oof := by
  cases fuel with
  | zero => exact absurd hf (by omega)
  | succ fuel =>
    simp only [retStmt]
    try dsimp only
    rcases hpe : p.eat with ⟨retKw, p₁⟩
    try dsimp only
    have hp₁ : p₁ = (p.eat).2 := by rw [hpe]
    have h₁ : stepOk p p₁ false := by
      rw [hp₁]
      exact eat_stepOk p
    obtain ⟨e₁, c₁, b₁⟩ := stepOk_false_facts h₁ hb
    cases hexp : expression fuel p₁ with
    | oof => exact absurd hexp (expression_noOof fuel p₁ (by omega) (by omega))
    | err p₂ => exact PR.err_ne_oof _
    | ok value p₂ =>
      try dsimp only
      rcases hx : p₂.expect .semicolon with _ | ⟨semi, p₃⟩
      · exact PR.err_ne_oof _
      · try dsimp only
        exact PR.ok_ne_oof _ _
termination_by fuel

theorem exprStmt_noOof (fuel : Nat) (p : Parser)
    (hf : 18 * (p.tokens.length - p.current) + 13 ≤ fuel)
    (hb : p.current ≤ p.tokens.length) : exprStmt fuel p ≠ .oof := by
  cases fuel with
  | zero => exact absurd hf (by omega)
  | succ fuel =>
    simp only [exprStmt]
    try dsimp only
    cases hexp : expression fuel p with
    | oof => exact absurd hexp (expression_noOof fuel p (by omega) hb)
    | err p₁ => exact PR.err_ne_oof _
    | ok e p₁ =>
      try dsimp only
      by_cases hcnd : e.is_cond = true
      · rw [if_pos hcnd]
        exact PR.ok_ne_oof _ _
      · rw [if_neg hcnd]
        rcases hx : p₁.expect .semicolon with _ | ⟨semi, p₂⟩
        · exact PR.err_ne_oof _
        · try dsimp only
          exact PR.ok_ne_oof _ _
termination_by fuel

theorem varDecl_noOof (fuel : Nat) (p : Parser)
    (hf : 18 * (p.tokens.length - p.current) + 13 ≤ fuel)
    (hb : p.current ≤ p.tokens.length) : varDecl fuel p ≠ .oof := by
  cases fuel with
  | zero => exact absurd hf (by omega)
  | succ fuel =>
    simp only [varDecl]
    try dsimp only
    rcases hpe : p.eat with ⟨varKw, p₁⟩
    try dsimp only
    have hp₁ : p₁ = (p.eat).2 := by rw [hpe]
    have h₁ : stepOk p p₁ false := by
      rw [hp₁]
      exact eat_stepOk p
    obtain ⟨e₁, c₁, b₁⟩ := stepOk_false_facts h₁ hb
    rcases hi : p₁.expect_ident with _ | ⟨name, p₂⟩
    · exact PR.err_ne_oof _
    · try dsimp only
      have h₂ := (expect_ident_some hi).1
      obtain ⟨e₂, c₂, b₂⟩ := stepOk_true_facts h₂ (by omega)
      rcases hq : p₂.expect .equal with _ | ⟨eqT, p₃⟩
      · exact PR.err_ne_oof _
      · try dsimp only
        have h₃ := (expect_some hq (by intro hc0; cases hc0)).1
        obtain ⟨e₃, c₃, b₃⟩ := stepOk_true_facts h₃ (by omega)
        cases hexp : expression fuel p₃ with
        | oof => exact absurd hexp (expression_noOof fuel p₃ (by omega) (by omega))
        | err p₄ => exact PR.err_ne_oof _
        | ok init p₄ =>
          try dsimp only
          rcases hx : p₄.expect .semicolon with _ | ⟨semi, p₅⟩
          · exact PR.err_ne_oof _
          · try dsimp only
            exact PR.ok_ne_oof _ _
termination_by fuel

theorem externDecl_noOof (fuel : Nat) (p : Parser)
    (hf : 18 * (p.tokens.length - p.current) + 13 ≤ fuel)
    (hb : p.current ≤ p.tokens.length) : externDecl fuel p ≠ .oof := by
  cases fuel with
  | zero => exact absurd hf (by omega)
  | succ fuel =>
    simp only [externDecl]
    try dsimp only
    rcases hpe : p.eat with ⟨extKw, p₁⟩
    try dsimp only
    have hp₁ : p₁ = (p.eat).2 := by rw [hpe]
    have h₁ : stepOk p p₁ false := by
      rw [hp₁]
      exact eat_stepOk p
    obtain ⟨e₁, c₁, b₁⟩ := stepOk_false_facts h₁ hb
    rcases hq : p₁.expect .func with _ | ⟨fk, p₂⟩
    · exact PR.err_ne_oof _
    · try dsimp only
      have h₂ := (expect_some hq (by intro hc0; cases hc0)).1
      obtain ⟨e₂, c₂, b₂⟩ := stepOk_true_facts h₂ (by omega)
      cases hpr : protoFn fuel p₂ with
      | oof => exact absurd hpr (protoFn_noOof fuel p₂ (by omega) (by omega))
      | err p₃ => exact PR.err_ne_oof _
      | ok proto p₃ =>
        try dsimp only
        rcases hx : p₃.expect .semicolon with _ | ⟨semi, p₄⟩
        · exact PR.err_ne_oof _
        · try dsimp only
          exact PR.ok_ne_oof _ _
termination_by fuel

theorem funcDecl_noOof (fuel : Nat) (p : Parser)
    (hf : 18 * (p.tokens.length - p.current) + 14 ≤ fuel)
    (hb : p.current ≤ p.tokens.length) : funcDecl fuel p ≠ .oof := by
  cases fuel with
  | zero => exact absurd hf (by omega)
  | succ fuel =>
    simp only [funcDecl]
    try dsimp only
    rcases hpe : p.eat with ⟨funcKw, p₁⟩
    try dsimp only
    have hp₁ : p₁ = (p.eat).2 := by rw [hpe]
    have h₁ : stepOk p p₁ false := by
      rw [hp₁]
      exact eat_stepOk p
    obtain ⟨e₁, c₁, b₁⟩ := stepOk_false_facts h₁ hb
    cases hpr : protoFn fuel p₁ with
    | oof => exact absurd hpr (protoFn_noOof fuel p₁ (by omega) (by omega))
    | err p₂ => exact PR.err_ne_oof _
    | ok proto p₂ =>
      have hpp := protoFn_prog fuel p₁
      rw [hpr] at hpp
      obtain ⟨e₂, c₂, b₂⟩ := stepOk_true_facts hpp (by omega)
      try dsimp only
      rcases hq : p₂.expect .openBrace with _ | ⟨ob, p₃⟩
      · exact PR.err_ne_oof _
      · try dsimp only
        have h₂ := (expect_some hq (by intro hc0; cases hc0)).1
        obtain ⟨e₃, c₃, b₃⟩ := stepOk_true_facts h₂ (by omega)
        cases hbk : blockFn fuel [] p₃ with
        | oof => exact absurd hbk (blockFn_noOof fuel [] p₃ (by omega) (by omega))
        | err p₄ => exact PR.err_ne_oof _
        | ok body p₄ =>
          try dsimp only
          exact PR.ok_ne_oof _ _
termination_by fuel

theorem blockFn_noOof (fuel : Nat) (acc : List Stmt) (p : Parser)
    (hf : 18 * (p.tokens.length - p.current) + 16 ≤ fuel)
    (hb : p.current ≤ p.tokens.length) : blockFn fuel acc p ≠ .oof := by
  cases fuel with
  | zero => exact absurd hf (by omega)
  | succ fuel =>
    simp only [blockFn]
    by_cases hg : ¬(p.check .closeBrace = true) ∧ ¬(p.is_eof = true)
    · rw [if_pos hg]
      cases hd : declaration fuel p with
      | oof => exact absurd hd (declaration_noOof fuel p (by omega) hb)
      | err p₁ => exact PR.err_ne_oof _
      | ok s p₁ =>
        have hpr := declaration_prog fuel p
        rw [hd] at hpr
        obtain ⟨e₁, c₁, b₁⟩ := stepOk_true_facts hpr hb
        try dsimp only
        exact blockFn_noOof fuel (acc ++ [s]) p₁ (by omega) (by omega)
    · rw [if_neg hg]
      rcases hx : p.expect .closeBrace with _ | ⟨cb, p₁⟩
      · exact PR.err_ne_oof _
      · try dsimp only
        exact PR.ok_ne_oof _ _
termination_by fuel

theorem protoFn_noOof (fuel : Nat) (p : Parser)
    (hf : 18 * (p.tokens.length - p.current) + 13 ≤ fuel)
    (hb : p.current ≤ p.tokens.length) : protoFn fuel p ≠ .oof := by
  cases fuel with
  | zero => exact absurd hf (by omega)
  | succ fuel =>
    simp only [protoFn]
    try dsimp only
    rcases hi : p.expect_ident with _ | ⟨name, p₁⟩
    · exact PR.err_ne_oof _
    · try dsimp only
      have h₁ := (expect_ident_some hi).1
      obtain ⟨e₁, c₁, b₁⟩ := stepOk_true_facts h₁ hb
      rcases hq : p₁.expect .openParen with _ | ⟨opTok, p₂⟩
      · exact PR.err_ne_oof _
      · try dsimp only
        have h₂ := (expect_some hq (by intro hc0; cases hc0)).1
        obtain ⟨e₂, c₂, b₂⟩ := stepOk_true_facts h₂ (by omega)
        by_cases hcp : p₂.check .closeParen = true
        · rw [if_pos hcp]
          try dsimp only
          rcases hx : p₂.expect .closeParen with _ | ⟨cp, p₄⟩
          · exact PR.err_ne_oof _
          · try dsimp only
            have h₄ := (expect_some hx (by intro hc0; cases hc0)).1
            obtain ⟨e₄, c₄, b₄⟩ := stepOk_true_facts h₄ (by omega)
            rcases hm : p₄.matchesAny [.colon] with ⟨m, p₅⟩
            try dsimp only
            cases m
            · rw [if_neg Bool.false_ne_true]
              exact PR.ok_ne_oof _ _
            · rw [if_pos rfl]
              obtain ⟨hs, _, _, _, _⟩ := matchesAny_true hm (by decide)
              rcases ht : typeAnnotation p₅ with _ | ⟨ret, p₆⟩
              · exact PR.err_ne_oof _
              · try dsimp only
                exact PR.ok_ne_oof _ _
        · rw [if_neg hcp]
          cases hpl : paramsLoop fuel [] p₂ with
          | oof => exact absurd hpl (paramsLoop_noOof fuel [] p₂ (by omega) (by omega))
          | err p₃ => exact PR.err_ne_oof _
          | ok params p₃ =>
            try dsimp only
            rcases hx : p₃.expect .closeParen with _ | ⟨cp, p₄⟩
            · exact PR.err_ne_oof _
            · try dsimp only
              rcases hm : p₄.matchesAny [.colon] with ⟨m, p₅⟩
              try dsimp only
              cases m
              · rw [if_neg Bool.false_ne_true]
                exact PR.ok_ne_oof _ _
              · rw [if_pos rfl]
                rcases ht : typeAnnotation p₅ with _ | ⟨ret, p₆⟩
                · exact PR.err_ne_oof _
                · try dsimp only
                  exact PR.ok_ne_oof _ _
termination_by fuel

theorem paramsLoop_noOof (fuel : Nat) (acc : List Param) (p : Parser)
    (hf : 18 * (p.tokens.length - p.current) + 2 ≤ fuel)
    (hb : p.current ≤ p.tokens.length) : paramsLoop fuel acc p ≠ .oof := by
  cases fuel with
  | zero => exact absurd hf (by omega)
  | succ fuel =>
    simp only [paramsLoop]
    rcases hi : p.expect_ident with _ | ⟨pname, p₁⟩
    · exact PR.err_ne_oof _
    · try dsimp only
      have h₁ := (expect_ident_some hi).1
      obtain ⟨e₁, c₁, b₁⟩ := stepOk_true_facts h₁ hb
      rcases hq : p₁.expect .colon with _ | ⟨cl, p₂⟩
      · exact PR.err_ne_oof _
      · try dsimp only
        have h₂ := (expect_some hq (by intro hc0; cases hc0)).1
        obtain ⟨e₂, c₂, b₂⟩ := stepOk_true_facts h₂ (by omega)
        rcases ht : typeAnnotation p₂ with _ | ⟨ty, p₃⟩
        · exact PR.err_ne_oof _
        · try dsimp only
          have h₃ := typeAnnotation_some ht
          obtain ⟨e₃, c₃, b₃⟩ := stepOk_true_facts h₃ (by omega)
          rcases hm : p₃.matchesAny [.comma] with ⟨m, p₄⟩
          try dsimp only
          cases m
          · rw [if_neg Bool.false_ne_true]
            exact PR.ok_ne_oof _ _
          · rw [if_pos rfl]
            obtain ⟨hs, _, _, _, _⟩ := matchesAny_true hm (by decide)
            obtain ⟨e₄, c₄, b₄⟩ := stepOk_true_facts hs (by omega)
            exact paramsLoop_noOof fuel (acc ++ [⟨pname, ty⟩]) p₄ (by omega) (by omega)
termination_by fuel
end

end Kip

namespace Kip

theorem declaration_err_sync {fuel : Nat} {p p₁ : Parser}
    (h : declaration fuel p = .err p₁) :
    ∃ q, stepOk p q false ∧ p₁ = q.sync := by
  cases fuel with
  | zero =>
    have h' : PR.oof (α := Stmt) = .err p₁ := h
    exact PR.noConfusion h'
  | succ fuel =>
    revert h
    simp only [declaration]
    cases hk : p.peek.kind
    case exkw =>
      try dsimp only
      cases hr : externDecl fuel p with
      | oof =>
        intro h
        have h' : PR.oof (α := Stmt) = .err p₁ := h
        exact PR.noConfusion h'
      | ok s q =>
        intro h
        have h' : PR.ok s q = .err p₁ := h
        exact PR.noConfusion h'
      | err q =>
        intro h
        have h' : PR.err (α := Stmt) q.sync = .err p₁ := h
        injection h' with he
        have hp := externDecl_prog fuel p
        rw [hr] at hp
        exact ⟨q, hp, he.symm⟩
    case func =>
      try dsimp only
      cases hr : funcDecl fuel p with
      | oof =>
        intro h
        have h' : PR.oof (α := Stmt) = .err p₁ := h
        exact PR.noConfusion h'
      | ok s q =>
        intro h
        have h' : PR.ok s q = .err p₁ := h
        exact PR.noConfusion h'
      | err q =>
        intro h
        have h' : PR.err (α := Stmt) q.sync = .err p₁ := h
        injection h' with he
        have hp := funcDecl_prog fuel p
        rw [hr] at hp
        exact ⟨q, hp, he.symm⟩
    case varkw =>
      try dsimp only
      cases hr : varDecl fuel p with
      | oof =>
        intro h
        have h' : PR.oof (α := Stmt) = .err p₁ := h
        exact PR.noConfusion h'
      | ok s q =>
        intro h
        have h' : PR.ok s q = .err p₁ := h
        exact PR.noConfusion h'
      | err q =>
        intro h
        have h' : PR.err (α := Stmt) q.sync = .err p₁ := h
        injection h' with he
        have hp := varDecl_prog fuel p
        rw [hr] at hp
        exact ⟨q, hp, he.symm⟩
    case impt =>
      try dsimp only
      cases hr : imptStmt p with
      | oof =>
        intro h
        have h' : PR.oof (α := Stmt) = .err p₁ := h
        exact PR.noConfusion h'
      | ok s q =>
        intro h
        have h' : PR.ok s q = .err p₁ := h
        exact PR.noConfusion h'
      | err q =>
        intro h
        have h' : PR.err (α := Stmt) q.sync = .err p₁ := h
        injection h' with he
        have hp := imptStmt_prog p
        rw [hr] at hp
        exact ⟨q, hp, he.symm⟩
    all_goals
      try dsimp only
      cases hr : statement fuel p with
      | oof =>
        intro h
        have h' : PR.oof (α := Stmt) = .err p₁ := h
        exact PR.noConfusion h'
      | ok s q =>
        intro h
        have h' : PR.ok s q = .err p₁ := h
        exact PR.noConfusion h'
      | err q =>
        intro h
        have h' : PR.err (α := Stmt) q.sync = .err p₁ := h
        injection h' with he
        have hp := statement_prog fuel p
        rw [hr] at hp
        exact ⟨q, hp, he.symm⟩

theorem declaration_err_progress {fuel : Nat} {p p₁ : Parser}
    (h : declaration fuel p = .err p₁) :
    stepOk p p₁ false ∧ (p.current + 1 ≤ p₁.current ∨ p₁.is_eof = true) := by
  obtain ⟨q, hq, hsync⟩ := declaration_err_sync h
  by_cases he : q.is_eof = true
  · have hqq : q.sync = q := sync_eof he
    rw [hsync, hqq]
    exact ⟨hq, Or.inr he⟩
  · have hef : q.is_eof = false := by simpa using he
    have hadv := sync_strict hef
    have hcomp : stepOk p q.sync false := sync_stepOk hq
    have hle : p.current ≤ q.current := by simpa using hq.2.1
    rw [hsync]
    exact ⟨hcomp, Or.inl (by omega)⟩

/-- `parser/mod.rs` `Parser::parse`: the top-level loop collecting one
`Result` per declaration until end of input.  The loop fuel
`tokens.length + 2` and declaration fuel `18 * tokens.length + 16` are
sufficient for every in-bounds start (see `parseGo_total`); `none`
models non-termination / fuel exhaustion and is never returned. -/
def parseGo : Nat → Nat → Parser → List (Except Unit Stmt) →
    Option (List (Except Unit Stmt))
  | 0, _, _, _ => none
  | loopFuel + 1, declFuel, p, acc =>
    if p.is_eof then some acc
    else
      match declaration declFuel p with
      | .oof => none
      | .ok s p₁ => parseGo loopFuel declFuel p₁ (acc ++ [.ok s])
      | .err p₁ => parseGo loopFuel declFuel p₁ (acc ++ [.error ()])

def Parser.parse (p : Parser) : Option (List (Except Unit Stmt)) :=
  parseGo (p.tokens.length + 2) (18 * p.tokens.length + 16) p []

theorem parseGo_total (loopFuel declFuel : Nat) (p : Parser)
    (acc : List (Except Unit Stmt))
    (hl : p.tokens.length + 2 - p.current ≤ loopFuel)
    (hd : 18 * p.tokens.length + 16 ≤ declFuel)
    (hb : p.current ≤ p.tokens.length) :
    parseGo loopFuel declFuel p acc ≠ none := by
  cases loopFuel with
  | zero => exact absurd hl (by omega)
  | succ loopFuel =>
    simp only [parseGo]
    by_cases he : p.is_eof = true
    · rw [if_pos he]
      exact fun hh => Option.noConfusion hh
    · rw [if_neg he]
      cases hdp : declaration declFuel p with
      | oof => exact absurd hdp (declaration_noOof declFuel p (by omega) hb)
      | ok s p₁ =>
        have hp := declaration_prog declFuel p
        rw [hdp] at hp
        obtain ⟨e₁, c₁, b₁⟩ := stepOk_true_facts hp hb
        exact parseGo_total loopFuel declFuel p₁ (acc ++ [.ok s])
          (by omega) (by omega) (by omega)
      | err p₁ =>
        obtain ⟨hst, hadv⟩ := declaration_err_progress hdp
        obtain ⟨e₁, c₁, b₁⟩ := stepOk_false_facts hst hb
        cases hadv with
        | inl hlt =>
          exact parseGo_total loopFuel declFuel p₁ (acc ++ [.error ()])
            (by omega) (by omega) (by omega)
        | inr heof =>
          cases loopFuel with
          | zero => exact absurd hl (by omega)
          | succ n =>
            simp only [parseGo]
            rw [if_pos heof]
            exact fun hh => Option.noConfusion hh
termination_by loopFuel

end Kip

namespace Kip

/-- Claim C10 (amended): on a parse error inside a declaration, the
parser synchronizes; `sync` advances at least one token whenever the
parser is not already at end of input (it does NOT advance at end of
input — see the counterexample), it stops only at end of input, just
past a semicolon, or on a declaration-starting keyword, and parsing a
module terminates (the fuelled top-level loop never exhausts its fuel)
for every in-bounds starting position of a finite token sequence. -/
theorem sync_advances_and_parse_terminates :
    (∀ p : Parser, p.is_eof = false → p.current + 1 ≤ (p.sync).current)
    ∧ (∀ p : Parser,
        (p.sync).is_eof = true ∨ (p.sync).previous.kind = .semicolon
        ∨ declKw ((p.sync).peek.kind) = true)
    ∧ (∀ p : Parser, p.current ≤ p.tokens.length → p.parse ≠ none) :=
  ⟨fun _ h => sync_strict h,
   fun p => sync_stop p,
   fun p hb => by
     unfold Parser.parse
     exact parseGo_total _ _ p [] (by omega) (by omega) hb⟩

/-- Witness for C10 (amended) on the concrete token stream `var x` `;`
`eof` starting at cursor 0. -/
theorem sync_advances_and_parse_terminates_witness :
    ((⟨[⟨.varkw, ⟨0, 3⟩⟩, ⟨.semicolon, ⟨4, 1⟩⟩, ⟨.eof, ⟨5, 0⟩⟩], 0⟩ :
        Parser).is_eof = false
      ∧ (0 : Nat) + 1 ≤
        ((⟨[⟨.varkw, ⟨0, 3⟩⟩, ⟨.semicolon, ⟨4, 1⟩⟩, ⟨.eof, ⟨5, 0⟩⟩], 0⟩ :
          Parser).sync).current)
    ∧ ((0 : Nat) ≤ 3
      ∧ (⟨[⟨.varkw, ⟨0, 3⟩⟩, ⟨.semicolon, ⟨4, 1⟩⟩, ⟨.eof, ⟨5, 0⟩⟩], 0⟩ :
          Parser).parse ≠ none) :=
  ⟨⟨rfl,
    sync_advances_and_parse_terminates.1
      ⟨[⟨.varkw, ⟨0, 3⟩⟩, ⟨.semicolon, ⟨4, 1⟩⟩, ⟨.eof, ⟨5, 0⟩⟩], 0⟩ rfl⟩,
   ⟨by decide,
    sync_advances_and_parse_terminates.2.2
      ⟨[⟨.varkw, ⟨0, 3⟩⟩, ⟨.semicolon, ⟨4, 1⟩⟩, ⟨.eof, ⟨5, 0⟩⟩], 0⟩
      (by decide)⟩⟩

end Kip
